import Mathlib

/-!
Verification of the LoomPy core translation pipeline.

This file embeds, as executable Lean definitions, the core of the
repository:

* src/json_traversal.py   (collect_string_paths, set_by_path)
* src/placeholder_protection.py  (extract_placeholders, restore_placeholders)
* src/translation_pipeline.py    (translate_json_values)

JSON documents are modelled by the inductive type JsonValue.  Python dict
keys are modelled by the same sum type Seg used for path segments: JSON
parsing only ever produces string keys, but Python set_by_path can insert
an integer key into a dict, so the model allows it.  Python exceptions are
modelled by the PyErr type and fallible operations return Except.
Machine floats only occur as opaque, never-inspected leaf payloads in this
core, so Number leaves carry an Int payload.
-/

namespace Loom

/-- A path segment: a dict key (string) or a list index (Python int, possibly
negative).  This is also the type of dict keys in the model. -/
inductive Seg where
  | key (s : String)
  | idx (i : Int)
deriving DecidableEq, Repr

/-- The JSON value model: Null, Boolean, Number, String, Array,
Object-with-ordered-entries.  Objects are ordered association lists,
mirroring Python dict insertion order. -/
inductive JsonValue where
  | null
  | bool (b : Bool)
  | num (n : Int)
  | str (s : String)
  | arr (xs : List JsonValue)
  | obj (kvs : List (Seg × JsonValue))

/-- Python exception classes raised by the embedded code.  The spec taxonomy
maps ValueError to RootReplacementUnsupported / CountMismatch, KeyError to
MissingKey, IndexError to IndexOutOfRange, TypeError to NotIndexable. -/
inductive PyErr where
  | valueError
  | keyError
  | indexError
  | typeError
deriving DecidableEq, Repr

/-- Python dict lookup d[k]: the value at the first (only) entry with key k. -/
def objGet? (kvs : List (Seg × JsonValue)) (k : Seg) : Option JsonValue :=
  match kvs with
  | [] => none
  | (k', v) :: rest => if k' = k then some v else objGet? rest k

/-- Python dict assignment d[k] = v: replace the value at an existing key in
place (keeping entry order), or append a new entry at the end. -/
def objSet (kvs : List (Seg × JsonValue)) (k : Seg) (v : JsonValue) :
    List (Seg × JsonValue) :=
  match kvs with
  | [] => [(k, v)]
  | (k', v') :: rest =>
    if k' = k then (k', v) :: rest else (k', v') :: objSet rest k v

/-- Python list index resolution for a list of length len: a nonnegative
index i is valid iff i < len; a negative index i is valid iff len + i >= 0,
and then addresses position len + i. -/
def pyIndex (len : Nat) (i : Int) : Option Nat :=
  if 0 ≤ i then (if i < (len : Int) then some i.toNat else none)
  else (if 0 ≤ (len : Int) + i then some ((len : Int) + i).toNat else none)

/-- Python list read l[i] with Python index semantics. -/
def listGet? (xs : List JsonValue) (i : Int) : Option JsonValue :=
  match pyIndex xs.length i with
  | some n => xs.get? n
  | none => none

mutual

/-- Embedding of collect_string_paths (src/json_traversal.py lines 6-59):
recursively collect all string values with their paths.  Strings inside
containers are collected by the parent without recursing into them; a
bare string is collected with the empty path only at the top level. -/
def collect_string_paths : JsonValue → List Seg → List (List Seg × String)
  | .obj kvs, path => collectObjItems kvs path
  | .arr xs, path => collectArrItems xs 0 path
  | .str s, path => if path = [] then [([], s)] else []
  | .null, _ => []
  | .bool _, _ => []
  | .num _, _ => []

/-- The dict branch of collect_string_paths: iterate entries in stored
order; string values are collected, containers are recursed into,
other primitives are ignored. -/
def collectObjItems : List (Seg × JsonValue) → List Seg → List (List Seg × String)
  | [], _ => []
  | (k, v) :: rest, path =>
    (match v with
     | .str s => [(path ++ [k], s)]
     | .obj kvs2 => collect_string_paths (.obj kvs2) (path ++ [k])
     | .arr xs2 => collect_string_paths (.arr xs2) (path ++ [k])
     | _ => []) ++ collectObjItems rest path

/-- The list branch of collect_string_paths: iterate elements with their
indices; string elements are collected, containers are recursed into,
other primitives are ignored. -/
def collectArrItems : List JsonValue → Nat → List Seg → List (List Seg × String)
  | [], _, _ => []
  | v :: rest, i, path =>
    (match v with
     | .str s => [(path ++ [.idx (i : Int)], s)]
     | .obj kvs2 => collect_string_paths (.obj kvs2) (path ++ [.idx (i : Int)])
     | .arr xs2 => collect_string_paths (.arr xs2) (path ++ [.idx (i : Int)])
     | _ => []) ++ collectArrItems rest (i + 1) path

end

/-- Embedding of set_by_path (src/json_traversal.py lines 62-110) as a pure
function: the Python version mutates root in place, the embedding returns
the updated tree (or the raised exception).  An empty path raises
ValueError; navigation through a dict looks the key up (KeyError when
missing), through a list resolves a Python index (IndexError when out of
range, TypeError for a string segment), and any scalar raises TypeError.
The final segment is assigned with Python container assignment: dict
assignment inserts a missing key, list assignment requires the index to be
in range. -/
def set_by_path (root : JsonValue) (path : List Seg) (value : JsonValue) :
    Except PyErr JsonValue :=
  match path, root with
  | [], _ => .error .valueError
  | [final], .obj kvs => .ok (.obj (objSet kvs final value))
  | [final], .arr xs =>
    match final with
    | .idx i =>
      match pyIndex xs.length i with
      | some n => .ok (.arr (xs.set n value))
      | none => .error .indexError
    | .key _ => .error .typeError
  | [_], _ => .error .typeError
  | seg :: s2 :: rest, .obj kvs =>
    match objGet? kvs seg with
    | some child =>
      (set_by_path child (s2 :: rest) value).map (fun c => .obj (objSet kvs seg c))
    | none => .error .keyError
  | seg :: s2 :: rest, .arr xs =>
    match seg with
    | .idx i =>
      match pyIndex xs.length i with
      | some n =>
        (set_by_path (xs.getD n .null) (s2 :: rest) value).map
          (fun c => .arr (xs.set n c))
      | none => .error .indexError
    | .key _ => .error .typeError
  | _ :: _ :: _, _ => .error .typeError

/-- Navigation down a path with the same Python semantics as the traversal
loop of set_by_path: dict lookup, Python list indexing, scalars are not
indexable.  Returns the subtree addressed by the path, if it resolves. -/
def getByPath : JsonValue → List Seg → Option JsonValue
  | v, [] => some v
  | .obj kvs, k :: rest =>
    match objGet? kvs k with
    | some v => getByPath v rest
    | none => none
  | .arr xs, .idx i :: rest =>
    match pyIndex xs.length i with
    | some n => getByPath (xs.getD n .null) rest
    | none => none
  | .arr _, .key _ :: _ => none
  | .null, _ :: _ => none
  | .bool _, _ :: _ => none
  | .num _, _ :: _ => none
  | .str _, _ :: _ => none

/-- Surgical replacement of the subtree addressed by a (resolvable) path;
used to describe the result of set_by_path.  On an unresolvable path it
returns the tree unchanged. -/
def replaceAt : JsonValue → List Seg → JsonValue → JsonValue
  | _, [], new => new
  | .obj kvs, k :: rest, new =>
    match objGet? kvs k with
    | some v => .obj (objSet kvs k (replaceAt v rest new))
    | none => .obj kvs
  | .arr xs, .idx i :: rest, new =>
    match pyIndex xs.length i with
    | some n => .arr (xs.set n (replaceAt (xs.getD n .null) rest new))
    | none => .arr xs
  | v, _ :: _, _ => v

mutual

/-- Well-formedness of a document as produced by Python json parsing or
manipulation: every object has pairwise distinct keys (Python dicts cannot
hold duplicate keys).  The embedding uses association lists, so this is a
hypothesis rather than a structural fact. -/
def wfDoc : JsonValue → Bool
  | .obj kvs => wfObjEntries kvs
  | .arr xs => wfArrEntries xs
  | _ => true

/-- Key distinctness and recursive well-formedness for object entries. -/
def wfObjEntries : List (Seg × JsonValue) → Bool
  | [] => true
  | (k, v) :: rest =>
    rest.all (fun p => !(decide (p.1 = k))) && wfDoc v && wfObjEntries rest

/-- Recursive well-formedness for array elements. -/
def wfArrEntries : List JsonValue → Bool
  | [] => true
  | v :: rest => wfDoc v && wfArrEntries rest

end

mutual

/-- Embedding of copy.deepcopy on a JSON document: structurally rebuild the
whole tree.  In the pure embedding this is the identity on values (proved
below); it is kept as a separate definition to mirror the source. -/
def deepcopy : JsonValue → JsonValue
  | .null => .null
  | .bool b => .bool b
  | .num n => .num n
  | .str s => .str s
  | .arr xs => .arr (deepcopyArr xs)
  | .obj kvs => .obj (deepcopyObj kvs)

/-- deepcopy of a list of array elements. -/
def deepcopyArr : List JsonValue → List JsonValue
  | [] => []
  | v :: rest => deepcopy v :: deepcopyArr rest

/-- deepcopy of a list of object entries. -/
def deepcopyObj : List (Seg × JsonValue) → List (Seg × JsonValue)
  | [] => []
  | (k, v) :: rest => (k, deepcopy v) :: deepcopyObj rest

end

/-! ### Placeholder protection (src/placeholder_protection.py)

Texts are processed at the level of their character lists; the public
functions below wrap them back into String.  The three regex patterns of
PLACEHOLDER_PATTERNS are embedded as deterministic matchers: each of the
three patterns, attempted at a fixed position, has at most one match (the
greedy identifier run must be maximal because the following delimiter is
not an identifier character), so no backtracking is lost. -/

/-- Character class [a-zA-Z_] heading an identifier. -/
def isIdentStart (c : Char) : Bool := c.isAlpha || c = '_'

/-- Character class [a-zA-Z0-9_] continuing an identifier. -/
def isIdentChar (c : Char) : Bool := c.isAlphanum || c = '_'

/-- Conversion characters [sdifgcr] of the printf-style patterns. -/
def isConv (c : Char) : Bool :=
  c = 's' || c = 'd' || c = 'i' || c = 'f' || c = 'g' || c = 'c' || c = 'r'

/-- Match of the brace pattern at the head of the text:
an opening brace, an identifier, a closing brace. -/
def matchBraceAt : List Char → Option (List Char)
  | '{' :: c :: rest =>
    if isIdentStart c then
      match rest.span isIdentChar with
      | (mid, '}' :: _) => some ('{' :: c :: (mid ++ ['}']))
      | _ => none
    else none
  | _ => none

/-- Match of the named-printf pattern at the head of the text:
a percent sign, a parenthesised identifier, a conversion character. -/
def matchNamedAt : List Char → Option (List Char)
  | '%' :: '(' :: c :: rest =>
    if isIdentStart c then
      match rest.span isIdentChar with
      | (mid, ')' :: cv :: _) =>
        if isConv cv then some ('%' :: '(' :: c :: (mid ++ [')', cv])) else none
      | _ => none
    else none
  | _ => none

/-- Match of the bare printf pattern at the head of the text:
a percent sign and a conversion character. -/
def matchPrintfAt : List Char → Option (List Char)
  | '%' :: c :: _ => if isConv c then some ['%', c] else none
  | _ => none

/-- Embedding of re.finditer for one matcher: scan left to right, at each
position try the matcher; on a match, record (position, matched text) and
continue after the match (non-overlapping).  The extra argument counts
characters still to skip after a match. -/
def finditerAux (M : List Char → Option (List Char)) :
    List Char → Nat → Nat → List (Nat × List Char)
  | [], _, _ => []
  | _ :: rest, pos, Nat.succ k => finditerAux M rest (pos + 1) k
  | c :: rest, pos, 0 =>
    match M (c :: rest) with
    | some m => (pos, m) :: finditerAux M rest (pos + 1) (m.length - 1)
    | none => finditerAux M rest (pos + 1) 0

/-- All matches of a matcher over a text, with their positions, leftmost
first, non-overlapping. -/
def finditer (M : List Char → Option (List Char)) (text : List Char) :
    List (Nat × List Char) :=
  finditerAux M text 0 0

/-- Text surgery protected_text[:start] + token + protected_text[end:]. -/
def subst (text : List Char) (start len : Nat) (tok : List Char) : List Char :=
  text.take start ++ tok ++ text.drop (start + len)

/-- The synthetic token f-string "__PH{n}__". -/
def mkToken (n : Nat) : List Char :=
  '_' :: '_' :: 'P' :: 'H' :: ((Nat.repr n).data ++ ['_', '_'])

/-- One step of the replacement loop of extract_placeholders: substitute the
match at (pos, m) in the current text by a fresh token, record the token in
the mapping, bump the counter. -/
def maskStep (st : List Char × Nat × List (List Char × List Char))
    (pm : Nat × List Char) : List Char × Nat × List (List Char × List Char) :=
  (subst st.1 pm.1 pm.2.length (mkToken st.2.1), st.2.1 + 1,
    st.2.2 ++ [(mkToken st.2.1, pm.2)])

/-- Processing of one pattern family by extract_placeholders: find all
matches in the current text, then substitute them from the rightmost match
to the leftmost so that earlier substitutions do not shift the offsets of
matches not yet processed. -/
def applyPattern (M : List Char → Option (List Char))
    (st : List Char × Nat × List (List Char × List Char)) :
    List Char × Nat × List (List Char × List Char) :=
  (finditer M st.1).reverse.foldl maskStep st

/-- Embedding of extract_placeholders (src/placeholder_protection.py lines
18-54) at character-list level: process the three pattern families in their
fixed order with a single counter, returning the protected text and the
token-to-placeholder mapping in insertion order. -/
def extractChars (text : List Char) : List Char × List (List Char × List Char) :=
  let s1 := applyPattern matchBraceAt (text, 0, [])
  let s2 := applyPattern matchNamedAt s1
  let s3 := applyPattern matchPrintfAt s2
  (s3.1, s3.2.2)

/-- extract_placeholders on String values. -/
def extract_placeholders (text : String) : String × List (String × String) :=
  let r := extractChars text.data
  (String.mk r.1, r.2.map (fun p => (String.mk p.1, String.mk p.2)))

/-- Python str.replace with an empty pattern: the replacement is inserted
before every character and at the end. -/
def replaceEmptyAux (s : List Char) (new : List Char) : List Char :=
  match s with
  | [] => new
  | c :: rest => new ++ c :: replaceEmptyAux rest new

/-- Python str.replace with a nonempty pattern: scan left to right; at an
occurrence emit the replacement and continue after the occurrence
(non-overlapping, the replacement is not rescanned).  The extra argument
counts matched characters still to consume. -/
def replaceNEAux (old new : List Char) : List Char → Nat → List Char
  | [], _ => []
  | _ :: rest, Nat.succ k => replaceNEAux old new rest k
  | c :: rest, 0 =>
    if old.isPrefixOf (c :: rest) then
      new ++ replaceNEAux old new rest (old.length - 1)
    else c :: replaceNEAux old new rest 0

/-- Python str.replace(old, new), replacing every occurrence. -/
def replaceAll (s old new : List Char) : List Char :=
  match old with
  | [] => replaceEmptyAux s new
  | _ :: _ => replaceNEAux old new s 0

/-- Embedding of restore_placeholders (src/placeholder_protection.py lines
57-79): replace each token by its original placeholder, in mapping
(insertion) order. -/
def restore_placeholders (text : String) (mapping : List (String × String)) :
    String :=
  String.mk (mapping.foldl (fun t p => replaceAll t p.1.data p.2.data) text.data)

/-! ### Translation pipeline (src/translation_pipeline.py) -/

/-- Embedding of translate_json_values (src/translation_pipeline.py lines
10-83).  The injected rewrite function is modelled as a pure function on
lists of strings; the ValueError raised on a length mismatch and any error
propagating from set_by_path surface in the Except result.  The Python
version mutates a deep copy in place; the embedding threads the copy
through the write-back loop. -/
def translate_json_values (json_data : JsonValue)
    (translate_func : List String → List String) : Except PyErr JsonValue :=
  let string_paths := collect_string_paths json_data []
  if string_paths = [] then .ok (deepcopy json_data)
  else
    let masked := string_paths.map (fun pr => extract_placeholders pr.2)
    let protected_texts := masked.map Prod.fst
    let placeholder_mappings := masked.map Prod.snd
    let translated_texts := translate_func protected_texts
    if translated_texts.length ≠ protected_texts.length then .error .valueError
    else
      let restored_texts := (translated_texts.zip placeholder_mappings).map
        (fun pr => restore_placeholders pr.1 pr.2)
      (string_paths.zip restored_texts).foldlM
        (fun result pr =>
          if pr.1.1 = [] then .ok (.str pr.2)
          else set_by_path result pr.1.1 (.str pr.2))
        (deepcopy json_data)

/-- Round-trip operation of testable property 1 of the spec: write every
extracted string back into a copy of the document at its own path. -/
def writeBackAll (d : JsonValue) : Except PyErr JsonValue :=
  (collect_string_paths d []).foldlM
    (fun acc pr => set_by_path acc pr.1 (.str pr.2)) (deepcopy d)

/-- Scalar (non-container) values: Number, Boolean, Null, String. -/
def isScalar : JsonValue → Bool
  | .null => true
  | .bool _ => true
  | .num _ => true
  | .str _ => true
  | .arr _ => false
  | .obj _ => false

/-! ## Basic lemmas -/

mutual

theorem deepcopy_eq : ∀ v, deepcopy v = v
  | .null => rfl
  | .bool _ => rfl
  | .num _ => rfl
  | .str _ => rfl
  | .arr xs => by rw [deepcopy, deepcopyArr_eq]
  | .obj kvs => by rw [deepcopy, deepcopyObj_eq]

theorem deepcopyArr_eq : ∀ xs, deepcopyArr xs = xs
  | [] => rfl
  | v :: rest => by rw [deepcopyArr, deepcopy_eq v, deepcopyArr_eq rest]

theorem deepcopyObj_eq : ∀ kvs, deepcopyObj kvs = kvs
  | [] => rfl
  | (k, v) :: rest => by rw [deepcopyObj, deepcopy_eq v, deepcopyObj_eq rest]

end

theorem objGet?_objSet_self (kvs : List (Seg × JsonValue)) (k : Seg) (v : JsonValue)
    (h : (objGet? kvs k).isSome) : objGet? (objSet kvs k v) k = some v := by
  induction kvs with
  | nil => simp [objGet?] at h
  | cons hd tl ih =>
    obtain ⟨k', v'⟩ := hd
    by_cases hk : k' = k
    · simp [objGet?, objSet, hk]
    · simp [objGet?, objSet, hk] at h ⊢
      exact ih h

theorem objGet?_objSet_ne (kvs : List (Seg × JsonValue)) (k k' : Seg) (v : JsonValue)
    (h : k' ≠ k) : objGet? (objSet kvs k v) k' = objGet? kvs k' := by
  have hne : k ≠ k' := Ne.symm h
  induction kvs with
  | nil => simp [objGet?, objSet, hne]
  | cons hd tl ih =>
    obtain ⟨k₀, v₀⟩ := hd
    by_cases hk : k₀ = k
    · subst hk
      simp [objGet?, objSet, hne]
    · simp [objGet?, objSet, hk, ih]

theorem objSet_self (kvs : List (Seg × JsonValue)) (k : Seg) (v : JsonValue)
    (h : objGet? kvs k = some v) : objSet kvs k v = kvs := by
  induction kvs with
  | nil => simp [objGet?] at h
  | cons hd tl ih =>
    obtain ⟨k', v'⟩ := hd
    by_cases hk : k' = k
    · simp [objGet?, hk] at h
      simp [objSet, hk, h]
    · simp [objGet?, hk] at h
      simp [objSet, hk, ih h]

theorem objSet_missing (kvs : List (Seg × JsonValue)) (k : Seg) (v : JsonValue)
    (h : objGet? kvs k = none) : objSet kvs k v = kvs ++ [(k, v)] := by
  induction kvs with
  | nil => simp [objSet]
  | cons hd tl ih =>
    obtain ⟨k', v'⟩ := hd
    by_cases hk : k' = k
    · simp [objGet?, hk] at h
    · simp [objGet?, hk] at h
      simp [objSet, hk, ih h]

theorem objSet_keys (kvs : List (Seg × JsonValue)) (k : Seg) (v : JsonValue)
    (h : (objGet? kvs k).isSome) :
    (objSet kvs k v).map Prod.fst = kvs.map Prod.fst := by
  induction kvs with
  | nil => simp [objGet?] at h
  | cons hd tl ih =>
    obtain ⟨k', v'⟩ := hd
    by_cases hk : k' = k
    · simp [objSet, hk]
    · simp [objGet?, hk] at h
      simp [objSet, hk, ih h]

theorem objGet?_isSome_of_mem_keys (kvs : List (Seg × JsonValue)) (k : Seg) (v : JsonValue)
    (h : objGet? kvs k = some v) : k ∈ kvs.map Prod.fst := by
  induction kvs with
  | nil => simp [objGet?] at h
  | cons hd tl ih =>
    obtain ⟨k', v'⟩ := hd
    by_cases hk : k' = k
    · simp [hk]
    · simp [objGet?, hk] at h
      simp [ih h]

theorem pyIndex_lt (len : Nat) (i : Int) (n : Nat) (h : pyIndex len i = some n) :
    n < len := by
  unfold pyIndex at h
  split at h
  · split at h
    · rename_i h0 hlt
      cases h
      omega
    · cases h
  · split at h
    · rename_i h0 hge
      cases h
      omega
    · cases h

theorem pyIndex_nonneg (len : Nat) (i : Int) (h0 : 0 ≤ i) (hlt : i < (len : Int)) :
    pyIndex len i = some i.toNat := by
  simp [pyIndex, h0, hlt]

theorem pyIndex_neg (len : Nat) (i : Int) (h0 : i < 0) (hge : 0 ≤ (len : Int) + i) :
    pyIndex len i = some ((len : Int) + i).toNat := by
  simp [pyIndex, h0.not_le, hge, Int.not_le.mpr h0]

theorem pyIndex_none (len : Nat) (i : Int) (h : (len : Int) ≤ i ∨ i < -(len : Int)) :
    pyIndex len i = none := by
  rcases h with h | h
  · have h0 : 0 ≤ i := le_trans (by positivity) h
    simp [pyIndex, h0, Int.not_lt.mpr h]
  · have h0 : ¬ 0 ≤ i := by omega
    have : ¬ 0 ≤ (len : Int) + i := by omega
    simp [pyIndex, h0, this]

theorem except_map_map {α β γ : Type} (x : Except PyErr α) (f : α → β) (g : β → γ) :
    (x.map f).map g = x.map (fun a => g (f a)) := by
  cases x <;> rfl

theorem list_set_getD_self (xs : List JsonValue) (n : Nat) (h : n < xs.length) :
    xs.set n (xs.getD n .null) = xs := by
  induction xs generalizing n with
  | nil => simp at h
  | cons a tl ih =>
    cases n with
    | zero => simp
    | succ m =>
      simp only [List.length_cons] at h
      simpa using ih m (by omega)

/-! ## Characterization of set_by_path through resolvable prefixes -/

theorem set_ok : ∀ (p : List Seg) (root old v : JsonValue),
    getByPath root p = some old → p ≠ [] →
    set_by_path root p v = .ok (replaceAt root p v) := by
  intro p
  induction p with
  | nil => exact fun root old v _ hne => absurd rfl hne
  | cons s1 rest ih =>
    intro root old v h _
    cases rest with
    | nil =>
      cases root with
      | obj kvs =>
        simp only [getByPath] at h
        cases hg : objGet? kvs s1 with
        | none => rw [hg] at h; cases h
        | some w => simp [set_by_path, replaceAt, hg]
      | arr xs =>
        cases s1 with
        | key s => simp [getByPath] at h
        | idx i =>
          simp only [getByPath] at h
          cases hg : pyIndex xs.length i with
          | none => rw [hg] at h; cases h
          | some n => simp [set_by_path, replaceAt, hg]
      | null => simp [getByPath] at h
      | bool b => simp [getByPath] at h
      | num n => simp [getByPath] at h
      | str s => simp [getByPath] at h
    | cons s2 rest' =>
      cases root with
      | obj kvs =>
        simp only [getByPath] at h
        cases hg : objGet? kvs s1 with
        | none => rw [hg] at h; cases h
        | some child =>
          rw [hg] at h
          simp only at h
          simp only [set_by_path, hg]
          rw [ih child old v h (by simp)]
          simp [replaceAt, hg, Except.map]
      | arr xs =>
        cases s1 with
        | key s => simp [getByPath] at h
        | idx i =>
          simp only [getByPath] at h
          cases hg : pyIndex xs.length i with
          | none => rw [hg] at h; cases h
          | some n =>
            rw [hg] at h
            simp only at h
            simp only [set_by_path, hg]
            rw [ih _ old v h (by simp)]
            simp [replaceAt, hg, Except.map]
      | null => simp [getByPath] at h
      | bool b => simp [getByPath] at h
      | num n => simp [getByPath] at h
      | str s => simp [getByPath] at h

theorem set_through : ∀ (pre : List Seg) (root sub : JsonValue),
    getByPath root pre = some sub → ∀ (q : List Seg) (v : JsonValue), q ≠ [] →
    set_by_path root (pre ++ q) v =
      (set_by_path sub q v).map (fun s => replaceAt root pre s) := by
  intro pre
  induction pre with
  | nil =>
    intro root sub h q v _
    simp only [getByPath, Option.some.injEq] at h
    subst h
    simp only [List.nil_append, replaceAt]
    cases set_by_path root q v <;> rfl
  | cons s1 pre' ih =>
    intro root sub h q v hq
    have hne : pre' ++ q ≠ [] := by
      intro hc
      exact hq (List.append_eq_nil.mp hc).2
    cases root with
    | obj kvs =>
      simp only [getByPath] at h
      cases hg : objGet? kvs s1 with
      | none => rw [hg] at h; cases h
      | some child =>
        rw [hg] at h
        cases hpq : pre' ++ q with
        | nil => exact absurd hpq hne
        | cons s2 rest =>
          have lhs : set_by_path (.obj kvs) ((s1 :: pre') ++ q) v =
              (set_by_path child (pre' ++ q) v).map
                (fun c => .obj (objSet kvs s1 c)) := by
            rw [List.cons_append, hpq]
            simp [set_by_path, hg]
          rw [lhs, ih child sub h q v hq, except_map_map]
          congr 1
          funext s
          simp [replaceAt, hg]
    | arr xs =>
      cases s1 with
      | key s => simp [getByPath] at h
      | idx i =>
        simp only [getByPath] at h
        cases hg : pyIndex xs.length i with
        | none => rw [hg] at h; cases h
        | some n =>
          rw [hg] at h
          cases hpq : pre' ++ q with
          | nil => exact absurd hpq hne
          | cons s2 rest =>
            have lhs : set_by_path (.arr xs) ((Seg.idx i :: pre') ++ q) v =
                (set_by_path (xs.getD n .null) (pre' ++ q) v).map
                  (fun c => .arr (xs.set n c)) := by
              rw [List.cons_append, hpq]
              simp [set_by_path, hg]
            rw [lhs, ih _ sub h q v hq, except_map_map]
            congr 1
            funext s
            simp [replaceAt, hg]
    | null => simp [getByPath] at h
    | bool b => simp [getByPath] at h
    | num n => simp [getByPath] at h
    | str s => simp [getByPath] at h

theorem replaceAt_same : ∀ (p : List Seg) (d x : JsonValue),
    getByPath d p = some x → replaceAt d p x = d := by
  intro p
  induction p with
  | nil =>
    intro d x h
    simp only [getByPath, Option.some.injEq] at h
    simp [replaceAt, h]
  | cons s1 rest ih =>
    intro d x h
    cases d with
    | obj kvs =>
      simp only [getByPath] at h
      cases hg : objGet? kvs s1 with
      | none => rw [hg] at h; cases h
      | some child =>
        rw [hg] at h
        simp [replaceAt, hg, ih _ _ h, objSet_self _ _ _ hg]
    | arr xs =>
      cases s1 with
      | key s => simp [getByPath] at h
      | idx i =>
        simp only [getByPath] at h
        cases hg : pyIndex xs.length i with
        | none => rw [hg] at h; cases h
        | some n =>
          rw [hg] at h
          simp only at h
          simp only [replaceAt, hg]
          rw [ih _ _ h, list_set_getD_self xs n (pyIndex_lt _ _ _ hg)]
    | null => simp [getByPath] at h
    | bool b => simp [getByPath] at h
    | num n => simp [getByPath] at h
    | str s => simp [getByPath] at h

theorem set_scalar_typeError : ∀ (root : JsonValue) (p : List Seg) (v : JsonValue),
    isScalar root = true → p ≠ [] → set_by_path root p v = .error .typeError := by
  intro root p v hs hp
  cases p with
  | nil => exact absurd rfl hp
  | cons s1 rest =>
    cases rest with
    | nil => cases root <;> simp_all [isScalar, set_by_path]
    | cons s2 rest' => cases root <;> simp_all [isScalar, set_by_path]

theorem set_missing_key (kvs : List (Seg × JsonValue)) (k : Seg) (rest : List Seg)
    (v : JsonValue) (hg : objGet? kvs k = none) (hr : rest ≠ []) :
    set_by_path (.obj kvs) (k :: rest) v = .error .keyError := by
  cases rest with
  | nil => exact absurd rfl hr
  | cons s2 rest' => simp [set_by_path, hg]

theorem set_bad_index (xs : List JsonValue) (i : Int) (rest : List Seg) (v : JsonValue)
    (hg : pyIndex xs.length i = none) :
    set_by_path (.arr xs) (.idx i :: rest) v = .error .indexError := by
  cases rest with
  | nil => simp [set_by_path, hg]
  | cons s2 rest' => simp [set_by_path, hg]

/-- Claim C2, counterexample: with root the empty object and path the single
segment "a" — a final segment that is an object key absent from the
addressed object — set_by_path does not signal any error: it inserts the
key and modifies the tree, contradicting the claim that the final segment
must already exist. -/
theorem claim_C2_counterexample :
    set_by_path (.obj []) [Seg.key "a"] (.num 1) = .ok (.obj [(Seg.key "a", .num 1)])
    ∧ ∀ (e : PyErr), set_by_path (.obj []) [Seg.key "a"] (.num 1) ≠ .error e := by
  refine ⟨rfl, ?_⟩
  intro e h
  simp [set_by_path, objSet] at h

/-- Claim C2 (amended): set_by_path's failure taxonomy.  An empty path
signals ValueError (RootReplacementUnsupported); resolving to a scalar
that still has path segments left signals TypeError (NotIndexable);
resolving through a missing object key with at least one further segment
signals KeyError (MissingKey); an unresolvable array index — as final
segment or not — signals IndexError (IndexOutOfRange).  Unlike the
original claim, a final object key absent from the addressed object is NOT
an error: the key is inserted at the end of that object. -/
theorem claim_C2_amended :
    (∀ (root v : JsonValue), set_by_path root [] v = .error .valueError)
    ∧ (∀ (root : JsonValue) (pre : List Seg) (x : JsonValue) (rest : List Seg)
        (v : JsonValue),
        getByPath root pre = some x → isScalar x = true → rest ≠ [] →
        set_by_path root (pre ++ rest) v = .error .typeError)
    ∧ (∀ (root : JsonValue) (pre : List Seg) (kvs : List (Seg × JsonValue)) (k : Seg)
        (rest : List Seg) (v : JsonValue),
        getByPath root pre = some (.obj kvs) → objGet? kvs k = none → rest ≠ [] →
        set_by_path root (pre ++ k :: rest) v = .error .keyError)
    ∧ (∀ (root : JsonValue) (pre : List Seg) (xs : List JsonValue) (i : Int)
        (rest : List Seg) (v : JsonValue),
        getByPath root pre = some (.arr xs) → pyIndex xs.length i = none →
        set_by_path root (pre ++ .idx i :: rest) v = .error .indexError)
    ∧ (∀ (root : JsonValue) (pre : List Seg) (kvs : List (Seg × JsonValue)) (k : Seg)
        (v : JsonValue),
        getByPath root pre = some (.obj kvs) → objGet? kvs k = none →
        set_by_path root (pre ++ [k]) v =
          .ok (replaceAt root pre (.obj (kvs ++ [(k, v)])))) := by
  refine ⟨?_, ?_, ?_, ?_, ?_⟩
  · intro root v
    cases root <;> rfl
  · intro root pre x rest v h hs hr
    rw [set_through pre root x h rest v hr, set_scalar_typeError x rest v hs hr]
    rfl
  · intro root pre kvs k rest v h hg hr
    rw [set_through pre root _ h (k :: rest) v (by simp),
      set_missing_key kvs k rest v hg hr]
    rfl
  · intro root pre xs i rest v h hg
    rw [set_through pre root _ h (.idx i :: rest) v (by simp),
      set_bad_index xs i rest v hg]
    rfl
  · intro root pre kvs k v h hg
    rw [set_through pre root _ h [k] v (by simp)]
    simp [set_by_path, objSet_missing kvs k v hg, Except.map]

/-- Witness for claim C2 (amended): each failure mode exercised at a
concrete input, plus the insertion behavior of a missing final key. -/
theorem claim_C2_amended_witness :
    set_by_path (.num 3) [] (.num 1) = .error .valueError
    ∧ set_by_path (.obj [(Seg.key "a", .num 7)]) [Seg.key "a", Seg.key "b"] (.num 1)
        = .error .typeError
    ∧ set_by_path (.obj [(Seg.key "a", .obj [])]) [Seg.key "b", Seg.key "c"] (.num 1)
        = .error .keyError
    ∧ set_by_path (.obj [(Seg.key "a", .arr [.num 0])]) [Seg.key "a", Seg.idx 5] (.num 1)
        = .error .indexError
    ∧ set_by_path (.obj [(Seg.key "a", .obj [])]) [Seg.key "a", Seg.key "b"] (.num 1)
        = .ok (.obj [(Seg.key "a", .obj [(Seg.key "b", .num 1)])]) := by
  refine ⟨claim_C2_amended.1 (.num 3) (.num 1), ?_, ?_, ?_, ?_⟩
  · exact claim_C2_amended.2.1 (.obj [(Seg.key "a", .num 7)]) [Seg.key "a"] (.num 7)
      [Seg.key "b"] (.num 1) rfl rfl (by simp)
  · exact claim_C2_amended.2.2.1 (.obj [(Seg.key "a", .obj [])]) [] [(Seg.key "a", .obj [])]
      (Seg.key "b") [Seg.key "c"] (.num 1) rfl rfl (by simp)
  · exact claim_C2_amended.2.2.2.1 (.obj [(Seg.key "a", .arr [.num 0])]) [Seg.key "a"]
      [.num 0] 5 [] (.num 1) rfl (by decide)
  · exact claim_C2_amended.2.2.2.2 (.obj [(Seg.key "a", .obj [])]) [Seg.key "a"] []
      (Seg.key "b") (.num 1) rfl rfl

/-- Claim C10: a final array segment with a negative index i satisfying
-L <= i <= -1 (L the addressed array's length) is not an error: it replaces
the element at position L + i.  A final array segment fails with IndexError
(IndexOutOfRange) exactly when i >= L or i < -L. -/
theorem claim_C10 : ∀ (root : JsonValue) (pre : List Seg) (xs : List JsonValue)
    (i : Int) (v : JsonValue), getByPath root pre = some (.arr xs) →
    ((-(xs.length : Int) ≤ i ∧ i ≤ -1 →
      set_by_path root (pre ++ [Seg.idx i]) v =
        .ok (replaceAt root pre (.arr (xs.set ((xs.length : Int) + i).toNat v))))
    ∧ ((xs.length : Int) ≤ i ∨ i < -(xs.length : Int) →
      set_by_path root (pre ++ [Seg.idx i]) v = .error .indexError)) := by
  intro root pre xs i v h
  constructor
  · rintro ⟨h1, h2⟩
    have hg : pyIndex xs.length i = some ((xs.length : Int) + i).toNat :=
      pyIndex_neg _ _ (by omega) (by omega)
    rw [set_through pre root _ h [Seg.idx i] v (by simp)]
    simp [set_by_path, hg, Except.map]
  · intro hOOR
    rw [set_through pre root _ h [Seg.idx i] v (by simp),
      set_bad_index xs i [] v (pyIndex_none _ _ hOOR)]
    rfl

/-! ## Frame property machinery: canonical paths and shape observation

A Python path may address an array element through a negative index, so two
distinct paths can address the same node.  Nodes of the tree are named by
canonical paths (object keys and nonnegative in-range indices); canonPath
rewrites a resolvable path to the canonical path of the node it addresses. -/

/-- Canonicalize a path against a document: keep dict keys, replace every
Python array index by the nonnegative position it resolves to. -/
def canonPath : JsonValue → List Seg → Option (List Seg)
  | _, [] => some []
  | .obj kvs, k :: rest =>
    match objGet? kvs k with
    | some v => (canonPath v rest).map (fun q => k :: q)
    | none => none
  | .arr xs, .idx i :: rest =>
    match pyIndex xs.length i with
    | some n => (canonPath (xs.getD n .null) rest).map (fun q => .idx (n : Int) :: q)
    | none => none
  | .arr _, .key _ :: _ => none
  | .null, _ :: _ => none
  | .bool _, _ :: _ => none
  | .num _, _ :: _ => none
  | .str _, _ :: _ => none

/-- A path is canonical when all its array indices are nonnegative (so equal
segments mean equal positions). -/
def canonSegs (q : List Seg) : Bool :=
  q.all (fun s => match s with | .idx i => decide (0 ≤ i) | .key _ => true)

mutual

/-- All object keys of the document are strings, at every nesting level:
true of every document produced by JSON parsing (the model's Seg-typed dict
keys admit the integer keys Python set_by_path can insert, which JSON
documents never contain). -/
def strKeys : JsonValue → Bool
  | .obj kvs => strKeysObj kvs
  | .arr xs => strKeysArr xs
  | _ => true

/-- String-keyedness of object entries. -/
def strKeysObj : List (Seg × JsonValue) → Bool
  | [] => true
  | (k, v) :: rest =>
    (match k with | .key _ => true | .idx _ => false) && strKeys v && strKeysObj rest

/-- String-keyedness of array elements. -/
def strKeysArr : List JsonValue → Bool
  | [] => true
  | v :: rest => strKeys v && strKeysArr rest

end

theorem strKeys_objGet? (kvs : List (Seg × JsonValue)) (k : Seg) (v : JsonValue)
    (hw : strKeysObj kvs = true) (hg : objGet? kvs k = some v) :
    (∃ s, k = .key s) ∧ strKeys v = true := by
  induction kvs with
  | nil => simp [objGet?] at hg
  | cons hd tl ih =>
    obtain ⟨k', v'⟩ := hd
    simp only [strKeysObj, Bool.and_eq_true] at hw
    by_cases hk : k' = k
    · subst hk
      simp [objGet?] at hg
      subst hg
      cases k' with
      | key s => exact ⟨⟨s, rfl⟩, hw.1.2⟩
      | idx i => simp at hw
    · simp only [objGet?, if_neg hk] at hg
      exact ih hw.2 hg

theorem strKeys_getD (xs : List JsonValue) (n : Nat) (hw : strKeysArr xs = true)
    (hn : n < xs.length) : strKeys (xs.getD n .null) = true := by
  induction xs generalizing n with
  | nil => simp at hn
  | cons a tl ih =>
    simp only [strKeysArr, Bool.and_eq_true] at hw
    cases n with
    | zero => simpa using hw.1
    | succ m =>
      simp only [List.length_cons] at hn
      simpa using ih m hw.2 (by omega)

/-- The shape of a container node: ordered key list for an object, length
for an array, nothing for a scalar. -/
def containerShape : JsonValue → Option (List Seg ⊕ Nat)
  | .obj kvs => some (.inl (kvs.map Prod.fst))
  | .arr xs => some (.inr xs.length)
  | _ => none

/-- The container shape of the node addressed by a path, if any. -/
def shapeAt (root : JsonValue) (q : List Seg) : Option (List Seg ⊕ Nat) :=
  (getByPath root q).bind containerShape

theorem list_getD_set_self (xs : List JsonValue) (n : Nat) (x : JsonValue)
    (h : n < xs.length) : (xs.set n x).getD n .null = x := by
  induction xs generalizing n with
  | nil => simp at h
  | cons a tl ih =>
    cases n with
    | zero => simp
    | succ m =>
      simp only [List.length_cons] at h
      simpa using ih m (by omega)

theorem list_getD_set_ne (xs : List JsonValue) (n m : Nat) (x : JsonValue)
    (h : m ≠ n) : (xs.set n x).getD m .null = xs.getD m .null := by
  induction xs generalizing n m with
  | nil => simp
  | cons a tl ih =>
    cases n with
    | zero =>
      cases m with
      | zero => exact absurd rfl h
      | succ m' => simp
    | succ n' =>
      cases m with
      | zero => simp
      | succ m' => simpa using ih n' m' (by omega)

theorem canon_replaceAt : ∀ (p : List Seg) (root : JsonValue) (phat : List Seg)
    (v : JsonValue), canonPath root p = some phat →
    replaceAt root p v = replaceAt root phat v := by
  intro p
  induction p with
  | nil =>
    intro root phat v h
    simp only [canonPath, Option.some.injEq] at h
    rw [← h]
  | cons s rest ih =>
    intro root phat v h
    cases root with
    | obj kvs =>
      simp only [canonPath] at h
      cases hg : objGet? kvs s with
      | none => rw [hg] at h; cases h
      | some child =>
        rw [hg] at h
        simp only [Option.map_eq_some'] at h
        obtain ⟨q', hq', rfl⟩ := h
        simp [replaceAt, hg, ih child q' v hq']
    | arr xs =>
      cases s with
      | key s => simp [canonPath] at h
      | idx i =>
        simp only [canonPath] at h
        cases hg : pyIndex xs.length i with
        | none => rw [hg] at h; cases h
        | some n =>
          rw [hg] at h
          simp only [Option.map_eq_some'] at h
          obtain ⟨q', hq', rfl⟩ := h
          have hn : pyIndex xs.length ((n : Nat) : Int) = some n := by
            rw [pyIndex_nonneg _ _ (by positivity)
              (by exact_mod_cast pyIndex_lt _ _ _ hg)]
            simp
          simp only [replaceAt, hg, hn, ih _ q' v hq']
    | null => simp [canonPath] at h
    | bool b => simp [canonPath] at h
    | num n => simp [canonPath] at h
    | str s => simp [canonPath] at h

theorem canon_get : ∀ (p : List Seg) (root : JsonValue) (phat : List Seg),
    canonPath root p = some phat → getByPath root phat = getByPath root p := by
  intro p
  induction p with
  | nil =>
    intro root phat h
    simp only [canonPath, Option.some.injEq] at h
    rw [← h]
  | cons s rest ih =>
    intro root phat h
    cases root with
    | obj kvs =>
      simp only [canonPath] at h
      cases hg : objGet? kvs s with
      | none => rw [hg] at h; cases h
      | some child =>
        rw [hg] at h
        simp only [Option.map_eq_some'] at h
        obtain ⟨q', hq', rfl⟩ := h
        simp [getByPath, hg, ih child q' hq']
    | arr xs =>
      cases s with
      | key s => simp [canonPath] at h
      | idx i =>
        simp only [canonPath] at h
        cases hg : pyIndex xs.length i with
        | none => rw [hg] at h; cases h
        | some n =>
          rw [hg] at h
          simp only [Option.map_eq_some'] at h
          obtain ⟨q', hq', rfl⟩ := h
          have hn : pyIndex xs.length ((n : Nat) : Int) = some n := by
            rw [pyIndex_nonneg _ _ (by positivity)
              (by exact_mod_cast pyIndex_lt _ _ _ hg)]
            simp
          simp only [getByPath, hg, hn, ih _ q' hq']
    | null => simp [canonPath] at h
    | bool b => simp [canonPath] at h
    | num n => simp [canonPath] at h
    | str s => simp [canonPath] at h

theorem canon_canonSegs : ∀ (p : List Seg) (root : JsonValue) (phat : List Seg),
    strKeys root = true → canonPath root p = some phat → canonSegs phat = true := by
  intro p
  induction p with
  | nil =>
    intro root phat _ h
    simp only [canonPath, Option.some.injEq] at h
    rw [← h]
    rfl
  | cons s rest ih =>
    intro root phat hw h
    cases root with
    | obj kvs =>
      simp only [canonPath] at h
      cases hg : objGet? kvs s with
      | none => rw [hg] at h; cases h
      | some child =>
        rw [hg] at h
        simp only [Option.map_eq_some'] at h
        obtain ⟨q', hq', rfl⟩ := h
        obtain ⟨⟨str, hstr⟩, hwc⟩ := strKeys_objGet? kvs s child (by simpa [strKeys] using hw) hg
        have := ih child q' hwc hq'
        subst hstr
        simp_all [canonSegs]
    | arr xs =>
      cases s with
      | key s => simp [canonPath] at h
      | idx i =>
        simp only [canonPath] at h
        cases hg : pyIndex xs.length i with
        | none => rw [hg] at h; cases h
        | some n =>
          rw [hg] at h
          simp only [Option.map_eq_some'] at h
          obtain ⟨q', hq', rfl⟩ := h
          have hwc : strKeys (xs.getD n .null) = true :=
            strKeys_getD xs n (by simpa [strKeys] using hw) (pyIndex_lt _ _ _ hg)
          have := ih _ q' hwc hq'
          simp_all [canonSegs]
    | null => simp [canonPath] at h
    | bool b => simp [canonPath] at h
    | num n => simp [canonPath] at h
    | str s => simp [canonPath] at h

theorem get_replaceAt_self : ∀ (p : List Seg) (root old v : JsonValue),
    getByPath root p = some old → getByPath (replaceAt root p v) p = some v := by
  intro p
  induction p with
  | nil => intro root old v _; simp [replaceAt, getByPath]
  | cons s rest ih =>
    intro root old v h
    cases root with
    | obj kvs =>
      simp only [getByPath] at h
      cases hg : objGet? kvs s with
      | none => rw [hg] at h; cases h
      | some child =>
        rw [hg] at h
        simp only at h
        have hs : (objGet? kvs s).isSome := by rw [hg]; rfl
        simp only [replaceAt, hg, getByPath,
          objGet?_objSet_self kvs s (replaceAt child rest v) hs]
        exact ih child old v h
    | arr xs =>
      cases s with
      | key s => simp [getByPath] at h
      | idx i =>
        simp only [getByPath] at h
        cases hg : pyIndex xs.length i with
        | none => rw [hg] at h; cases h
        | some n =>
          rw [hg] at h
          simp only at h
          have hlen : pyIndex (xs.set n (replaceAt (xs.getD n .null) rest v)).length i
              = some n := by
            rw [List.length_set]
            exact hg
          simp only [replaceAt, hg, getByPath, hlen,
            list_getD_set_self xs n _ (pyIndex_lt _ _ _ hg)]
          exact ih _ old v h
    | null => simp [getByPath] at h
    | bool b => simp [getByPath] at h
    | num n => simp [getByPath] at h
    | str s => simp [getByPath] at h

theorem frame_disjoint : ∀ (phat q : List Seg) (root v : JsonValue),
    canonSegs phat = true → canonSegs q = true →
    ¬ (phat <+: q) → ¬ (q <+: phat) →
    getByPath (replaceAt root phat v) q = getByPath root q := by
  intro phat
  induction phat with
  | nil => intro q root v _ _ hnp _; exact absurd (List.nil_prefix) hnp
  | cons s phat' ih =>
    intro q root v hcp hcq hnp hnq
    cases q with
    | nil => exact absurd (List.nil_prefix) hnq
    | cons t q' =>
      cases root with
      | null => rfl
      | bool b => rfl
      | num n => rfl
      | str str => rfl
      | obj kvs =>
        cases hg : objGet? kvs s with
        | none => simp [replaceAt, hg]
        | some child =>
          have hs : (objGet? kvs s).isSome := by rw [hg]; rfl
          by_cases hts : t = s
          · subst hts
            have hp' : ¬ (phat' <+: q') := fun hc => hnp (by simpa using hc)
            have hq' : ¬ (q' <+: phat') := fun hc => hnq (by simpa using hc)
            simp only [replaceAt, hg, getByPath,
              objGet?_objSet_self kvs t (replaceAt child phat' v) hs]
            rw [ih q' child v (by simp_all [canonSegs]) (by simp_all [canonSegs]) hp' hq']
          · simp only [replaceAt, hg, getByPath,
              objGet?_objSet_ne kvs s t (replaceAt child phat' v) hts]
      | arr xs =>
        cases s with
        | key s => rfl
        | idx i =>
          cases hg : pyIndex xs.length i with
          | none => simp [replaceAt, hg]
          | some n =>
            have hi : 0 ≤ i := by
              have := hcp
              simp [canonSegs] at this
              exact this.1
            have hin : (n : Int) = i := by
              rw [pyIndex_nonneg _ _ hi
                (by
                  have := pyIndex_lt _ _ _ hg
                  by_contra hc
                  rw [pyIndex_none xs.length i (Or.inl (Int.not_lt.mp hc))] at hg
                  cases hg)] at hg
              cases hg
              omega
            cases t with
            | key t => simp [replaceAt, hg, getByPath]
            | idx j =>
              have hj : 0 ≤ j := by
                have := hcq
                simp [canonSegs] at this
                exact this.1
              by_cases hij : j = i
              · subst hij
                have hp' : ¬ (phat' <+: q') := fun hc => hnp (by simpa using hc)
                have hq' : ¬ (q' <+: phat') := fun hc => hnq (by simpa using hc)
                have hlen : pyIndex (xs.set n (replaceAt (xs.getD n .null) phat' v)).length j
                    = some n := by rw [List.length_set]; exact hg
                simp only [replaceAt, hg, getByPath, hlen,
                  list_getD_set_self xs n _ (pyIndex_lt _ _ _ hg)]
                rw [ih q' _ v (by simp_all [canonSegs]) (by simp_all [canonSegs]) hp' hq']
              · cases hgj : pyIndex xs.length j with
                | none =>
                  have hlen : pyIndex (xs.set n (replaceAt (xs.getD n .null) phat' v)).length j
                      = none := by rw [List.length_set]; exact hgj
                  simp [replaceAt, hg, getByPath, hlen, hgj]
                | some m =>
                  have hjm : (m : Int) = j := by
                    rw [pyIndex_nonneg _ _ hj
                      (by
                        by_contra hc
                        rw [pyIndex_none xs.length j (Or.inl (Int.not_lt.mp hc))] at hgj
                        cases hgj)] at hgj
                    cases hgj
                    omega
                  have hmn : m ≠ n := by
                    intro hc
                    exact hij (by omega)
                  have hlen : pyIndex (xs.set n (replaceAt (xs.getD n .null) phat' v)).length j
                      = some m := by rw [List.length_set]; exact hgj
                  simp only [replaceAt, hg, getByPath, hlen, hgj,
                    list_getD_set_ne xs n m _ hmn]

theorem frame_ancestor : ∀ (q phat : List Seg) (root old v : JsonValue),
    getByPath root phat = some old → q <+: phat → q ≠ phat →
    shapeAt (replaceAt root phat v) q = shapeAt root q := by
  intro q
  induction q with
  | nil =>
    intro phat root old v h hq hne
    cases phat with
    | nil => exact absurd rfl hne
    | cons s rest =>
      cases root with
      | obj kvs =>
        simp only [getByPath] at h
        cases hg : objGet? kvs s with
        | none => rw [hg] at h; cases h
        | some child =>
          have hs : (objGet? kvs s).isSome := by rw [hg]; rfl
          simp [shapeAt, getByPath, replaceAt, hg, containerShape,
            objSet_keys kvs s (replaceAt child rest v) hs]
      | arr xs =>
        cases s with
        | key s => simp [getByPath] at h
        | idx i =>
          simp only [getByPath] at h
          cases hg : pyIndex xs.length i with
          | none => rw [hg] at h; cases h
          | some n => simp [shapeAt, getByPath, replaceAt, hg, containerShape]
      | null => simp [getByPath] at h
      | bool b => simp [getByPath] at h
      | num n => simp [getByPath] at h
      | str s => simp [getByPath] at h
  | cons t q' ih =>
    intro phat root old v h hq hne
    cases phat with
    | nil => simp at hq
    | cons s phat' =>
      obtain ⟨hts, hq'⟩ := List.cons_prefix_cons.mp hq
      subst hts
      have hne' : q' ≠ phat' := fun hc => hne (by rw [hc])
      cases root with
      | obj kvs =>
        simp only [getByPath] at h
        cases hg : objGet? kvs t with
        | none => rw [hg] at h; cases h
        | some child =>
          rw [hg] at h
          simp only at h
          have hs : (objGet? kvs t).isSome := by rw [hg]; rfl
          simp only [shapeAt, replaceAt, hg, getByPath,
            objGet?_objSet_self kvs t (replaceAt child phat' v) hs]
          exact ih phat' child old v h hq' hne'
      | arr xs =>
        cases t with
        | key t => simp [getByPath] at h
        | idx i =>
          simp only [getByPath] at h
          cases hg : pyIndex xs.length i with
          | none => rw [hg] at h; cases h
          | some n =>
            rw [hg] at h
            simp only at h
            have hlen : pyIndex (xs.set n (replaceAt (xs.getD n .null) phat' v)).length i
                = some n := by rw [List.length_set]; exact hg
            simp only [shapeAt, replaceAt, hg, getByPath, hlen,
              list_getD_set_self xs n _ (pyIndex_lt _ _ _ hg)]
            exact ih phat' _ old v h hq' hne'
      | null => simp [getByPath] at h
      | bool b => simp [getByPath] at h
      | num n => simp [getByPath] at h
      | str s => simp [getByPath] at h

/-- Claim C6: for a container root and a valid non-empty path, set_by_path
succeeds and modifies only the addressed node: the canonicalization of the
path addresses the new value; every canonical path that neither extends nor
is a prefix of it resolves to exactly what it resolved to before; and every
strict ancestor keeps its container shape (same object key order, same
array length). -/
theorem claim_C6 : ∀ (root : JsonValue) (p : List Seg) (old v : JsonValue)
    (phat : List Seg), strKeys root = true →
    getByPath root p = some old → p ≠ [] → canonPath root p = some phat →
    ∃ root', set_by_path root p v = .ok root'
      ∧ getByPath root' phat = some v
      ∧ (∀ q, canonSegs q = true → ¬ (phat <+: q) → ¬ (q <+: phat) →
          getByPath root' q = getByPath root q)
      ∧ (∀ q, q <+: phat → q ≠ phat → shapeAt root' q = shapeAt root q) := by
  intro root p old v phat hw h hp hc
  refine ⟨replaceAt root p v, set_ok p root old v h hp, ?_, ?_, ?_⟩
  · rw [canon_replaceAt p root phat v hc]
    exact get_replaceAt_self phat root old v (by rw [canon_get p root phat hc]; exact h)
  · intro q hq hnp hnq
    rw [canon_replaceAt p root phat v hc]
    exact frame_disjoint phat q root v (canon_canonSegs p root phat hw hc) hq hnp hnq
  · intro q hq hne
    rw [canon_replaceAt p root phat v hc]
    exact frame_ancestor q phat root old v
      (by rw [canon_get p root phat hc]; exact h) hq hne

/-- Witness for claim C6: a concrete two-level document, writing a string
leaf under key "a" / key "x". -/
theorem claim_C6_witness :
    ∃ root', set_by_path
        (.obj [(Seg.key "a", .obj [(Seg.key "x", .str "s"), (Seg.key "y", .num 1)]),
               (Seg.key "b", .arr [.num 1])])
        [Seg.key "a", Seg.key "x"] (.str "t") = .ok root'
      ∧ getByPath root' [Seg.key "a", Seg.key "x"] = some (.str "t")
      ∧ (∀ q, canonSegs q = true → ¬ ([Seg.key "a", Seg.key "x"] <+: q) →
          ¬ (q <+: [Seg.key "a", Seg.key "x"]) →
          getByPath root' q = getByPath
            (.obj [(Seg.key "a", .obj [(Seg.key "x", .str "s"), (Seg.key "y", .num 1)]),
                   (Seg.key "b", .arr [.num 1])]) q)
      ∧ (∀ q, q <+: [Seg.key "a", Seg.key "x"] → q ≠ [Seg.key "a", Seg.key "x"] →
          shapeAt root' q = shapeAt
            (.obj [(Seg.key "a", .obj [(Seg.key "x", .str "s"), (Seg.key "y", .num 1)]),
                   (Seg.key "b", .arr [.num 1])]) q) :=
  claim_C6
    (.obj [(Seg.key "a", .obj [(Seg.key "x", .str "s"), (Seg.key "y", .num 1)]),
           (Seg.key "b", .arr [.num 1])])
    [Seg.key "a", Seg.key "x"] (.str "s") (.str "t") [Seg.key "a", Seg.key "x"]
    rfl rfl (by simp) rfl

/-- Witness for claim C10: on the array [1, 2, 3], final index -1 replaces
position 2, final index -4 signals IndexError. -/
theorem claim_C10_witness :
    set_by_path (.arr [.num 1, .num 2, .num 3]) [Seg.idx (-1)] (.num 9)
      = .ok (.arr [.num 1, .num 2, .num 9])
    ∧ set_by_path (.arr [.num 1, .num 2, .num 3]) [Seg.idx (-4)] (.num 9)
      = .error .indexError := by
  constructor
  · exact (claim_C10 (.arr [.num 1, .num 2, .num 3]) [] [.num 1, .num 2, .num 3]
      (-1) (.num 9) rfl).1 (by norm_num)
  · exact (claim_C10 (.arr [.num 1, .num 2, .num 3]) [] [.num 1, .num 2, .num 3]
      (-4) (.num 9) rfl).2 (by norm_num)

/-! ## Extraction machinery: rerooting, resolution, path shape -/

mutual

theorem collectObjItems_reroot : ∀ (kvs : List (Seg × JsonValue)) (path : List Seg),
    collectObjItems kvs path = (collectObjItems kvs []).map (fun pr => (path ++ pr.1, pr.2))
  | [], path => by simp [collectObjItems]
  | (k, v) :: rest, path => by
    cases v with
    | str s =>
      simp [collectObjItems, collectObjItems_reroot rest path]
    | obj kvs2 =>
      have e1 := collectObjItems_reroot kvs2 (path ++ [k])
      have e2 := collectObjItems_reroot kvs2 ([] ++ [k])
      have e3 := collectObjItems_reroot rest path
      rw [collectObjItems, collectObjItems, collect_string_paths, collect_string_paths,
        e1, e2, e3]
      simp [List.map_map, Function.comp_def]
    | arr xs2 =>
      have e1 := collectArrItems_reroot xs2 0 (path ++ [k])
      have e2 := collectArrItems_reroot xs2 0 ([] ++ [k])
      have e3 := collectObjItems_reroot rest path
      rw [collectObjItems, collectObjItems, collect_string_paths, collect_string_paths,
        e1, e2, e3]
      simp [List.map_map, Function.comp_def]
    | null => simp [collectObjItems, collectObjItems_reroot rest path]
    | bool b => simp [collectObjItems, collectObjItems_reroot rest path]
    | num n => simp [collectObjItems, collectObjItems_reroot rest path]

theorem collectArrItems_reroot : ∀ (xs : List JsonValue) (i : Nat) (path : List Seg),
    collectArrItems xs i path = (collectArrItems xs i []).map (fun pr => (path ++ pr.1, pr.2))
  | [], i, path => by simp [collectArrItems]
  | v :: rest, i, path => by
    cases v with
    | str s =>
      simp [collectArrItems, collectArrItems_reroot rest (i + 1) path]
    | obj kvs2 =>
      have e1 := collectObjItems_reroot kvs2 (path ++ [Seg.idx (i : Int)])
      have e2 := collectObjItems_reroot kvs2 ([] ++ [Seg.idx (i : Int)])
      have e3 := collectArrItems_reroot rest (i + 1) path
      rw [collectArrItems, collectArrItems, collect_string_paths, collect_string_paths,
        e1, e2, e3]
      simp [List.map_map, Function.comp_def]
    | arr xs2 =>
      have e1 := collectArrItems_reroot xs2 0 (path ++ [Seg.idx (i : Int)])
      have e2 := collectArrItems_reroot xs2 0 ([] ++ [Seg.idx (i : Int)])
      have e3 := collectArrItems_reroot rest (i + 1) path
      rw [collectArrItems, collectArrItems, collect_string_paths, collect_string_paths,
        e1, e2, e3]
      simp [List.map_map, Function.comp_def]
    | null => simp [collectArrItems, collectArrItems_reroot rest (i + 1) path]
    | bool b => simp [collectArrItems, collectArrItems_reroot rest (i + 1) path]
    | num n => simp [collectArrItems, collectArrItems_reroot rest (i + 1) path]

end

mutual

theorem collectObjItems_path_shape : ∀ (kvs : List (Seg × JsonValue)) (path : List Seg)
    (pr : List Seg × String), pr ∈ collectObjItems kvs path →
    ∃ k q, pr.1 = path ++ k :: q
  | [], _, _ => by simp [collectObjItems]
  | (k, v) :: rest, path, pr => by
    intro hm
    cases v with
    | str s =>
      rw [collectObjItems] at hm
      rcases List.mem_append.mp hm with hm | hm
      · simp at hm
        exact ⟨k, [], by simp [hm]⟩
      · exact collectObjItems_path_shape rest path pr hm
    | obj kvs2 =>
      rw [collectObjItems] at hm
      rcases List.mem_append.mp hm with hm | hm
      · obtain ⟨k', q', hq'⟩ := collectObjItems_path_shape kvs2 (path ++ [k]) pr
          (by simpa [collect_string_paths] using hm)
        exact ⟨k, k' :: q', by simp [hq']⟩
      · exact collectObjItems_path_shape rest path pr hm
    | arr xs2 =>
      rw [collectObjItems] at hm
      rcases List.mem_append.mp hm with hm | hm
      · obtain ⟨k', q', hq'⟩ := collectArrItems_path_shape xs2 0 (path ++ [k]) pr
          (by simpa [collect_string_paths] using hm)
        exact ⟨k, k' :: q', by simp [hq']⟩
      · exact collectObjItems_path_shape rest path pr hm
    | null =>
      simp only [collectObjItems, List.nil_append] at hm
      exact collectObjItems_path_shape rest path pr hm
    | bool b =>
      simp only [collectObjItems, List.nil_append] at hm
      exact collectObjItems_path_shape rest path pr hm
    | num n =>
      simp only [collectObjItems, List.nil_append] at hm
      exact collectObjItems_path_shape rest path pr hm

theorem collectArrItems_path_shape : ∀ (xs : List JsonValue) (i : Nat) (path : List Seg)
    (pr : List Seg × String), pr ∈ collectArrItems xs i path →
    ∃ k q, pr.1 = path ++ k :: q
  | [], _, _, _ => by simp [collectArrItems]
  | v :: rest, i, path, pr => by
    intro hm
    cases v with
    | str s =>
      rw [collectArrItems] at hm
      rcases List.mem_append.mp hm with hm | hm
      · simp at hm
        exact ⟨.idx (i : Int), [], by simp [hm]⟩
      · exact collectArrItems_path_shape rest (i + 1) path pr hm
    | obj kvs2 =>
      rw [collectArrItems] at hm
      rcases List.mem_append.mp hm with hm | hm
      · obtain ⟨k', q', hq'⟩ := collectObjItems_path_shape kvs2 (path ++ [Seg.idx (i : Int)]) pr
          (by simpa [collect_string_paths] using hm)
        exact ⟨.idx (i : Int), k' :: q', by simp [hq']⟩
      · exact collectArrItems_path_shape rest (i + 1) path pr hm
    | arr xs2 =>
      rw [collectArrItems] at hm
      rcases List.mem_append.mp hm with hm | hm
      · obtain ⟨k', q', hq'⟩ := collectArrItems_path_shape xs2 0 (path ++ [Seg.idx (i : Int)]) pr
          (by simpa [collect_string_paths] using hm)
        exact ⟨.idx (i : Int), k' :: q', by simp [hq']⟩
      · exact collectArrItems_path_shape rest (i + 1) path pr hm
    | null =>
      simp only [collectArrItems, List.nil_append] at hm
      exact collectArrItems_path_shape rest (i + 1) path pr hm
    | bool b =>
      simp only [collectArrItems, List.nil_append] at hm
      exact collectArrItems_path_shape rest (i + 1) path pr hm
    | num n =>
      simp only [collectArrItems, List.nil_append] at hm
      exact collectArrItems_path_shape rest (i + 1) path pr hm

end

theorem getByPath_arr_nat (xs : List JsonValue) (j : Nat) (q : List Seg)
    (hj : j < xs.length) :
    getByPath (.arr xs) (.idx (j : Int) :: q) = getByPath (xs.getD j .null) q := by
  have hpi : pyIndex xs.length (j : Int) = some j := by
    rw [pyIndex_nonneg _ _ (by positivity) (by exact_mod_cast hj)]
    simp
  simp [getByPath, hpi]

mutual

theorem collectObjItems_resolve : ∀ (kvs : List (Seg × JsonValue)) (p : List Seg)
    (s : String), wfObjEntries kvs = true → (p, s) ∈ collectObjItems kvs [] →
    getByPath (.obj kvs) p = some (.str s) ∧ p ≠ []
  | [], _, _ => by simp [collectObjItems]
  | (k, v) :: rest, p, s => by
    intro hw hm
    simp only [wfObjEntries, Bool.and_eq_true] at hw
    have liftTail : (p, s) ∈ collectObjItems rest [] →
        getByPath (.obj ((k, v) :: rest)) p = some (.str s) ∧ p ≠ [] := by
      intro hm2
      obtain ⟨hres, hne⟩ := collectObjItems_resolve rest p s hw.2 hm2
      cases p with
      | nil => exact absurd rfl hne
      | cons k₂ q =>
        simp only [getByPath] at hres
        cases hg : objGet? rest k₂ with
        | none => rw [hg] at hres; cases hres
        | some w =>
          rw [hg] at hres
          simp only at hres
          have hk₂ : k₂ ∈ rest.map Prod.fst := objGet?_isSome_of_mem_keys rest k₂ w hg
          have hne2 : k ≠ k₂ := by
            intro hc
            obtain ⟨pr, hpr, hfst⟩ := List.mem_map.mp hk₂
            have := List.all_eq_true.mp hw.1.1 pr hpr
            simp only [Bool.not_eq_true', decide_eq_false_iff_not] at this
            exact this (by rw [hfst, ← hc])
          refine ⟨?_, by simp⟩
          simp only [getByPath, objGet?, if_neg hne2, hg]
          exact hres
    cases v with
    | str s' =>
      rw [collectObjItems] at hm
      rcases List.mem_append.mp hm with hm | hm
      · simp at hm
        obtain ⟨hp, hs⟩ := hm
        subst hp
        subst hs
        exact ⟨by simp [getByPath, objGet?], by simp⟩
      · exact liftTail hm
    | obj kvs2 =>
      rw [collectObjItems] at hm
      rcases List.mem_append.mp hm with hm | hm
      · rw [collect_string_paths] at hm
        have e2 := collectObjItems_reroot kvs2 ([] ++ [k])
        rw [e2] at hm
        simp only [List.nil_append, List.mem_map] at hm
        obtain ⟨⟨q, s₂⟩, hq, hpr⟩ := hm
        rw [Prod.mk.injEq] at hpr
        obtain ⟨hp, hs⟩ := hpr
        subst hs
        obtain ⟨hres, _⟩ := collectObjItems_resolve kvs2 q s₂ (by simpa [wfDoc] using hw.1.2) hq
        refine ⟨?_, by simp [← hp]⟩
        rw [← hp]
        simpa [getByPath, objGet?] using hres
      · exact liftTail hm
    | arr xs2 =>
      rw [collectObjItems] at hm
      rcases List.mem_append.mp hm with hm | hm
      · rw [collect_string_paths] at hm
        have e2 := collectArrItems_reroot xs2 0 ([] ++ [k])
        rw [e2] at hm
        simp only [List.nil_append, List.mem_map] at hm
        obtain ⟨⟨q, s₂⟩, hq, hpr⟩ := hm
        rw [Prod.mk.injEq] at hpr
        obtain ⟨hp, hs⟩ := hpr
        subst hs
        obtain ⟨j, q', hj, hq', hres⟩ :=
          collectArrItems_resolve xs2 0 q s₂ (by simpa [wfDoc] using hw.1.2) hq
        refine ⟨?_, by simp [← hp]⟩
        rw [← hp, hq']
        have hstep : getByPath (.obj ((k, JsonValue.arr xs2) :: rest))
            ([k] ++ Seg.idx ((0 + j : Nat) : Int) :: q')
            = getByPath (.arr xs2) (Seg.idx ((0 + j : Nat) : Int) :: q') := by
          simp [getByPath, objGet?]
        rw [hstep]
        have h0j : ((0 + j : Nat) : Int) = (j : Int) := by norm_num
        rw [h0j, getByPath_arr_nat xs2 j q' hj]
        exact hres
      · exact liftTail hm
    | null =>
      simp only [collectObjItems, List.nil_append] at hm
      exact liftTail hm
    | bool b =>
      simp only [collectObjItems, List.nil_append] at hm
      exact liftTail hm
    | num n =>
      simp only [collectObjItems, List.nil_append] at hm
      exact liftTail hm

theorem collectArrItems_resolve : ∀ (xs : List JsonValue) (i : Nat) (p : List Seg)
    (s : String), wfArrEntries xs = true → (p, s) ∈ collectArrItems xs i [] →
    ∃ j q, j < xs.length ∧ p = .idx ((i + j : Nat) : Int) :: q ∧
      getByPath (xs.getD j .null) q = some (.str s)
  | [], _, _, _ => by simp [collectArrItems]
  | v :: rest, i, p, s => by
    intro hw hm
    simp only [wfArrEntries, Bool.and_eq_true] at hw
    have liftTail : (p, s) ∈ collectArrItems rest (i + 1) [] →
        ∃ j q, j < (v :: rest).length ∧ p = .idx ((i + j : Nat) : Int) :: q ∧
          getByPath ((v :: rest).getD j .null) q = some (.str s) := by
      intro hm2
      obtain ⟨j', q, hj', hp, hres⟩ := collectArrItems_resolve rest (i + 1) p s hw.2 hm2
      refine ⟨j' + 1, q, by simp only [List.length_cons]; omega, ?_, by simpa using hres⟩
      rw [hp]
      have harith : (i + (j' + 1) : Nat) = ((i + 1) + j' : Nat) := by omega
      rw [harith]
    cases v with
    | str s' =>
      rw [collectArrItems] at hm
      rcases List.mem_append.mp hm with hm | hm
      · simp at hm
        obtain ⟨hp, hs⟩ := hm
        subst hp
        subst hs
        exact ⟨0, [], by simp, by simp, by simp [getByPath]⟩
      · exact liftTail hm
    | obj kvs2 =>
      rw [collectArrItems] at hm
      rcases List.mem_append.mp hm with hm | hm
      · rw [collect_string_paths] at hm
        have e2 := collectObjItems_reroot kvs2 ([] ++ [Seg.idx (i : Int)])
        rw [e2] at hm
        simp only [List.nil_append, List.mem_map] at hm
        obtain ⟨⟨q, s₂⟩, hq, hpr⟩ := hm
        rw [Prod.mk.injEq] at hpr
        obtain ⟨hp, hs⟩ := hpr
        subst hs
        obtain ⟨hres, _⟩ := collectObjItems_resolve kvs2 q s₂ (by simpa [wfDoc] using hw.1) hq
        exact ⟨0, q, by simp, by simp [← hp], by simpa using hres⟩
      · exact liftTail hm
    | arr xs2 =>
      rw [collectArrItems] at hm
      rcases List.mem_append.mp hm with hm | hm
      · rw [collect_string_paths] at hm
        have e2 := collectArrItems_reroot xs2 0 ([] ++ [Seg.idx (i : Int)])
        rw [e2] at hm
        simp only [List.nil_append, List.mem_map] at hm
        obtain ⟨⟨q, s₂⟩, hq, hpr⟩ := hm
        rw [Prod.mk.injEq] at hpr
        obtain ⟨hp, hs⟩ := hpr
        subst hs
        obtain ⟨j', q', hj', hq', hres⟩ :=
          collectArrItems_resolve xs2 0 q s₂ (by simpa [wfDoc] using hw.1) hq
        refine ⟨0, q, by simp, by simp [← hp], ?_⟩
        simp only [List.getD_cons_zero]
        rw [hq']
        have h0j : ((0 + j' : Nat) : Int) = (j' : Int) := by norm_num
        rw [h0j, getByPath_arr_nat xs2 j' q' hj']
        exact hres
      · exact liftTail hm
    | null =>
      simp only [collectArrItems, List.nil_append] at hm
      exact liftTail hm
    | bool b =>
      simp only [collectArrItems, List.nil_append] at hm
      exact liftTail hm
    | num n =>
      simp only [collectArrItems, List.nil_append] at hm
      exact liftTail hm

end

theorem collect_resolve (d : JsonValue) (p : List Seg) (s : String)
    (hw : wfDoc d = true) (hm : (p, s) ∈ collect_string_paths d []) :
    (p = [] ∧ d = .str s) ∨ (p ≠ [] ∧ getByPath d p = some (.str s)) := by
  cases d with
  | obj kvs =>
    rw [collect_string_paths] at hm
    obtain ⟨hres, hne⟩ := collectObjItems_resolve kvs p s (by simpa [wfDoc] using hw) hm
    exact Or.inr ⟨hne, hres⟩
  | arr xs =>
    rw [collect_string_paths] at hm
    obtain ⟨j, q, hj, hp, hres⟩ :=
      collectArrItems_resolve xs 0 p s (by simpa [wfDoc] using hw) hm
    refine Or.inr ⟨by simp [hp], ?_⟩
    rw [hp]
    have h0j : ((0 + j : Nat) : Int) = (j : Int) := by norm_num
    rw [h0j, getByPath_arr_nat xs j q hj]
    exact hres
  | str s' =>
    rw [collect_string_paths] at hm
    simp at hm
    exact Or.inl ⟨hm.1, by rw [hm.2]⟩
  | null => rw [collect_string_paths] at hm; simp at hm
  | bool b => rw [collect_string_paths] at hm; simp at hm
  | num n => rw [collect_string_paths] at hm; simp at hm

theorem foldlM_ok_const {α : Type} (l : List α) (b : JsonValue)
    (step : JsonValue → α → Except PyErr JsonValue)
    (h : ∀ a ∈ l, step b a = .ok b) : l.foldlM step b = .ok b := by
  induction l with
  | nil => rfl
  | cons hd tl ih =>
    rw [List.foldlM_cons, h hd (List.mem_cons_self hd tl)]
    exact ih (fun a ha => h a (List.mem_cons_of_mem hd ha))

/-- Claim C1, counterexample: for the bare-string document "x",
collect_string_paths returns the empty path, at which set_by_path raises
ValueError, so extraction followed by identity write-back errors instead of
reproducing the document. -/
theorem claim_C1_counterexample :
    writeBackAll (.str "x") = .error .valueError
    ∧ writeBackAll (.str "x") ≠ .ok (.str "x") := by
  constructor
  · rfl
  · intro h
    rw [show writeBackAll (.str "x") = .error .valueError from rfl] at h
    cases h

/-- Claim C1 (amended): for every well-formed JSON document that is not
itself a bare string, applying set_by_path on a copy of the document at
every path returned by collect_string_paths, writing back the original
extracted text, yields the document itself (structural equality).  Bare
string roots are excluded: their sole extraction entry carries the empty
path, which set_by_path rejects. -/
theorem claim_C1_amended : ∀ (d : JsonValue), wfDoc d = true →
    (∀ s, d ≠ .str s) → writeBackAll d = .ok d := by
  intro d hw hns
  unfold writeBackAll
  rw [deepcopy_eq]
  apply foldlM_ok_const
  intro pr hpr
  obtain ⟨p, s⟩ := pr
  rcases collect_resolve d p s hw hpr with ⟨_, hd⟩ | ⟨hne, hres⟩
  · exact absurd hd (hns s)
  · rw [set_ok p d (.str s) (.str s) hres hne, replaceAt_same p d (.str s) hres]

/-- Witness for claim C1 (amended): a concrete object document with a
nested array round-trips. -/
theorem claim_C1_witness :
    writeBackAll (.obj [(Seg.key "a", .str "hola"),
        (Seg.key "items", .arr [.str "x", .num 2])])
      = .ok (.obj [(Seg.key "a", .str "hola"),
        (Seg.key "items", .arr [.str "x", .num 2])]) := by
  refine claim_C1_amended _ rfl ?_
  intro s h
  cases h

/-- Claim C8: a document with no string leaves translates, under any rewrite
function, to a structurally equal copy; the rewrite function cannot
influence the result (the pipeline returns before invoking it). -/
theorem claim_C8 : ∀ (d : JsonValue) (f : List String → List String),
    collect_string_paths d [] = [] → translate_json_values d f = .ok d := by
  intro d f h
  simp [translate_json_values, h, deepcopy_eq]

/-- Witness for claim C8: the spec's example document with numbers only,
rewritten by a function whose result would corrupt any output. -/
theorem claim_C8_witness :
    translate_json_values (.obj [(Seg.key "n", .num 1),
      (Seg.key "list", .arr [.num 1, .num 2, .num 3])]) (fun _ => ["boom"])
      = .ok (.obj [(Seg.key "n", .num 1),
        (Seg.key "list", .arr [.num 1, .num 2, .num 3])]) :=
  claim_C8 _ _ rfl

/-- Claim C7: a bare-string document is the sole source of the empty-path
extraction entry, and translating it returns the unmasked rewritten string
itself as the new document, not wrapped in any container. -/
theorem claim_C7 :
    (∀ (s : String) (f : List String → List String) (t : String),
      f [(extract_placeholders s).1] = [t] →
      translate_json_values (.str s) f
        = .ok (.str (restore_placeholders t (extract_placeholders s).2)))
    ∧ (∀ s : String, collect_string_paths (.str s) [] = [([], s)])
    ∧ (∀ (d : JsonValue) (s : String), ([], s) ∈ collect_string_paths d [] →
        d = .str s) := by
  refine ⟨?_, fun s => rfl, ?_⟩
  · intro s f t hf
    have hc : collect_string_paths (JsonValue.str s) [] = [([], s)] := rfl
    simp only [translate_json_values, hc, List.map_cons, List.map_nil]
    rw [hf]
    rfl
  · intro d s hm
    cases d with
    | obj kvs =>
      rw [collect_string_paths] at hm
      obtain ⟨k, q, hq⟩ := collectObjItems_path_shape kvs [] ([], s) hm
      simp at hq
    | arr xs =>
      rw [collect_string_paths] at hm
      obtain ⟨k, q, hq⟩ := collectArrItems_path_shape xs 0 [] ([], s) hm
      simp at hq
    | str s' =>
      rw [collect_string_paths] at hm
      simp at hm
      rw [hm]
    | null => rw [collect_string_paths] at hm; simp at hm
    | bool b => rw [collect_string_paths] at hm; simp at hm
    | num n => rw [collect_string_paths] at hm; simp at hm

/-- Witness for claim C7: the document "hola mundo" with a rewrite function
mapping the singleton batch to ["hello world"] yields the bare string
"hello world". -/
theorem claim_C7_witness :
    translate_json_values (.str "hola mundo")
      (fun ts => if ts = ["hola mundo"] then ["hello world"] else [])
      = .ok (.str "hello world") := by
  have h := claim_C7.1 "hola mundo"
    (fun ts => if ts = ["hola mundo"] then ["hello world"] else [])
    "hello world" (by rfl)
  simpa using h

/-! ## Count mismatch (claim C3) -/

/-- The batch of masked texts the pipeline hands to the rewrite function:
each extracted string after placeholder protection, in extraction order. -/
def maskedTexts (d : JsonValue) : List String :=
  (collect_string_paths d []).map (fun pr => (extract_placeholders pr.2).1)

/-- Claim C3: whenever the pipeline extracts at least one string and the
rewrite function returns a batch whose length differs from the number of
extracted strings, translate_json_values fails with ValueError (the
CountMismatch class) and produces no output document. -/
theorem claim_C3 : ∀ (d : JsonValue) (f : List String → List String),
    collect_string_paths d [] ≠ [] →
    (f (maskedTexts d)).length ≠ (collect_string_paths d []).length →
    translate_json_values d f = .error .valueError := by
  intro d f hne hlen
  simp only [translate_json_values]
  rw [if_neg hne, if_pos]
  simpa [maskedTexts, List.map_map, Function.comp_def] using hlen

/-- Witness for claim C3: the spec's example document with two strings and
a rewrite function returning a single-element list. -/
theorem claim_C3_witness :
    translate_json_values
      (.obj [(Seg.key "a", .str "hola"), (Seg.key "b", .str "adios")])
      (fun _ => ["one"]) = .error .valueError := by
  exact claim_C3 (.obj [(Seg.key "a", .str "hola"), (Seg.key "b", .str "adios")])
    (fun _ => ["one"]) (by decide) (by decide)

/-! ## Structure preservation (claim C5)

The skeleton of a document erases exactly the contents of its string
leaves; two documents have equal skeletons iff they share every object key
sequence, every array length, every non-string leaf (value and position)
and the positions of their string leaves. -/

mutual

/-- Erase the contents of every string leaf, keeping everything else. -/
def skeleton : JsonValue → JsonValue
  | .null => .null
  | .bool b => .bool b
  | .num n => .num n
  | .str _ => .str ""
  | .arr xs => .arr (skeletonArr xs)
  | .obj kvs => .obj (skeletonObj kvs)

/-- skeleton over array elements. -/
def skeletonArr : List JsonValue → List JsonValue
  | [] => []
  | v :: rest => skeleton v :: skeletonArr rest

/-- skeleton over object entries. -/
def skeletonObj : List (Seg × JsonValue) → List (Seg × JsonValue)
  | [] => []
  | (k, v) :: rest => (k, skeleton v) :: skeletonObj rest

end

mutual

/-- Observation function: every Null/Boolean/Number leaf with its path, in
the same pre-order walk as collect_string_paths (strings are skipped). -/
def collectNonStr : JsonValue → List Seg → List (List Seg × JsonValue)
  | .obj kvs, path => collectNonStrObj kvs path
  | .arr xs, path => collectNonStrArr xs 0 path
  | .str _, _ => []
  | .null, path => if path = [] then [([], .null)] else []
  | .bool b, path => if path = [] then [([], .bool b)] else []
  | .num n, path => if path = [] then [([], .num n)] else []

/-- Non-string leaves of object entries. -/
def collectNonStrObj : List (Seg × JsonValue) → List Seg → List (List Seg × JsonValue)
  | [], _ => []
  | (k, v) :: rest, path =>
    (match v with
     | .obj kvs2 => collectNonStr (.obj kvs2) (path ++ [k])
     | .arr xs2 => collectNonStr (.arr xs2) (path ++ [k])
     | .str _ => []
     | .null => [(path ++ [k], .null)]
     | .bool b => [(path ++ [k], .bool b)]
     | .num n => [(path ++ [k], .num n)]) ++ collectNonStrObj rest path

/-- Non-string leaves of array elements. -/
def collectNonStrArr : List JsonValue → Nat → List Seg → List (List Seg × JsonValue)
  | [], _, _ => []
  | v :: rest, i, path =>
    (match v with
     | .obj kvs2 => collectNonStr (.obj kvs2) (path ++ [.idx (i : Int)])
     | .arr xs2 => collectNonStr (.arr xs2) (path ++ [.idx (i : Int)])
     | .str _ => []
     | .null => [(path ++ [.idx (i : Int)], .null)]
     | .bool b => [(path ++ [.idx (i : Int)], .bool b)]
     | .num n => [(path ++ [.idx (i : Int)], .num n)]) ++ collectNonStrArr rest (i + 1) path

end

theorem skeletonArr_eq_map : ∀ xs, skeletonArr xs = xs.map skeleton
  | [] => rfl
  | v :: rest => by rw [skeletonArr, List.map_cons, skeletonArr_eq_map rest]

theorem skeletonObj_eq_map : ∀ kvs,
    skeletonObj kvs = kvs.map (fun p => (p.1, skeleton p.2))
  | [] => rfl
  | (k, v) :: rest => by rw [skeletonObj, List.map_cons, skeletonObj_eq_map rest]

theorem list_getD_map_skeleton (xs : List JsonValue) (n : Nat) :
    (xs.map skeleton).getD n .null = skeleton (xs.getD n .null) := by
  induction xs generalizing n with
  | nil => simp [skeleton]
  | cons a tl ih =>
    cases n with
    | zero => simp
    | succ m => simpa using ih m

theorem list_map_set (f : JsonValue → JsonValue) :
    ∀ (l : List JsonValue) (n : Nat) (a : JsonValue),
    (l.set n a).map f = (l.map f).set n (f a)
  | [], _, _ => rfl
  | x :: tl, 0, a => rfl
  | x :: tl, Nat.succ m, a => by
    simp only [List.set_cons_succ, List.map_cons, list_map_set f tl m a]

theorem getByPath_skeleton : ∀ (p : List Seg) (a : JsonValue),
    getByPath (skeleton a) p = (getByPath a p).map skeleton := by
  intro p
  induction p with
  | nil => intro a; simp [getByPath]
  | cons seg rest ih =>
    intro a
    cases a with
    | obj kvs =>
      rw [skeleton]
      simp only [getByPath]
      have hob : ∀ kvs2 : List (Seg × JsonValue),
          objGet? (skeletonObj kvs2) seg = (objGet? kvs2 seg).map skeleton := by
        intro kvs2
        induction kvs2 with
        | nil => rfl
        | cons hd tl ih2 =>
          obtain ⟨k1, v1⟩ := hd
          rw [skeletonObj]
          by_cases hk : k1 = seg
          · simp [objGet?, hk]
          · simp [objGet?, hk, ih2]
      rw [hob kvs]
      cases objGet? kvs seg with
      | none => rfl
      | some child => simpa using ih child
    | arr xs =>
      cases seg with
      | key s => rw [skeleton]; rfl
      | idx i =>
        rw [skeleton]
        simp only [getByPath]
        have hlen : (skeletonArr xs).length = xs.length := by
          rw [skeletonArr_eq_map]
          simp
        rw [hlen]
        cases hg : pyIndex xs.length i with
        | none => rfl
        | some n =>
          simp only
          have hgd : (skeletonArr xs).getD n .null = skeleton (xs.getD n .null) := by
            rw [skeletonArr_eq_map, list_getD_map_skeleton]
          rw [hgd]
          simpa using ih (xs.getD n .null)
    | null => rfl
    | bool b => rfl
    | num n => rfl
    | str s => rw [skeleton]; rfl

theorem get_str_transfer (p : List Seg) (acc d : JsonValue) (s : String)
    (hsk : skeleton acc = skeleton d) (h : getByPath d p = some (.str s)) :
    ∃ s', getByPath acc p = some (.str s') := by
  have h1 : getByPath (skeleton acc) p = some (.str "") := by
    rw [hsk, getByPath_skeleton, h]
    rfl
  rw [getByPath_skeleton] at h1
  cases hg : getByPath acc p with
  | none => rw [hg] at h1; cases h1
  | some w =>
    rw [hg] at h1
    simp only [Option.map_some'] at h1
    injection h1 with h1
    cases w with
    | str s' => exact ⟨s', rfl⟩
    | null => simp [skeleton] at h1
    | bool b => simp [skeleton] at h1
    | num n => simp [skeleton] at h1
    | arr xs => simp [skeleton] at h1
    | obj kvs => simp [skeleton] at h1

theorem skeletonObj_objSet : ∀ (kvs : List (Seg × JsonValue)) (k : Seg)
    (x child : JsonValue), objGet? kvs k = some child → skeleton x = skeleton child →
    skeletonObj (objSet kvs k x) = skeletonObj kvs := by
  intro kvs
  induction kvs with
  | nil => intro k x child h _; simp [objGet?] at h
  | cons hd tl ih =>
    obtain ⟨k1, v1⟩ := hd
    intro k x child h hsk
    by_cases hk : k1 = k
    · simp only [objGet?, if_pos hk, Option.some.injEq] at h
      subst h
      simp [objSet, hk, skeletonObj, hsk]
    · simp only [objGet?, if_neg hk] at h
      simp [objSet, hk, skeletonObj, ih k x child h hsk]

theorem replaceAt_skeleton : ∀ (p : List Seg) (acc : JsonValue) (s' t : String),
    getByPath acc p = some (.str s') →
    skeleton (replaceAt acc p (.str t)) = skeleton acc := by
  intro p
  induction p with
  | nil =>
    intro acc s' t h
    simp only [getByPath, Option.some.injEq] at h
    rw [h]
    simp [replaceAt, skeleton]
  | cons seg rest ih =>
    intro acc s' t h
    cases acc with
    | obj kvs =>
      simp only [getByPath] at h
      cases hg : objGet? kvs seg with
      | none => rw [hg] at h; cases h
      | some child =>
        rw [hg] at h
        simp only at h
        simp only [replaceAt, hg, skeleton]
        rw [skeletonObj_objSet kvs seg _ child hg (ih child s' t h)]
    | arr xs =>
      cases seg with
      | key s => simp [getByPath] at h
      | idx i =>
        simp only [getByPath] at h
        cases hg : pyIndex xs.length i with
        | none => rw [hg] at h; cases h
        | some n =>
          rw [hg] at h
          simp only at h
          simp only [replaceAt, hg, skeleton]
          rw [skeletonArr_eq_map, skeletonArr_eq_map, list_map_set]
          rw [ih _ s' t h, ← list_getD_map_skeleton]
          exact congrArg JsonValue.arr (list_set_getD_self (xs.map skeleton) n
            (by simpa using pyIndex_lt _ _ _ hg))
    | null => simp [getByPath] at h
    | bool b => simp [getByPath] at h
    | num n => simp [getByPath] at h
    | str s => simp [getByPath] at h

mutual

theorem collectNonStr_skeleton : ∀ (a : JsonValue) (path : List Seg),
    collectNonStr (skeleton a) path = collectNonStr a path
  | .null, _ => rfl
  | .bool _, _ => rfl
  | .num _, _ => rfl
  | .str _, _ => rfl
  | .obj kvs, path => by
    rw [skeleton, collectNonStr, collectNonStr]
    exact collectNonStrObj_skeleton kvs path
  | .arr xs, path => by
    rw [skeleton, collectNonStr, collectNonStr]
    exact collectNonStrArr_skeleton xs 0 path

theorem collectNonStrObj_skeleton : ∀ (kvs : List (Seg × JsonValue)) (path : List Seg),
    collectNonStrObj (skeletonObj kvs) path = collectNonStrObj kvs path
  | [], _ => rfl
  | (k, v) :: rest, path => by
    cases v with
    | null =>
      rw [skeletonObj]
      simp only [skeleton]
      rw [collectNonStrObj, collectNonStrObj]
      exact congrArg _ (collectNonStrObj_skeleton rest path)
    | bool b =>
      rw [skeletonObj]
      simp only [skeleton]
      rw [collectNonStrObj, collectNonStrObj]
      exact congrArg _ (collectNonStrObj_skeleton rest path)
    | num n =>
      rw [skeletonObj]
      simp only [skeleton]
      rw [collectNonStrObj, collectNonStrObj]
      exact congrArg _ (collectNonStrObj_skeleton rest path)
    | str s =>
      rw [skeletonObj]
      simp only [skeleton]
      rw [collectNonStrObj, collectNonStrObj]
      exact congrArg _ (collectNonStrObj_skeleton rest path)
    | obj kvs2 =>
      rw [skeletonObj]
      simp only [skeleton]
      rw [collectNonStrObj, collectNonStrObj]
      congr 1
      · rw [← skeleton]
        exact collectNonStr_skeleton (.obj kvs2) (path ++ [k])
      · exact collectNonStrObj_skeleton rest path
    | arr xs2 =>
      rw [skeletonObj]
      simp only [skeleton]
      rw [collectNonStrObj, collectNonStrObj]
      congr 1
      · rw [← skeleton]
        exact collectNonStr_skeleton (.arr xs2) (path ++ [k])
      · exact collectNonStrObj_skeleton rest path

theorem collectNonStrArr_skeleton : ∀ (xs : List JsonValue) (i : Nat) (path : List Seg),
    collectNonStrArr (skeletonArr xs) i path = collectNonStrArr xs i path
  | [], _, _ => rfl
  | v :: rest, i, path => by
    cases v with
    | null =>
      rw [skeletonArr]
      simp only [skeleton]
      rw [collectNonStrArr, collectNonStrArr]
      exact congrArg _ (collectNonStrArr_skeleton rest (i + 1) path)
    | bool b =>
      rw [skeletonArr]
      simp only [skeleton]
      rw [collectNonStrArr, collectNonStrArr]
      exact congrArg _ (collectNonStrArr_skeleton rest (i + 1) path)
    | num n =>
      rw [skeletonArr]
      simp only [skeleton]
      rw [collectNonStrArr, collectNonStrArr]
      exact congrArg _ (collectNonStrArr_skeleton rest (i + 1) path)
    | str s =>
      rw [skeletonArr]
      simp only [skeleton]
      rw [collectNonStrArr, collectNonStrArr]
      exact congrArg _ (collectNonStrArr_skeleton rest (i + 1) path)
    | obj kvs2 =>
      rw [skeletonArr]
      simp only [skeleton]
      rw [collectNonStrArr, collectNonStrArr]
      congr 1
      · rw [← skeleton]
        exact collectNonStr_skeleton (.obj kvs2) (path ++ [.idx (i : Int)])
      · exact collectNonStrArr_skeleton rest (i + 1) path
    | arr xs2 =>
      rw [skeletonArr]
      simp only [skeleton]
      rw [collectNonStrArr, collectNonStrArr]
      congr 1
      · rw [← skeleton]
        exact collectNonStr_skeleton (.arr xs2) (path ++ [.idx (i : Int)])
      · exact collectNonStrArr_skeleton rest (i + 1) path

end

theorem collectNonStr_congr (a b : JsonValue) (h : skeleton a = skeleton b)
    (path : List Seg) : collectNonStr a path = collectNonStr b path := by
  rw [← collectNonStr_skeleton a path, h, collectNonStr_skeleton b path]

theorem foldlM_skeleton_inv (d : JsonValue) (hw : wfDoc d = true) :
    ∀ (l : List ((List Seg × String) × String)) (acc : JsonValue),
    (∀ pr, pr ∈ l → pr.1 ∈ collect_string_paths d []) →
    skeleton acc = skeleton d →
    ∃ r, (l.foldlM (fun result pr =>
        if pr.1.1 = [] then Except.ok (JsonValue.str pr.2)
        else set_by_path result pr.1.1 (JsonValue.str pr.2)) acc) = .ok r
      ∧ skeleton r = skeleton d := by
  intro l
  induction l with
  | nil => exact fun acc _ hsk => ⟨acc, rfl, hsk⟩
  | cons hd tl ih =>
    intro acc hmem hsk
    obtain ⟨⟨p, s0⟩, t⟩ := hd
    have hcol : (p, s0) ∈ collect_string_paths d [] := hmem _ (List.mem_cons_self _ _)
    rcases collect_resolve d p s0 hw hcol with ⟨hp, hd'⟩ | ⟨hne, hres⟩
    · subst hp
      rw [List.foldlM_cons]
      simp only [if_pos rfl]
      have hsk' : skeleton (JsonValue.str t) = skeleton d := by
        rw [hd']
        rfl
      obtain ⟨r, hr, hskr⟩ := ih (JsonValue.str t)
        (fun pr hpr => hmem pr (List.mem_cons_of_mem _ hpr)) hsk'
      exact ⟨r, by simpa using hr, hskr⟩
    · obtain ⟨s', hres'⟩ := get_str_transfer p acc d s0 hsk hres
      rw [List.foldlM_cons]
      simp only [if_neg hne]
      rw [set_ok p acc (.str s') (.str t) hres' hne]
      have hsk' : skeleton (replaceAt acc p (JsonValue.str t)) = skeleton d := by
        rw [replaceAt_skeleton p acc s' t hres']
        exact hsk
      obtain ⟨r, hr, hskr⟩ := ih (replaceAt acc p (JsonValue.str t))
        (fun pr hpr => hmem pr (List.mem_cons_of_mem _ hpr)) hsk'
      exact ⟨r, by simpa using hr, hskr⟩

/-- Claim C5: for every well-formed document and every rewrite function
honouring the length contract on the actual batch, the pipeline succeeds
and the result has the same skeleton as the input — identical object key
sequences at every level, identical array lengths and positions, and the
identical list of (path, value) for every Null/Boolean/Number leaf. -/
theorem claim_C5 : ∀ (d : JsonValue) (f : List String → List String),
    wfDoc d = true →
    (f (maskedTexts d)).length = (collect_string_paths d []).length →
    ∃ d', translate_json_values d f = .ok d'
      ∧ skeleton d' = skeleton d
      ∧ collectNonStr d' [] = collectNonStr d [] := by
  intro d f hw hlen
  by_cases hc : collect_string_paths d [] = []
  · refine ⟨d, ?_, rfl, rfl⟩
    simp [translate_json_values, hc, deepcopy_eq]
  · have hX : List.map Prod.fst (List.map (fun pr => extract_placeholders pr.2)
        (collect_string_paths d [])) = maskedTexts d := by
      simp [maskedTexts, List.map_map, Function.comp_def]
    simp only [translate_json_values]
    have hmlen : (maskedTexts d).length = (collect_string_paths d []).length := by
      simp [maskedTexts]
    rw [if_neg hc, hX, if_neg (by simp only [ne_eq, Decidable.not_not]; rw [hlen, hmlen])]
    obtain ⟨r, hr, hskr⟩ := foldlM_skeleton_inv d hw
      ((collect_string_paths d []).zip
        (List.map (fun pr => restore_placeholders pr.1 pr.2)
          ((f (maskedTexts d)).zip
            (List.map Prod.snd (List.map (fun pr => extract_placeholders pr.2)
              (collect_string_paths d []))))))
      (deepcopy d)
      (fun pr hpr => by
        obtain ⟨a, b⟩ := pr
        exact (List.of_mem_zip hpr).1)
      (by rw [deepcopy_eq])
    exact ⟨r, hr, hskr, collectNonStr_congr r d hskr []⟩

/-- Witness for claim C5: a mixed document whose two strings are rewritten
to new values; numbers, booleans, key order and array length survive. -/
theorem claim_C5_witness :
    ∃ d', translate_json_values
        (.obj [(Seg.key "a", .str "hola"), (Seg.key "n", .num 3),
               (Seg.key "l", .arr [.bool true, .str "x"])])
        (fun ts => ts.map (fun _ => "y")) = .ok d'
      ∧ skeleton d' = skeleton
          (.obj [(Seg.key "a", .str "hola"), (Seg.key "n", .num 3),
                 (Seg.key "l", .arr [.bool true, .str "x"])])
      ∧ collectNonStr d' [] = collectNonStr
          (.obj [(Seg.key "a", .str "hola"), (Seg.key "n", .num 3),
                 (Seg.key "l", .arr [.bool true, .str "x"])]) [] :=
  claim_C5 _ (fun ts => ts.map (fun _ => "y")) rfl (by simp [maskedTexts])

/-! ## Token numbering (claim C9) -/

theorem finditerAux_pos_le : ∀ (M : List Char → Option (List Char)) (s : List Char)
    (pos k : Nat) (pr : Nat × List Char), pr ∈ finditerAux M s pos k → pos ≤ pr.1
  | M, [], pos, k, pr => by simp [finditerAux]
  | M, c :: rest, pos, Nat.succ k, pr => by
    intro hm
    rw [finditerAux] at hm
    have := finditerAux_pos_le M rest (pos + 1) k pr hm
    omega
  | M, c :: rest, pos, 0, pr => by
    intro hm
    rw [finditerAux] at hm
    cases hM : M (c :: rest) with
    | some m =>
      rw [hM] at hm
      simp only [List.mem_cons] at hm
      rcases hm with hm | hm
      · rw [hm]
      · have := finditerAux_pos_le M rest (pos + 1) (m.length - 1) pr hm
        omega
    | none =>
      rw [hM] at hm
      have := finditerAux_pos_le M rest (pos + 1) 0 pr hm
      omega

theorem finditerAux_sorted : ∀ (M : List Char → Option (List Char)) (s : List Char)
    (pos k : Nat), (finditerAux M s pos k).Pairwise (fun a b => a.1 < b.1)
  | M, [], pos, k => by simp [finditerAux]
  | M, c :: rest, pos, Nat.succ k => by
    rw [finditerAux]
    exact finditerAux_sorted M rest (pos + 1) k
  | M, c :: rest, pos, 0 => by
    rw [finditerAux]
    cases hM : M (c :: rest) with
    | some m =>
      refine List.Pairwise.cons ?_ (finditerAux_sorted M rest (pos + 1) (m.length - 1))
      intro pr hpr
      have := finditerAux_pos_le M rest (pos + 1) (m.length - 1) pr hpr
      omega
    | none => exact finditerAux_sorted M rest (pos + 1) 0

theorem maskFold_mapping_ext : ∀ (rs : List (Nat × List Char))
    (st : List Char × Nat × List (List Char × List Char)),
    ∃ ext, (rs.foldl maskStep st).2.2 = st.2.2 ++ ext := by
  intro rs
  induction rs with
  | nil => exact fun st => ⟨[], by simp⟩
  | cons r rs' ih =>
    intro st
    obtain ⟨ext, hext⟩ := ih (maskStep st r)
    refine ⟨[(mkToken st.2.1, r.2)] ++ ext, ?_⟩
    rw [List.foldl_cons, hext]
    simp [maskStep]

/-- Claim C9: brace matches are discovered left to right (strictly
increasing positions); the first mapping entry of extract_placeholders is
token __PH0__ bound to the LAST (rightmost) brace match whenever the brace
family matches at all; concretely, in a text with two brace placeholders
token zero names the rightmost one, not the leftmost, and in a mixed text
the families are numbered brace first, then named-printf, then
bare-printf. -/
theorem claim_C9 :
    (∀ (text : List Char), (finditer matchBraceAt text).Pairwise (fun a b => a.1 < b.1))
    ∧ (∀ (text : String) (p : Nat) (m : List Char),
        (finditer matchBraceAt text.data).getLast? = some (p, m) →
        ∃ ext, (extract_placeholders text).2 = (String.mk (mkToken 0), String.mk m) :: ext)
    ∧ (extract_placeholders "{a} {b}").2 = [("__PH0__", "{b}"), ("__PH1__", "{a}")]
    ∧ (extract_placeholders "{a} text %s more %(b)d").2
        = [("__PH0__", "{a}"), ("__PH1__", "%(b)d"), ("__PH2__", "%s")] := by
  refine ⟨fun text => finditerAux_sorted matchBraceAt text 0 0, ?_, by decide, by decide⟩
  intro text p m hlast
  have hrev : (finditer matchBraceAt text.data).reverse.head? = some (p, m) := by
    rw [List.head?_reverse, hlast]
  cases hr : (finditer matchBraceAt text.data).reverse with
  | nil => rw [hr] at hrev; cases hrev
  | cons pr rs =>
    rw [hr] at hrev
    simp only [List.head?_cons, Option.some.injEq] at hrev
    subst hrev
    have h1 : (applyPattern matchBraceAt (text.data, 0, [])).2.2
        = (mkToken 0, m) :: ((rs.foldl maskStep
            (maskStep (text.data, 0, []) (p, m))).2.2.drop 1) := by
      unfold applyPattern
      rw [show finditer matchBraceAt (text.data, (0 : Nat),
        ([] : List (List Char × List Char))).1 = finditer matchBraceAt text.data from rfl]
      rw [hr, List.foldl_cons]
      obtain ⟨ext, hext⟩ := maskFold_mapping_ext rs (maskStep (text.data, 0, []) (p, m))
      rw [hext]
      simp [maskStep]
    obtain ⟨ext2, hext2⟩ := maskFold_mapping_ext
      ((finditer matchNamedAt (applyPattern matchBraceAt (text.data, 0, [])).1).reverse)
      (applyPattern matchBraceAt (text.data, 0, []))
    obtain ⟨ext3, hext3⟩ := maskFold_mapping_ext
      ((finditer matchPrintfAt (applyPattern matchNamedAt
        (applyPattern matchBraceAt (text.data, 0, []))).1).reverse)
      (applyPattern matchNamedAt (applyPattern matchBraceAt (text.data, 0, [])))
    refine ⟨?_, ?_⟩
    · exact (((rs.foldl maskStep (maskStep (text.data, 0, []) (p, m))).2.2.drop 1
        ++ ext2 ++ ext3).map (fun pr => (String.mk pr.1, String.mk pr.2)))
    · have e3 : (applyPattern matchPrintfAt (applyPattern matchNamedAt
          (applyPattern matchBraceAt (text.data, 0, [])))).2.2
          = (applyPattern matchNamedAt (applyPattern matchBraceAt (text.data, 0, []))).2.2
            ++ ext3 := hext3
      have e2 : (applyPattern matchNamedAt (applyPattern matchBraceAt (text.data, 0, []))).2.2
          = (applyPattern matchBraceAt (text.data, 0, [])).2.2 ++ ext2 := hext2
      show ((applyPattern matchPrintfAt (applyPattern matchNamedAt
        (applyPattern matchBraceAt (text.data, 0, [])))).2.2).map
          (fun pr => (String.mk pr.1, String.mk pr.2)) = _
      rw [e3, e2, h1]
      simp

/-- Witness for claim C9: in "\x7ba\x7d \x7bb\x7d" the rightmost brace
match is at position 4, and token __PH0__ is bound to it. -/
theorem claim_C9_witness :
    ∃ ext, (extract_placeholders "{a} {b}").2
      = (String.mk (mkToken 0), String.mk ['{', 'b', '}']) :: ext :=
  claim_C9.2.1 "{a} {b}" 4 ['{', 'b', '}'] (by decide)

/-! ## Placeholder round trip (claim C4) -/

/-- Whether pat occurs as a contiguous substring of the text. -/
def hasSub (pat : List Char) : List Char → Bool
  | [] => pat.isEmpty
  | c :: rest => pat.isPrefixOf (c :: rest) || hasSub pat rest

theorem hasSub_head_mem : ∀ (c : Char) (pat s : List Char),
    hasSub (c :: pat) s = true → c ∈ s := by
  intro c pat s
  induction s with
  | nil => simp [hasSub, List.isEmpty]
  | cons a rest ih =>
    intro h
    rw [hasSub] at h
    rcases Bool.or_eq_true_iff.mp h with h | h
    · simp only [List.isPrefixOf, Bool.and_eq_true, beq_iff_eq] at h
      rw [h.1]
      exact List.mem_cons_self a rest
    · exact List.mem_cons_of_mem a (ih h)

/-- Claim C4, counterexample: the text \x7ba\x7dPH0\x7bb\x7d contains no
substring of the reserved token shape (it contains no underscore at all),
yet masking it and restoring with the call's own map yields the corrupted
text __PH1\x7bb\x7dPH0__ instead of the original: the token __PH0__
inserted for the rightmost brace placeholder also appears spuriously at the
boundary between the first token and the literal text PH0, and restoration
destroys the real tokens.  A second text %(\x7ba\x7d)s, which contains
neither a token-shaped substring nor even the two characters PH, also fails
to round-trip: the named-printf family matches across the token inserted by
the brace family, so the token __PH0__ disappears into the recorded
placeholder of __PH1__ and is never restored. -/
theorem claim_C4_counterexample :
    ((∀ n : Nat, hasSub (mkToken n) "{a}PH0{b}".data = false)
      ∧ restore_placeholders (extract_placeholders "{a}PH0{b}").1
          (extract_placeholders "{a}PH0{b}").2 = "__PH1{b}PH0__"
      ∧ "__PH1{b}PH0__" ≠ "{a}PH0{b}")
    ∧ ((∀ n : Nat, hasSub (mkToken n) "%({a})s".data = false)
      ∧ hasSub ['P', 'H'] "%({a})s".data = false
      ∧ restore_placeholders (extract_placeholders "%({a})s").1
          (extract_placeholders "%({a})s").2 = "%(__PH0__)s"
      ∧ "%(__PH0__)s" ≠ "%({a})s") := by
  constructor
  · refine ⟨?_, by decide, by decide⟩
    intro n
    by_contra hc
    rw [Bool.not_eq_false] at hc
    exact absurd (hasSub_head_mem '_' _ _ hc) (by decide)
  · refine ⟨?_, by decide, by decide, by decide⟩
    intro n
    by_contra hc
    rw [Bool.not_eq_false] at hc
    exact absurd (hasSub_head_mem '_' _ _ hc) (by decide)

/-! ## Decimal digits of Nat.repr and the token alphabet -/

theorem toDigitsCore_acc : ∀ (fuel n : Nat) (ds : List Char),
    Nat.toDigitsCore 10 fuel n ds = Nat.toDigitsCore 10 fuel n [] ++ ds := by
  intro fuel
  induction fuel with
  | zero => intro n ds; rfl
  | succ fuel ih =>
    intro n ds
    show (if n / 10 = 0 then _ else _) = (if n / 10 = 0 then _ else _) ++ ds
    by_cases h : n / 10 = 0
    · simp [h]
    · simp only [if_neg h]
      rw [ih (n / 10) ((n % 10).digitChar :: ds), ih (n / 10) [(n % 10).digitChar]]
      simp

theorem digitChar_isDigit (m : Nat) (h : m < 10) : (Nat.digitChar m).isDigit = true := by
  interval_cases m <;> decide

theorem digitChar_val (m : Nat) (h : m < 10) : (Nat.digitChar m).toNat - 48 = m := by
  interval_cases m <;> decide

theorem toDigitsCore_digits : ∀ (fuel n : Nat) (c : Char),
    c ∈ Nat.toDigitsCore 10 fuel n [] → c.isDigit = true := by
  intro fuel
  induction fuel with
  | zero => intro n c h; simp [Nat.toDigitsCore] at h
  | succ fuel ih =>
    intro n c h
    rw [show Nat.toDigitsCore 10 (fuel + 1) n [] = if n / 10 = 0
      then [(n % 10).digitChar] else Nat.toDigitsCore 10 fuel (n / 10) [(n % 10).digitChar]
      from by
        show (if n / 10 = 0 then _ else _) = _
        by_cases hh : n / 10 = 0 <;> simp [hh]] at h
    by_cases hh : n / 10 = 0
    · rw [if_pos hh] at h
      simp at h
      rw [h]
      exact digitChar_isDigit _ (Nat.mod_lt _ (by norm_num))
    · rw [if_neg hh, toDigitsCore_acc] at h
      rcases List.mem_append.mp h with h | h
      · exact ih (n / 10) c h
      · simp at h
        rw [h]
        exact digitChar_isDigit _ (Nat.mod_lt _ (by norm_num))

/-- Decimal value of a digit string, most significant digit first. -/
def parseNat (cs : List Char) : Nat := cs.foldl (fun a c => 10 * a + (c.toNat - 48)) 0

theorem parseNat_concat (xs : List Char) (c : Char) :
    parseNat (xs ++ [c]) = 10 * parseNat xs + (c.toNat - 48) := by
  unfold parseNat
  rw [List.foldl_append]
  rfl

theorem parseNat_toDigitsCore : ∀ (fuel n : Nat), n < fuel →
    parseNat (Nat.toDigitsCore 10 fuel n []) = n := by
  intro fuel
  induction fuel with
  | zero => intro n h; omega
  | succ fuel ih =>
    intro n h
    show parseNat (if n / 10 = 0 then _ else _) = n
    by_cases hh : n / 10 = 0
    · rw [if_pos hh]
      show parseNat ([] ++ [(n % 10).digitChar]) = n
      rw [parseNat_concat, digitChar_val _ (Nat.mod_lt _ (by norm_num))]
      have : n % 10 = n := by omega
      simp [parseNat, this]
    · rw [if_neg hh, toDigitsCore_acc, parseNat_concat,
        digitChar_val _ (Nat.mod_lt _ (by norm_num)),
        ih (n / 10) (by
          have h1 : 0 < n := Nat.pos_of_ne_zero (fun hc => hh (by simp [hc]))
          have := Nat.div_lt_self h1 (by norm_num : (1 : Nat) < 10)
          omega)]
      exact Nat.div_add_mod n 10

theorem repr_data_digits (n : Nat) (c : Char) (h : c ∈ (Nat.repr n).data) :
    c.isDigit = true := by
  exact toDigitsCore_digits (n + 1) n c h

theorem repr_injective (n m : Nat) (h : Nat.repr n = Nat.repr m) : n = m := by
  have hd : Nat.toDigits 10 n = Nat.toDigits 10 m := congrArg String.data h
  have h1 := parseNat_toDigitsCore (n + 1) n (by omega)
  have h2 := parseNat_toDigitsCore (m + 1) m (by omega)
  rw [show Nat.toDigitsCore 10 (n + 1) n [] = Nat.toDigits 10 n from rfl] at h1
  rw [show Nat.toDigitsCore 10 (m + 1) m [] = Nat.toDigits 10 m from rfl] at h2
  rw [hd, h2] at h1
  exact h1.symm

/-- Characters that can occur in a synthetic token. -/
def tokChar (c : Char) : Prop := c = '_' ∨ c = 'P' ∨ c = 'H' ∨ c.isDigit = true

theorem mkToken_chars (n : Nat) (c : Char) (h : c ∈ mkToken n) : tokChar c := by
  unfold mkToken at h
  simp only [List.mem_cons, List.mem_append] at h
  rcases h with h | h | h | (h | h)
  · exact Or.inl h
  · exact Or.inl h
  · exact Or.inr (Or.inl h)
  · exact Or.inr (Or.inr (Or.inl h))
  · rcases h with h | h
    · exact Or.inr (Or.inr (Or.inr (repr_data_digits n c h)))
    · simp at h
      exact Or.inl h

theorem mkToken_ne_nil (n : Nat) : mkToken n ≠ [] := by
  unfold mkToken
  simp

theorem mkToken_concat (n : Nat) :
    mkToken n = ('_' :: '_' :: 'P' :: 'H' :: ((Nat.repr n).data ++ ['_'])) ++ ['_'] := by
  unfold mkToken
  simp

theorem mkToken_getLast? (n : Nat) : (mkToken n).getLast? = some '_' := by
  rw [mkToken_concat]
  exact List.getLast?_concat _

theorem unique_char_split : ∀ (l1 l2 a b : List Char) (c : Char),
    c ∉ l1 → c ∉ l2 → l1 ++ c :: l2 = a ++ c :: b → a = l1 ∧ b = l2 := by
  intro l1
  induction l1 with
  | nil =>
    intro l2 a b c _ hc2 h
    cases a with
    | nil =>
      simp only [List.nil_append, List.cons.injEq] at h
      exact ⟨rfl, h.2.symm⟩
    | cons y a' =>
      simp only [List.nil_append, List.cons_append, List.cons.injEq] at h
      exact absurd (h.2 ▸ List.mem_append_right a' (List.mem_cons_self c b)) hc2
  | cons x l1' ih =>
    intro l2 a b c hc1 hc2 h
    cases a with
    | nil =>
      simp only [List.cons_append, List.nil_append, List.cons.injEq] at h
      exact absurd (h.1 ▸ List.mem_cons_self x l1') hc1
    | cons y a' =>
      simp only [List.cons_append, List.cons.injEq] at h
      obtain ⟨hxy, h'⟩ := h
      obtain ⟨ha, hb⟩ := ih l2 a' b c (fun hm => hc1 (List.mem_cons_of_mem x hm)) hc2 h'
      exact ⟨by rw [ha, hxy], hb⟩

theorem digit_run_split : ∀ (d1 d2 r1 r2 : List Char),
    (∀ c ∈ d1, c.isDigit = true) → (∀ c ∈ d2, c.isDigit = true) →
    d1 ++ '_' :: r1 = d2 ++ '_' :: r2 → d1 = d2 ∧ r1 = r2 := by
  intro d1
  induction d1 with
  | nil =>
    intro d2 r1 r2 _ hd2 h
    cases d2 with
    | nil => simpa using h
    | cons c2 d2' =>
      simp only [List.nil_append, List.cons_append, List.cons.injEq] at h
      have := hd2 c2 (List.mem_cons_self c2 d2')
      rw [← h.1] at this
      cases this
  | cons c1 d1' ih =>
    intro d2 r1 r2 hd1 hd2 h
    cases d2 with
    | nil =>
      simp only [List.cons_append, List.nil_append, List.cons.injEq] at h
      have := hd1 c1 (List.mem_cons_self c1 d1')
      rw [h.1] at this
      cases this
    | cons c2 d2' =>
      simp only [List.cons_append, List.cons.injEq] at h
      obtain ⟨hc, h'⟩ := h
      obtain ⟨hd, hr⟩ := ih d2' r1 r2
        (fun c hm => hd1 c (List.mem_cons_of_mem c1 hm))
        (fun c hm => hd2 c (List.mem_cons_of_mem c2 hm)) h'
      exact ⟨by rw [hd, hc], hr⟩

theorem mkToken_inj (n m : Nat) (h : mkToken n = mkToken m) : n = m := by
  unfold mkToken at h
  simp only [List.cons.injEq, true_and] at h
  obtain ⟨hd, _⟩ := digit_run_split (Nat.repr n).data (Nat.repr m).data ['_'] ['_']
    (repr_data_digits n) (repr_data_digits m) h
  exact repr_injective n m (String.ext hd)

/-! ## List utilities for the round-trip proof -/

theorem isPrefixOf_eq_true_iff : ∀ (l t : List Char),
    l.isPrefixOf t = true ↔ ∃ r, l ++ r = t := by
  intro l
  induction l with
  | nil => intro t; simp [List.isPrefixOf]
  | cons c l' ih =>
    intro t
    cases t with
    | nil =>
      simp only [List.isPrefixOf]
      constructor
      · intro h; cases h
      · rintro ⟨r, hr⟩; cases hr
    | cons d t' =>
      simp only [List.isPrefixOf, Bool.and_eq_true, beq_iff_eq, ih t']
      constructor
      · rintro ⟨hcd, r, hr⟩; exact ⟨r, by simp [hcd, hr]⟩
      · rintro ⟨r, hr⟩
        simp only [List.cons_append, List.cons.injEq] at hr
        exact ⟨hr.1, r, hr.2⟩

theorem split3 : ∀ (s t a b : List Char) (x y : Char), s ++ t = a ++ x :: y :: b →
    (∃ b2, s = a ++ x :: y :: b2 ∧ b = b2 ++ t) ∨
    (s = a ++ [x] ∧ t = y :: b) ∨
    (∃ a2, a = s ++ a2 ∧ t = a2 ++ x :: y :: b) := by
  intro s
  induction s with
  | nil =>
    intro t a b x y h
    exact Or.inr (Or.inr ⟨a, rfl, by simpa using h⟩)
  | cons c s' ih =>
    intro t a b x y h
    cases a with
    | nil =>
      simp only [List.cons_append, List.nil_append, List.cons.injEq] at h
      obtain ⟨hcx, h'⟩ := h
      cases s' with
      | nil =>
        simp only [List.nil_append] at h'
        exact Or.inr (Or.inl ⟨by simp [hcx], h'⟩)
      | cons d s'' =>
        simp only [List.cons_append, List.cons.injEq] at h'
        obtain ⟨hdy, h''⟩ := h'
        exact Or.inl ⟨s'', by simp [hcx, hdy], h''.symm⟩
    | cons e a' =>
      simp only [List.cons_append, List.cons.injEq] at h
      obtain ⟨hce, h'⟩ := h
      rcases ih t a' b x y h' with ⟨b2, h1, h2⟩ | ⟨h1, h2⟩ | ⟨a2, h1, h2⟩
      · exact Or.inl ⟨b2, by rw [hce]; simpa using congrArg (e :: ·) h1, h2⟩
      · exact Or.inr (Or.inl ⟨by rw [hce]; simpa using congrArg (e :: ·) h1, h2⟩)
      · exact Or.inr (Or.inr ⟨a2, by rw [hce, h1]; rfl, h2⟩)

theorem hasSub_of_eq_append : ∀ (pat a b s : List Char), s = a ++ pat ++ b →
    hasSub pat s = true := by
  intro pat a
  induction a with
  | nil =>
    intro b s hs
    cases pat with
    | nil => cases s <;> simp [hasSub, List.isEmpty]
    | cons c p' =>
      simp only [List.nil_append] at hs
      rw [hs]
      show hasSub (c :: p') (c :: (p' ++ b)) = true
      rw [hasSub]
      apply Bool.or_eq_true_iff.mpr
      exact Or.inl ((isPrefixOf_eq_true_iff _ _).mpr ⟨b, by simp⟩)
  | cons c a' ih =>
    intro b s hs
    rw [hs]
    show hasSub pat (c :: (a' ++ pat ++ b)) = true
    cases pat with
    | nil => simp [hasSub, List.isEmpty]
    | cons d p' =>
      rw [hasSub]
      apply Bool.or_eq_true_iff.mpr
      exact Or.inr (ih b _ rfl)

theorem hasSub_exists : ∀ (pat s : List Char), hasSub pat s = true →
    ∃ a b, s = a ++ pat ++ b := by
  intro pat s
  induction s with
  | nil =>
    intro h
    simp only [hasSub, List.isEmpty_iff] at h
    exact ⟨[], [], by simp [h]⟩
  | cons c rest ih =>
    intro h
    rw [hasSub] at h
    rcases Bool.or_eq_true_iff.mp h with h | h
    · obtain ⟨r, hr⟩ := (isPrefixOf_eq_true_iff _ _).mp h
      exact ⟨[], r, by rw [List.nil_append]; exact hr.symm⟩
    · obtain ⟨a, b, hab⟩ := ih h
      exact ⟨c :: a, b, by rw [hab]; rfl⟩

/-- t occurs as a contiguous substring of s. -/
def isSubOf (t s : List Char) : Prop := ∃ u v, u ++ t ++ v = s

theorem isSubOf_refl (s : List Char) : isSubOf s s := ⟨[], [], by simp⟩

theorem isSubOf_trans {a b c : List Char} (h1 : isSubOf a b) (h2 : isSubOf b c) :
    isSubOf a c := by
  obtain ⟨u1, v1, h1⟩ := h1
  obtain ⟨u2, v2, h2⟩ := h2
  exact ⟨u2 ++ u1, v1 ++ v2, by rw [← h2, ← h1]; simp⟩

theorem hasSub_isSubOf (pat t s : List Char) (hts : isSubOf t s)
    (hs : hasSub pat s = false) : hasSub pat t = false := by
  by_contra hc
  rw [Bool.not_eq_false] at hc
  obtain ⟨a, b, hab⟩ := hasSub_exists pat t hc
  obtain ⟨u, v, huv⟩ := hts
  rw [hasSub_of_eq_append pat (u ++ a) (b ++ v) s (by rw [← huv, hab]; simp)] at hs
  cases hs

theorem unique_split {α : Type} : ∀ (l1 l2 a b : List α) (c : α),
    c ∉ l1 → c ∉ l2 → l1 ++ c :: l2 = a ++ c :: b → a = l1 ∧ b = l2 := by
  intro l1
  induction l1 with
  | nil =>
    intro l2 a b c _ hc2 h
    cases a with
    | nil =>
      simp only [List.nil_append, List.cons.injEq] at h
      exact ⟨rfl, h.2.symm⟩
    | cons y a' =>
      simp only [List.nil_append, List.cons_append, List.cons.injEq] at h
      exact absurd (h.2 ▸ List.mem_append_right a' (List.mem_cons_self c b)) hc2
  | cons x l1' ih =>
    intro l2 a b c hc1 hc2 h
    cases a with
    | nil =>
      simp only [List.cons_append, List.nil_append, List.cons.injEq] at h
      exact absurd (h.1 ▸ List.mem_cons_self x l1') hc1
    | cons y a' =>
      simp only [List.cons_append, List.cons.injEq] at h
      obtain ⟨hxy, h'⟩ := h
      obtain ⟨ha, hb⟩ := ih l2 a' b c (fun hm => hc1 (List.mem_cons_of_mem x hm)) hc2 h'
      exact ⟨by rw [ha, hxy], hb⟩

theorem mem_range'_lower : ∀ (n s i : Nat), i ∈ List.range' s n → s ≤ i := by
  intro n
  induction n with
  | zero => intro s i h; simp [List.range'] at h
  | succ n ih =>
    intro s i h
    rw [List.range'_succ] at h
    rcases List.mem_cons.mp h with h | h
    · omega
    · have := ih (s + 1) i h; omega

theorem rangeAppend : ∀ (a k b : Nat),
    List.range' k a ++ List.range' (k + a) b = List.range' k (a + b) := by
  intro a
  induction a with
  | zero => intro k b; simp [List.range']
  | succ a ih =>
    intro k b
    rw [List.range'_succ, show k + (a + 1) = (k + 1) + a from by omega, List.cons_append,
      ih (k + 1) b, show a + 1 + b = a + b + 1 from by omega, List.range'_succ]

theorem rangeConcat (k a : Nat) :
    List.range' k (a + 1) = List.range' k a ++ [k + a] := by
  rw [← rangeAppend a k 1, List.range'_succ]
  rfl

/-! ## Chunked texts: the structure of a masked string -/

/-- A piece of a masked text: either literal text carried over from the
input, or a synthetic token standing for a removed placeholder. -/
inductive Chunk where
  | txt (s : List Char)
  | tok (n : Nat)

/-- The masked text denoted by a chunk list. -/
def flatChunks : List Chunk → List Char
  | [] => []
  | .txt s :: L => s ++ flatChunks L
  | .tok n :: L => mkToken n ++ flatChunks L

/-- The text with every token replaced by its placeholder φ n. -/
def unmaskC (φ : Nat → List Char) : List Chunk → List Char
  | [] => []
  | .txt s :: L => s ++ unmaskC φ L
  | .tok n :: L => φ n ++ unmaskC φ L

/-- The text after the restoration loop has processed tokens 0..j-1:
those tokens are already replaced by their placeholders, the rest are
still masked. -/
def restoreC (φ : Nat → List Char) (j : Nat) : List Chunk → List Char
  | [] => []
  | .txt s :: L => s ++ restoreC φ j L
  | .tok n :: L => (if n < j then φ n else mkToken n) ++ restoreC φ j L

/-- The token numbers of a chunk list, in order. -/
def toksOf : List Chunk → List Nat
  | [] => []
  | .txt _ :: L => toksOf L
  | .tok n :: L => n :: toksOf L

/-- Whether a chunk is literal text. -/
def Chunk.isTxt : Chunk → Bool
  | .txt _ => true
  | .tok _ => false

/-- Adjacent chunks are never both literal text. -/
def sepR (a b : Chunk) : Prop := a.isTxt = false ∨ b.isTxt = false

/-- No two adjacent chunks are both literal text. -/
def SepC (L : List Chunk) : Prop := List.Chain' sepR L

theorem flatChunks_append : ∀ (L1 L2 : List Chunk),
    flatChunks (L1 ++ L2) = flatChunks L1 ++ flatChunks L2 := by
  intro L1
  induction L1 with
  | nil => intro L2; rfl
  | cons c L1' ih =>
    intro L2
    cases c with
    | txt s => rw [List.cons_append, flatChunks, flatChunks, ih, List.append_assoc]
    | tok n => rw [List.cons_append, flatChunks, flatChunks, ih, List.append_assoc]

theorem unmaskC_append (φ : Nat → List Char) : ∀ (L1 L2 : List Chunk),
    unmaskC φ (L1 ++ L2) = unmaskC φ L1 ++ unmaskC φ L2 := by
  intro L1
  induction L1 with
  | nil => intro L2; rfl
  | cons c L1' ih =>
    intro L2
    cases c with
    | txt s => rw [List.cons_append, unmaskC, unmaskC, ih, List.append_assoc]
    | tok n => rw [List.cons_append, unmaskC, unmaskC, ih, List.append_assoc]

theorem restoreC_append (φ : Nat → List Char) (j : Nat) : ∀ (L1 L2 : List Chunk),
    restoreC φ j (L1 ++ L2) = restoreC φ j L1 ++ restoreC φ j L2 := by
  intro L1
  induction L1 with
  | nil => intro L2; rfl
  | cons c L1' ih =>
    intro L2
    cases c with
    | txt s => rw [List.cons_append, restoreC, restoreC, ih, List.append_assoc]
    | tok n => rw [List.cons_append, restoreC, restoreC, ih, List.append_assoc]

theorem restoreC_zero (φ : Nat → List Char) : ∀ (L : List Chunk),
    restoreC φ 0 L = flatChunks L := by
  intro L
  induction L with
  | nil => rfl
  | cons c L' ih =>
    cases c with
    | txt s => rw [restoreC, flatChunks, ih]
    | tok n => rw [restoreC, flatChunks, if_neg (by omega), ih]

theorem restoreC_full (φ : Nat → List Char) (j : Nat) : ∀ (L : List Chunk),
    (∀ n, n ∈ toksOf L → n < j) → restoreC φ j L = unmaskC φ L := by
  intro L
  induction L with
  | nil => intro _; rfl
  | cons c L' ih =>
    intro h
    cases c with
    | txt s => rw [restoreC, unmaskC, ih (fun n hn => h n hn)]
    | tok n =>
      rw [restoreC, unmaskC, if_pos (h n (List.mem_cons_self n (toksOf L'))),
        ih (fun m hm => h m (List.mem_cons_of_mem n hm))]

theorem restoreC_stable (φ : Nat → List Char) (j : Nat) : ∀ (L : List Chunk),
    Chunk.tok j ∉ L → restoreC φ (j + 1) L = restoreC φ j L := by
  intro L
  induction L with
  | nil => intro _; rfl
  | cons c L' ih =>
    intro h
    cases c with
    | txt s => rw [restoreC, restoreC, ih (fun hm => h (List.mem_cons_of_mem _ hm))]
    | tok n =>
      have hnj : n ≠ j := fun he => h (he ▸ List.mem_cons_self _ L')
      rw [restoreC, restoreC, ih (fun hm => h (List.mem_cons_of_mem _ hm))]
      congr 1
      by_cases hlt : n < j
      · rw [if_pos (by omega), if_pos hlt]
      · rw [if_neg (by omega), if_neg hlt]

theorem toksOf_append : ∀ (L1 L2 : List Chunk),
    toksOf (L1 ++ L2) = toksOf L1 ++ toksOf L2 := by
  intro L1
  induction L1 with
  | nil => intro L2; rfl
  | cons c L1' ih =>
    intro L2
    cases c with
    | txt s => rw [List.cons_append, toksOf, toksOf, ih]
    | tok n => rw [List.cons_append, toksOf, toksOf, ih, List.cons_append]

theorem mem_toksOf : ∀ (L : List Chunk) (n : Nat),
    n ∈ toksOf L ↔ Chunk.tok n ∈ L := by
  intro L
  induction L with
  | nil => intro n; simp [toksOf]
  | cons c L' ih =>
    intro n
    cases c with
    | txt s =>
      rw [toksOf, ih n]
      constructor
      · exact fun h => List.mem_cons_of_mem _ h
      · intro h
        rcases List.mem_cons.mp h with h | h
        · cases h
        · exact h
    | tok m =>
      rw [toksOf]
      constructor
      · intro h
        rcases List.mem_cons.mp h with h | h
        · rw [h]; exact List.mem_cons_self _ _
        · exact List.mem_cons_of_mem _ ((ih n).mp h)
      · intro h
        rcases List.mem_cons.mp h with h | h
        · rw [Chunk.tok.injEq] at h
          rw [h]; exact List.mem_cons_self _ _
        · exact List.mem_cons_of_mem _ ((ih n).mpr h)

theorem sepC_tail {c : Chunk} {L : List Chunk} (h : SepC (c :: L)) : SepC L :=
  (List.chain'_cons'.mp h).2

theorem sepC_rel {c d : Chunk} {L : List Chunk} (h : SepC (c :: d :: L)) : sepR c d :=
  (List.chain'_cons'.mp h).1 d rfl

/-! ## Scan structure of finditer -/

/-- Shift the positions of a match list by d. -/
def shiftMs (d : Nat) (ms : List (Nat × List Char)) : List (Nat × List Char) :=
  ms.map (fun pr => (pr.1 + d, pr.2))

theorem shiftMs_shiftMs (d e : Nat) (ms : List (Nat × List Char)) :
    shiftMs e (shiftMs d ms) = shiftMs (d + e) ms := by
  unfold shiftMs
  rw [List.map_map]
  apply List.map_congr_left
  intro pr _
  show (pr.1 + d + e, pr.2) = (pr.1 + (d + e), pr.2)
  rw [Nat.add_assoc]

theorem shiftMs_length (d : Nat) (ms : List (Nat × List Char)) :
    (shiftMs d ms).length = ms.length := List.length_map ms _

theorem shiftMs_cons (d : Nat) (pr : Nat × List Char) (ms : List (Nat × List Char)) :
    shiftMs d (pr :: ms) = (pr.1 + d, pr.2) :: shiftMs d ms := rfl

theorem finditerAux_cons_some {M : List Char → Option (List Char)} {c : Char}
    {rest m : List Char} (hM : M (c :: rest) = some m) (pos : Nat) :
    finditerAux M (c :: rest) pos 0
      = (pos, m) :: finditerAux M rest (pos + 1) (m.length - 1) := by
  rw [finditerAux, hM]

theorem finditerAux_cons_none {M : List Char → Option (List Char)} {c : Char}
    {rest : List Char} (hM : M (c :: rest) = none) (pos : Nat) :
    finditerAux M (c :: rest) pos 0 = finditerAux M rest (pos + 1) 0 := by
  rw [finditerAux, hM]

theorem finditerAux_skip (M : List Char → Option (List Char)) : ∀ (s : List Char)
    (pos k : Nat), finditerAux M s pos k = finditerAux M (s.drop k) (pos + k) 0 := by
  intro s
  induction s with
  | nil => intro pos k; simp [finditerAux]
  | cons c rest ih =>
    intro pos k
    cases k with
    | zero => rw [List.drop_zero, Nat.add_zero]
    | succ k' =>
      rw [finditerAux, ih (pos + 1) k', List.drop_succ_cons,
        show pos + 1 + k' = pos + (k' + 1) from by omega]

theorem finditerAux_shift (M : List Char → Option (List Char)) : ∀ (s : List Char)
    (pos k : Nat), finditerAux M s pos k = shiftMs pos (finditerAux M s 0 k) := by
  intro s
  induction s with
  | nil => intro pos k; rfl
  | cons c rest ih =>
    intro pos k
    cases k with
    | succ k' =>
      rw [show finditerAux M (c :: rest) pos (k' + 1) = finditerAux M rest (pos + 1) k'
          from by rw [finditerAux],
        show finditerAux M (c :: rest) 0 (k' + 1) = finditerAux M rest 1 k'
          from by rw [finditerAux],
        ih (pos + 1) k', ih 1 k', shiftMs_shiftMs, Nat.add_comm 1 pos]
    | zero =>
      cases hM : M (c :: rest) with
      | some m =>
        rw [finditerAux_cons_some hM pos, finditerAux_cons_some hM 0,
          ih (pos + 1) (m.length - 1), ih 1 (m.length - 1), shiftMs_cons,
          shiftMs_shiftMs, Nat.zero_add, Nat.add_comm 1 pos]
      | none =>
        rw [finditerAux_cons_none hM pos, finditerAux_cons_none hM 0,
          ih (pos + 1) 0, ih 1 0, shiftMs_shiftMs, Nat.add_comm 1 pos]

theorem finditerAux_pos_add_le : ∀ (M : List Char → Option (List Char)) (s : List Char)
    (pos k : Nat) (pr : Nat × List Char), pr ∈ finditerAux M s pos k → pos + k ≤ pr.1
  | M, [], pos, k, pr => by simp [finditerAux]
  | M, c :: rest, pos, Nat.succ k, pr => by
    intro hm
    rw [finditerAux] at hm
    have := finditerAux_pos_add_le M rest (pos + 1) k pr hm
    omega
  | M, c :: rest, pos, 0, pr => by
    intro hm
    rw [finditerAux] at hm
    cases hM : M (c :: rest) with
    | some m =>
      rw [hM] at hm
      rcases List.mem_cons.mp hm with hm | hm
      · rw [hm]; omega
      · have := finditerAux_pos_add_le M rest (pos + 1) (m.length - 1) pr hm
        omega
    | none =>
      rw [hM] at hm
      have := finditerAux_pos_add_le M rest (pos + 1) 0 pr hm
      omega

theorem finditerAux_nonoverlap (M : List Char → Option (List Char))
    (hne : ∀ t m, M t = some m → m ≠ []) : ∀ (s : List Char) (pos k : Nat),
    (finditerAux M s pos k).Pairwise (fun a b => a.1 + a.2.length ≤ b.1)
  | s, pos, k => by
    match s, k with
    | [], _ => simp [finditerAux]
    | c :: rest, Nat.succ k' =>
      rw [finditerAux]
      exact finditerAux_nonoverlap M hne rest (pos + 1) k'
    | c :: rest, 0 =>
      rw [finditerAux]
      cases hM : M (c :: rest) with
      | some m =>
        refine List.Pairwise.cons ?_ (finditerAux_nonoverlap M hne rest (pos + 1) (m.length - 1))
        intro pr hpr
        have h1 := finditerAux_pos_add_le M rest (pos + 1) (m.length - 1) pr hpr
        have h2 : m ≠ [] := hne _ _ hM
        have h3 : 1 ≤ m.length := by
          cases m with
          | nil => exact absurd rfl h2
          | cons x xs => simp
        show pos + m.length ≤ pr.1
        omega
      | none => exact finditerAux_nonoverlap M hne rest (pos + 1) 0

theorem finditer_valid (M : List Char → Option (List Char))
    (hne : ∀ t m, M t = some m → m ≠ []) : ∀ (N : Nat) (s : List Char),
    s.length ≤ N → ∀ pr, pr ∈ finditer M s → M (s.drop pr.1) = some pr.2 := by
  intro N
  induction N with
  | zero =>
    intro s hs pr hpr
    have hs0 : s = [] := List.length_eq_zero.mp (by omega)
    subst hs0
    simp [finditer, finditerAux] at hpr
  | succ N ih =>
    intro s hs pr hpr
    cases s with
    | nil => simp [finditer, finditerAux] at hpr
    | cons c rest =>
      rw [finditer] at hpr
      cases hM : M (c :: rest) with
      | some m =>
        rw [finditerAux_cons_some hM 0] at hpr
        rcases List.mem_cons.mp hpr with hpr | hpr
        · rw [hpr]; exact hM
        · have hm1 : 1 ≤ m.length := by
            have := hne _ _ hM
            cases m with
            | nil => exact absurd rfl this
            | cons x xs => simp
          rw [finditerAux_skip, show 0 + 1 + (m.length - 1) = m.length from by omega,
            finditerAux_shift] at hpr
          unfold shiftMs at hpr
          obtain ⟨q, hq, hqe⟩ := List.mem_map.mp hpr
          have hb : rest.drop (m.length - 1) = (c :: rest).drop m.length := by
            obtain ⟨k, hk⟩ : ∃ k, m.length = k + 1 := ⟨m.length - 1, by omega⟩
            rw [hk, Nat.add_sub_cancel, List.drop_succ_cons]
          rw [hb] at hq
          have hlen : ((c :: rest).drop m.length).length ≤ N := by
            rw [List.length_drop]
            simp only [List.length_cons] at hs ⊢
            omega
          have hv := ih _ hlen q hq
          rw [← hqe]
          show M ((c :: rest).drop (q.1 + m.length)) = some q.2
          rw [Nat.add_comm q.1 m.length, ← List.drop_drop]
          exact hv
      | none =>
        rw [finditerAux_cons_none hM 0, finditerAux_shift] at hpr
        unfold shiftMs at hpr
        obtain ⟨q, hq, hqe⟩ := List.mem_map.mp hpr
        have hlen : rest.length ≤ N := by
          simp only [List.length_cons] at hs
          omega
        have hv := ih rest hlen q hq
        rw [← hqe]
        show M ((c :: rest).drop (q.1 + (0 + 1))) = some q.2
        rw [← List.drop_drop]
        simpa using hv

theorem finditer_cons_structure (M : List Char → Option (List Char))
    (hne : ∀ t m, M t = some m → m ≠ [])
    (hpre : ∀ t m, M t = some m → ∃ r, m ++ r = t) : ∀ (N : Nat) (s : List Char),
    s.length ≤ N → ∀ p m ms2, finditer M s = (p, m) :: ms2 →
    ∃ a b, s = a ++ m ++ b ∧ a.length = p ∧ (∃ t, M t = some m) ∧
      ms2 = shiftMs (p + m.length) (finditer M b) := by
  intro N
  induction N with
  | zero =>
    intro s hs p m ms2 hf
    have hs0 : s = [] := List.length_eq_zero.mp (by omega)
    subst hs0
    simp [finditer, finditerAux] at hf
  | succ N ih =>
    intro s hs p m ms2 hf
    cases s with
    | nil => simp [finditer, finditerAux] at hf
    | cons c rest =>
      rw [finditer] at hf
      cases hM : M (c :: rest) with
      | some m0 =>
        rw [finditerAux_cons_some hM 0, List.cons.injEq, Prod.mk.injEq] at hf
        obtain ⟨⟨hp, hm⟩, hms⟩ := hf
        subst hm
        have hm1 : 1 ≤ m0.length := by
          have := hne _ _ hM
          cases m0 with
          | nil => exact absurd rfl this
          | cons x xs => simp
        obtain ⟨r, hr⟩ := hpre _ _ hM
        have hb : rest.drop (m0.length - 1) = r := by
          have hd : (c :: rest).drop m0.length = r := by
            have hcg := congrArg (List.drop m0.length) hr
            rw [List.drop_left] at hcg
            exact hcg.symm
          rw [← hd]
          obtain ⟨k, hk⟩ : ∃ k, m0.length = k + 1 := ⟨m0.length - 1, by omega⟩
          rw [hk, Nat.add_sub_cancel, List.drop_succ_cons]
        refine ⟨[], r, by simpa using hr.symm, by rw [List.length_nil]; exact hp,
          ⟨c :: rest, hM⟩, ?_⟩
        rw [← hms, finditerAux_skip M rest (0 + 1) (m0.length - 1),
          show 0 + 1 + (m0.length - 1) = m0.length from by omega, finditerAux_shift, hb,
          ← hp, Nat.zero_add]
        rfl
      | none =>
        rw [finditerAux_cons_none hM 0, finditerAux_shift] at hf
        cases hrest : finditer M rest with
        | nil =>
          rw [show finditerAux M rest 0 0 = finditer M rest from rfl, hrest] at hf
          cases hf
        | cons q ms2' =>
          rw [show finditerAux M rest 0 0 = finditer M rest from rfl, hrest,
            shiftMs_cons] at hf
          rw [List.cons.injEq, Prod.mk.injEq] at hf
          obtain ⟨⟨hp, hm⟩, hms⟩ := hf
          have hlen : rest.length ≤ N := by
            simp only [List.length_cons] at hs
            omega
          obtain ⟨a, b, hab, hal, hMt, hms2⟩ := ih rest hlen q.1 q.2 ms2' (by rw [hrest])
          rw [hm] at hMt
          refine ⟨c :: a, b, by rw [hab, hm]; rfl, ?_, hMt, ?_⟩
          · simp only [List.length_cons, hal]
            omega
          · rw [← hms, hms2, shiftMs_shiftMs, hm]
            congr 1
            omega

theorem finditerAux_all_fail (M : List Char → Option (List Char)) : ∀ (s : List Char)
    (pos : Nat), (∀ u, (∃ w, w ++ u = s) → M u = none) → finditerAux M s pos 0 = [] := by
  intro s
  induction s with
  | nil => intro pos _; rfl
  | cons c rest ih =>
    intro pos h
    rw [finditerAux_cons_none (h (c :: rest) ⟨[], rfl⟩) pos]
    exact ih (pos + 1) (fun u ⟨w, hw⟩ => h u ⟨c :: w, by rw [← hw]; rfl⟩)

/-! ## Shapes of the three pattern matchers -/

theorem matchPrintfAt_shape (t m : List Char) (h : matchPrintfAt t = some m) :
    ∃ cv t2, t = '%' :: cv :: t2 ∧ isConv cv = true ∧ m = ['%', cv] := by
  unfold matchPrintfAt at h
  split at h
  · rename_i cv t2
    split at h
    · rename_i hcv
      rw [Option.some.injEq] at h
      exact ⟨cv, t2, rfl, hcv, h.symm⟩
    · cases h
  · cases h

theorem matchPrintfAt_cons2 (c d : Char) (t : List Char) :
    matchPrintfAt (c :: d :: t)
      = if c = '%' then (if isConv d then some ['%', d] else none) else none := by
  by_cases hc : c = '%'
  · subst hc
    rw [if_pos rfl]
    rfl
  · rw [if_neg hc]
    unfold matchPrintfAt
    split
    · rename_i heq
      rw [List.cons.injEq] at heq
      exact absurd heq.1 hc
    · rfl

theorem matchPrintfAt_short (t : List Char) (h : t.length ≤ 1) : matchPrintfAt t = none := by
  cases t with
  | nil => rfl
  | cons c t' =>
    cases t' with
    | nil =>
      unfold matchPrintfAt
      split
      · rename_i cv t2 heq
        simp at heq
      · rfl
    | cons d t'' => simp at h

theorem matchPrintfAt_snd_underscore (c : Char) (t : List Char) :
    matchPrintfAt (c :: '_' :: t) = none := by
  rw [matchPrintfAt_cons2]
  by_cases hc : c = '%'
  · rw [if_pos hc, if_neg (by decide : ¬ isConv '_' = true)]
  · rw [if_neg hc]

theorem matchBraceAt_shape (t m : List Char) (h : matchBraceAt t = some m) :
    ∃ c mid t2, t = '{' :: c :: (mid ++ '}' :: t2) ∧ m = '{' :: c :: (mid ++ ['}'])
      ∧ isIdentStart c = true := by
  unfold matchBraceAt at h
  split at h
  · rename_i c rest
    split at h
    · rename_i hident
      split at h
      · rename_i mid r2 hspan
        rw [Option.some.injEq] at h
        have hsp : rest.takeWhile isIdentChar = mid ∧ rest.dropWhile isIdentChar = '}' :: r2 := by
          rw [List.span_eq_take_drop, Prod.mk.injEq] at hspan
          exact hspan
        have hrest : rest = mid ++ '}' :: r2 := by
          rw [← hsp.1, ← hsp.2, List.takeWhile_append_dropWhile]
        exact ⟨c, mid, r2, by rw [hrest], h.symm, hident⟩
      · cases h
    · cases h
  · cases h

theorem matchNamedAt_head (t m : List Char) (h : matchNamedAt t = some m) :
    ∃ t2, t = '%' :: '(' :: t2 := by
  unfold matchNamedAt at h
  split at h
  · rename_i c rest
    exact ⟨c :: rest, rfl⟩
  · cases h

theorem matchBraceAt_ne (t m : List Char) (h : matchBraceAt t = some m) : m ≠ [] := by
  obtain ⟨c, mid, t2, _, hm, _⟩ := matchBraceAt_shape t m h
  rw [hm]
  simp

theorem matchBraceAt_pre (t m : List Char) (h : matchBraceAt t = some m) :
    ∃ r, m ++ r = t := by
  obtain ⟨c, mid, t2, ht, hm, _⟩ := matchBraceAt_shape t m h
  refine ⟨t2, ?_⟩
  rw [ht, hm]
  simp

theorem matchPrintfAt_ne (t m : List Char) (h : matchPrintfAt t = some m) : m ≠ [] := by
  obtain ⟨cv, t2, _, _, hm⟩ := matchPrintfAt_shape t m h
  rw [hm]
  simp

theorem matchPrintfAt_pre (t m : List Char) (h : matchPrintfAt t = some m) :
    ∃ r, m ++ r = t := by
  obtain ⟨cv, t2, ht, _, hm⟩ := matchPrintfAt_shape t m h
  exact ⟨t2, by rw [ht, hm]; rfl⟩

theorem isConv_ne_P (cv : Char) (h : isConv cv = true) : cv ≠ 'P' := by
  intro hc
  rw [hc] at h
  cases h

/-! ## Distributing the replacement fold over text splits -/

theorem subst_append_left (u w : List Char) (p l : Nat) (tok : List Char)
    (h : u.length ≤ p) : subst (u ++ w) p l tok = u ++ subst w (p - u.length) l tok := by
  unfold subst
  rw [List.take_append_eq_append_take, List.take_of_length_le h,
    List.drop_append_eq_append_drop, List.drop_eq_nil_of_le (by omega), List.nil_append,
    show p + l - u.length = p - u.length + l from by omega]
  simp only [List.append_assoc]

theorem subst_append_right (u w : List Char) (p l : Nat) (tok : List Char)
    (h : p + l ≤ u.length) : subst (u ++ w) p l tok = subst u p l tok ++ w := by
  unfold subst
  rw [List.take_append_eq_append_take, show p - u.length = 0 from by omega, List.take_zero,
    List.append_nil, List.drop_append_eq_append_drop,
    show p + l - u.length = 0 from by omega, List.drop_zero, List.append_assoc,
    List.append_assoc, List.append_assoc]

theorem maskStep_append (u X : List Char) (kp : Nat × List (List Char × List Char))
    (p : Nat) (m2 : List Char) (h : u.length ≤ p) :
    maskStep (u ++ X, kp) (p, m2)
      = (u ++ (maskStep (X, kp) (p - u.length, m2)).1,
        (maskStep (X, kp) (p - u.length, m2)).2) := by
  simp only [maskStep]
  rw [subst_append_left u X p m2.length (mkToken kp.1) h]

theorem maskStep_append_right (Y w : List Char) (kp : Nat × List (List Char × List Char))
    (p : Nat) (m2 : List Char) (h : p + m2.length ≤ Y.length) :
    maskStep (Y ++ w, kp) (p, m2)
      = ((maskStep (Y, kp) (p, m2)).1 ++ w, (maskStep (Y, kp) (p, m2)).2) := by
  simp only [maskStep]
  rw [subst_append_right Y w p m2.length (mkToken kp.1) h]

theorem maskFoldr_shift : ∀ (ms : List (Nat × List Char)) (u w : List Char) (k : Nat)
    (mp : List (List Char × List Char)), (∀ pm ∈ ms, u.length ≤ pm.1) →
    ms.foldr (fun pm st => maskStep st pm) (u ++ w, k, mp)
      = (u ++ ((ms.map (fun pr => (pr.1 - u.length, pr.2))).foldr
            (fun pm st => maskStep st pm) (w, k, mp)).1,
         ((ms.map (fun pr => (pr.1 - u.length, pr.2))).foldr
            (fun pm st => maskStep st pm) (w, k, mp)).2) := by
  intro ms
  induction ms with
  | nil => intro u w k mp _; rfl
  | cons pm ms1 ih =>
    intro u w k mp hb
    rw [List.foldr_cons, List.map_cons, List.foldr_cons,
      ih u w k mp (fun q hq => hb q (List.mem_cons_of_mem pm hq))]
    exact maskStep_append u _ _ pm.1 pm.2 (hb pm (List.mem_cons_self pm ms1))

theorem maskFoldr_take : ∀ (ms : List (Nat × List Char)) (u : List Char) (k : Nat)
    (mp : List (List Char × List Char)) (X : Nat), X ≤ u.length →
    (∀ pm ∈ ms, X ≤ pm.1) →
    ∃ tail, (ms.foldr (fun pm st => maskStep st pm) (u, k, mp)).1 = u.take X ++ tail := by
  intro ms
  induction ms with
  | nil =>
    intro u k mp X hX _
    exact ⟨u.drop X, (List.take_append_drop X u).symm⟩
  | cons pm ms1 ih =>
    intro u k mp X hX hb
    obtain ⟨tail1, ht1⟩ := ih u k mp X hX (fun q hq => hb q (List.mem_cons_of_mem pm hq))
    rw [List.foldr_cons]
    have hlt : (List.take X u).length = X := by
      rw [List.length_take]
      omega
    refine ⟨List.take (pm.1 - X) tail1
        ++ mkToken ((ms1.foldr (fun pm st => maskStep st pm) (u, k, mp)).2.1)
        ++ List.drop (pm.1 + pm.2.length - X) tail1, ?_⟩
    show subst ((ms1.foldr (fun pm st => maskStep st pm) (u, k, mp)).1) pm.1 pm.2.length _
        = _
    rw [ht1]
    unfold subst
    have hp : X ≤ pm.1 := hb pm (List.mem_cons_self pm ms1)
    rw [List.take_append_eq_append_take, List.take_of_length_le (by omega), hlt,
      List.drop_append_eq_append_drop, List.drop_eq_nil_of_le (by omega), List.nil_append,
      hlt]
    simp only [List.append_assoc]

theorem shiftMs_unshift (d : Nat) (ms : List (Nat × List Char)) :
    (shiftMs d ms).map (fun pr => (pr.1 - d, pr.2)) = ms := by
  unfold shiftMs
  rw [List.map_map]
  conv_rhs => rw [← List.map_id ms]
  apply List.map_congr_left
  intro q _
  show (q.1 + d - d, q.2) = q
  rw [Nat.add_sub_cancel]

theorem subst_exact (a m w tok : List Char) :
    subst ((a ++ m) ++ w) a.length m.length tok = a ++ tok ++ w := by
  unfold subst
  rw [show a.length + m.length = (a ++ m).length from (List.length_append a m).symm,
    List.drop_left, List.append_assoc a m w, List.take_left]

theorem maskFoldr_append_right : ∀ (ms : List (Nat × List Char)) (u w : List Char)
    (k : Nat) (mp : List (List Char × List Char)),
    (∀ pm ∈ ms, pm.1 + pm.2.length ≤ u.length) →
    ms.Pairwise (fun a b => a.1 + a.2.length ≤ b.1) →
    ms.foldr (fun pm st => maskStep st pm) (u ++ w, k, mp)
      = ((ms.foldr (fun pm st => maskStep st pm) (u, k, mp)).1 ++ w,
         (ms.foldr (fun pm st => maskStep st pm) (u, k, mp)).2) := by
  intro ms
  induction ms with
  | nil => intro u w k mp _ _; rfl
  | cons pm ms1 ih =>
    intro u w k mp hb hpw
    have hrel : ∀ y ∈ ms1, pm.1 + pm.2.length ≤ y.1 := (List.pairwise_cons.mp hpw).1
    have hpw1 := (List.pairwise_cons.mp hpw).2
    rw [List.foldr_cons, List.foldr_cons,
      ih u w k mp (fun q hq => hb q (List.mem_cons_of_mem pm hq)) hpw1]
    obtain ⟨tail1, ht1⟩ := maskFoldr_take ms1 u k mp (pm.1 + pm.2.length)
      (hb pm (List.mem_cons_self pm ms1)) hrel
    have hY : pm.1 + pm.2.length
        ≤ ((ms1.foldr (fun pm st => maskStep st pm) (u, k, mp)).1).length := by
      rw [ht1, List.length_append, List.length_take,
        Nat.min_eq_left (hb pm (List.mem_cons_self pm ms1))]
      omega
    exact maskStep_append_right _ w _ pm.1 pm.2 hY

/-! ## Masking one text produces a chunked decomposition -/

theorem maskText_nomatch (M : List Char → Option (List Char)) (s : List Char) (k : Nat)
    (mp : List (List Char × List Char)) (hf : finditer M s = []) :
    ∃ (L : List Chunk) (new : List (List Char × List Char)),
      (finditer M s).foldr (fun pm st => maskStep st pm) (s, k, mp)
        = (flatChunks L, k + (finditer M s).length, mp ++ new)
      ∧ List.Perm (toksOf L) (List.range' k (finditer M s).length)
      ∧ new.map Prod.fst = (List.range' k (finditer M s).length).map mkToken
      ∧ (∀ φ : Nat → List Char, (∀ n ph, (mkToken n, ph) ∈ new → φ n = ph) →
          unmaskC φ L = s)
      ∧ (∀ pr ∈ new, ∃ t, M t = some pr.2)
      ∧ (∀ pr ∈ new, isSubOf pr.2 s)
      ∧ SepC L
      ∧ (∀ t, Chunk.txt t ∈ L → isSubOf t s) := by
  refine ⟨[Chunk.txt s], [], ?_, ?_, ?_, ?_, ?_, ?_, ?_, ?_⟩
  · rw [hf]
    show (s, k, mp) = _
    simp [flatChunks]
  · rw [hf]
    exact List.Perm.nil
  · rw [hf]
    rfl
  · intro φ _
    show s ++ unmaskC φ [] = s
    simp [unmaskC]
  · intro pr hpr
    cases hpr
  · intro pr hpr
    cases hpr
  · exact List.chain'_singleton _
  · intro t ht
    rcases List.mem_singleton.mp ht with h
    rw [Chunk.txt.injEq] at h
    rw [h]
    exact isSubOf_refl s

theorem maskText (M : List Char → Option (List Char))
    (hne : ∀ t m, M t = some m → m ≠ [])
    (hpre : ∀ t m, M t = some m → ∃ r, m ++ r = t) : ∀ (N : Nat) (s : List Char),
    s.length ≤ N → ∀ (k : Nat) (mp : List (List Char × List Char)),
    ∃ (L : List Chunk) (new : List (List Char × List Char)),
      (finditer M s).foldr (fun pm st => maskStep st pm) (s, k, mp)
        = (flatChunks L, k + (finditer M s).length, mp ++ new)
      ∧ List.Perm (toksOf L) (List.range' k (finditer M s).length)
      ∧ new.map Prod.fst = (List.range' k (finditer M s).length).map mkToken
      ∧ (∀ φ : Nat → List Char, (∀ n ph, (mkToken n, ph) ∈ new → φ n = ph) →
          unmaskC φ L = s)
      ∧ (∀ pr ∈ new, ∃ t, M t = some pr.2)
      ∧ (∀ pr ∈ new, isSubOf pr.2 s)
      ∧ SepC L
      ∧ (∀ t, Chunk.txt t ∈ L → isSubOf t s) := by
  intro N
  induction N with
  | zero =>
    intro s hs k mp
    have hs0 : s = [] := List.length_eq_zero.mp (by omega)
    subst hs0
    exact maskText_nomatch M [] k mp rfl
  | succ N ih =>
    intro s hs k mp
    cases hf : finditer M s with
    | nil =>
      obtain ⟨L, new, h1, h2, h3, h4, h5, h6, h7, h8⟩ := maskText_nomatch M s k mp hf
      rw [hf] at h1 h2 h3
      exact ⟨L, new, h1, h2, h3, h4, h5, h6, h7, h8⟩
    | cons pm0 ms2 =>
      obtain ⟨p, m⟩ := pm0
      obtain ⟨a, b, hab, hal, hMt, hms2⟩ :=
        finditer_cons_structure M hne hpre (N + 1) s hs p m ms2 hf
      have hm1 : 1 ≤ m.length := by
        obtain ⟨t, hMt'⟩ := hMt
        have := hne t m hMt'
        cases m with
        | nil => exact absurd rfl this
        | cons x xs => simp
      have hblen : b.length ≤ N := by
        rw [hab] at hs
        simp only [List.length_append] at hs
        omega
      obtain ⟨Lb, newb, heq, hperm, hfst, hunm, hshape, hsub, hsep, htxt⟩ :=
        ih b hblen k mp
      have hbsub : isSubOf b s := ⟨a ++ m, [], by rw [hab]; simp⟩
      have hlen_am : (a ++ m).length = p + m.length := by
        rw [List.length_append, hal]
      have hbound : ∀ q ∈ shiftMs (p + m.length) (finditer M b), (a ++ m).length ≤ q.1 := by
        intro q hq
        unfold shiftMs at hq
        obtain ⟨q0, _, hq0e⟩ := List.mem_map.mp hq
        rw [← hq0e, hlen_am]
        omega
      have hr : ((p, m) :: ms2).length = (finditer M b).length + 1 := by
        rw [List.length_cons, hms2, shiftMs_length]
      refine ⟨Chunk.txt a :: Chunk.tok (k + (finditer M b).length) :: Lb,
        newb ++ [(mkToken (k + (finditer M b).length), m)], ?_, ?_, ?_, ?_, ?_, ?_, ?_, ?_⟩
      · rw [List.foldr_cons, hms2, hab,
          maskFoldr_shift (shiftMs (p + m.length) (finditer M b)) (a ++ m) b k mp hbound,
          hlen_am, shiftMs_unshift, heq]
        have hsx : subst ((a ++ m) ++ flatChunks Lb) p m.length
            (mkToken (k + (finditer M b).length))
            = a ++ (mkToken (k + (finditer M b).length) ++ flatChunks Lb) := by
          rw [← hal, subst_exact a m (flatChunks Lb) _, List.append_assoc]
        have hr2 : ((p, m) :: shiftMs (p + m.length) (finditer M b)).length
            = (finditer M b).length + 1 := by
          rw [List.length_cons, shiftMs_length]
        show (subst ((a ++ m) ++ flatChunks Lb) p m.length
            (mkToken (k + (finditer M b).length)),
          k + (finditer M b).length + 1,
          (mp ++ newb) ++ [(mkToken (k + (finditer M b).length), m)]) = _
        rw [hsx, List.append_assoc mp newb]
        show _ = (a ++ (mkToken (k + (finditer M b).length) ++ flatChunks Lb),
          k + ((p, m) :: shiftMs (p + m.length) (finditer M b)).length,
          mp ++ (newb ++ [(mkToken (k + (finditer M b).length), m)]))
        rw [hr2, Nat.add_assoc]
      · rw [hr, rangeConcat k]
        refine List.Perm.trans ?_ (List.perm_append_singleton _ _).symm
        show List.Perm ((k + (finditer M b).length) :: toksOf Lb) _
        exact List.Perm.cons _ hperm
      · rw [hr, rangeConcat k, List.map_append, List.map_append, hfst]
        rfl
      · intro φ hresp
        have hphi : φ (k + (finditer M b).length) = m :=
          hresp _ _ (List.mem_append_right _ (List.mem_singleton.mpr rfl))
        have hub : unmaskC φ Lb = b :=
          hunm φ (fun n ph hm => hresp n ph (List.mem_append_left _ hm))
        show a ++ (φ (k + (finditer M b).length) ++ unmaskC φ Lb) = s
        rw [hphi, hub, hab, List.append_assoc]
      · intro pr hpr
        rcases List.mem_append.mp hpr with hpr | hpr
        · exact hshape pr hpr
        · rw [List.mem_singleton.mp hpr]
          exact hMt
      · intro pr hpr
        rcases List.mem_append.mp hpr with hpr | hpr
        · exact isSubOf_trans (hsub pr hpr) hbsub
        · rw [List.mem_singleton.mp hpr]
          exact ⟨a, b, hab.symm⟩
      · refine List.chain'_cons.mpr ⟨Or.inr rfl, ?_⟩
        exact List.chain'_cons'.mpr ⟨fun y _ => Or.inl rfl, hsep⟩
      · intro t ht
        rcases List.mem_cons.mp ht with ht | ht
        · rw [Chunk.txt.injEq] at ht
          rw [ht]
          exact ⟨[], m ++ b, by rw [hab]; simp⟩
        · rcases List.mem_cons.mp ht with ht | ht
          · cases ht
          · exact isSubOf_trans (htxt t ht) hbsub

/-! ## The bare-printf scan distributes over the chunk structure -/

theorem finditer_printf_append : ∀ (s0 v : List Char) (pos : Nat),
    (v = [] ∨ ∃ t, v = '_' :: t) →
    finditerAux matchPrintfAt (s0 ++ v) pos 0
      = finditerAux matchPrintfAt s0 pos 0
        ++ finditerAux matchPrintfAt v (pos + s0.length) 0
  | [], v, pos => by
    intro hv
    rw [List.nil_append, show finditerAux matchPrintfAt [] pos 0 = [] from rfl,
      List.nil_append, List.length_nil, Nat.add_zero]
  | [c], v, pos => by
    intro hv
    have hnone : matchPrintfAt (c :: v) = none := by
      rcases hv with hv | ⟨t, hv⟩
      · rw [hv]; exact matchPrintfAt_short [c] (by simp)
      · rw [hv]; exact matchPrintfAt_snd_underscore c t
    have h1 : finditerAux matchPrintfAt [c] pos 0 = [] := by
      rw [finditerAux_cons_none (matchPrintfAt_short [c] (by simp)) pos]
      rfl
    rw [List.cons_append, List.nil_append, finditerAux_cons_none hnone pos, h1,
      List.nil_append]
    rfl
  | c :: d :: rest, v, pos => by
    intro hv
    rw [List.cons_append, List.cons_append]
    cases hM : matchPrintfAt (c :: d :: (rest ++ v)) with
    | some m =>
      obtain ⟨cv, t2, ht, hcv, hm⟩ := matchPrintfAt_shape _ _ hM
      rw [List.cons.injEq, List.cons.injEq] at ht
      obtain ⟨hc, hd, _⟩ := ht
      subst hm
      subst hc
      subst hd
      have hM0 : matchPrintfAt ('%' :: d :: rest) = some ['%', d] := by
        rw [matchPrintfAt_cons2, if_pos rfl, if_pos hcv]
      rw [finditerAux_cons_some hM pos, finditerAux_cons_some hM0 pos]
      have e1 : finditerAux matchPrintfAt (d :: (rest ++ v)) (pos + 1)
          ((['%', d] : List Char).length - 1)
          = finditerAux matchPrintfAt (rest ++ v) (pos + 1 + 1) 0 := by
        show finditerAux matchPrintfAt (d :: (rest ++ v)) (pos + 1) (0 + 1) = _
        rw [finditerAux]
      have e2 : finditerAux matchPrintfAt (d :: rest) (pos + 1)
          ((['%', d] : List Char).length - 1)
          = finditerAux matchPrintfAt rest (pos + 1 + 1) 0 := by
        show finditerAux matchPrintfAt (d :: rest) (pos + 1) (0 + 1) = _
        rw [finditerAux]
      rw [e1, e2, finditer_printf_append rest v (pos + 1 + 1) hv, List.cons_append,
        show pos + ('%' :: d :: rest).length = pos + 1 + 1 + rest.length from by
          simp only [List.length_cons]
          omega]
    | none =>
      have hM0 : matchPrintfAt (c :: d :: rest) = none := by
        rw [matchPrintfAt_cons2] at hM ⊢
        exact hM
      rw [finditerAux_cons_none hM pos, finditerAux_cons_none hM0 pos,
        ← List.cons_append d rest v,
        finditer_printf_append (d :: rest) v (pos + 1) hv,
        show pos + (c :: d :: rest).length = pos + 1 + (d :: rest).length from by
          simp only [List.length_cons]
          omega]

theorem finditerAux_skip_nonpercent : ∀ (u v : List Char) (pos : Nat),
    (∀ c ∈ u, c ≠ '%') →
    finditerAux matchPrintfAt (u ++ v) pos 0
      = finditerAux matchPrintfAt v (pos + u.length) 0 := by
  intro u
  induction u with
  | nil =>
    intro v pos _
    rw [List.nil_append, List.length_nil, Nat.add_zero]
  | cons c u' ih =>
    intro v pos hu
    have hnone : matchPrintfAt (c :: (u' ++ v)) = none := by
      cases hMc : matchPrintfAt (c :: (u' ++ v)) with
      | none => rfl
      | some m =>
        obtain ⟨cv, t2, ht, _, _⟩ := matchPrintfAt_shape _ _ hMc
        rw [List.cons.injEq] at ht
        exact absurd ht.1 (hu c (List.mem_cons_self c u'))
    rw [List.cons_append, finditerAux_cons_none hnone pos,
      ih v (pos + 1) (fun x hx => hu x (List.mem_cons_of_mem c hx)),
      show pos + 1 + u'.length = pos + (c :: u').length from by
        simp only [List.length_cons]
        omega]

theorem flatChunks_tok_head (n : Nat) (L : List Chunk) :
    ∃ t, flatChunks (Chunk.tok n :: L) = '_' :: t := ⟨_, rfl⟩

theorem mkToken_no_percent (n : Nat) : ∀ c ∈ mkToken n, c ≠ '%' := by
  intro c hc
  rcases mkToken_chars n c hc with h | h | h | h
  · rw [h]; decide
  · rw [h]; decide
  · rw [h]; decide
  · intro he
    rw [he] at h
    cases h

theorem finditer_printf_bound (s : List Char) :
    ∀ pm ∈ finditer matchPrintfAt s, pm.1 + pm.2.length ≤ s.length := by
  intro pm hpm
  have hv := finditer_valid matchPrintfAt matchPrintfAt_ne s.length s (Nat.le_refl _) pm hpm
  obtain ⟨r, hr⟩ := matchPrintfAt_pre _ _ hv
  have hp : pm.1 ≤ s.length := by
    by_contra hc
    rw [List.drop_eq_nil_of_le (by omega)] at hv
    rw [show matchPrintfAt [] = none from rfl] at hv
    cases hv
  have hlen := congrArg List.length hr
  rw [List.length_append, List.length_drop] at hlen
  omega

/-- The chunk list starts with a token (or is empty). -/
def headTok : List Chunk → Prop
  | [] => True
  | Chunk.tok _ :: _ => True
  | Chunk.txt _ :: _ => False

theorem headTok_sepR (L : List Chunk) (h : headTok L) :
    ∀ (x : Chunk), ∀ y ∈ L.head?, sepR x y := by
  intro x y hy
  cases L with
  | nil => cases hy
  | cons c L' =>
    cases c with
    | txt s => exact False.elim h
    | tok n =>
      rw [List.head?_cons, Option.mem_def, Option.some.injEq] at hy
      rw [← hy]
      exact Or.inr rfl

theorem sepC_head_tok (s0 : List Char) (L1 : List Chunk)
    (h : SepC (Chunk.txt s0 :: L1)) : headTok L1 := by
  cases L1 with
  | nil => trivial
  | cons c L' =>
    cases c with
    | txt s =>
      rcases sepC_rel h with hr | hr <;> cases hr
    | tok n => trivial

/-- Processing the bare-printf family over an already chunked text refines
the chunk structure: new tokens are carved out of the literal chunks only,
with consecutive numbers, and unmasking commutes with the refinement. -/
theorem maskChunks : ∀ (L : List Chunk) (k : Nat) (mp : List (List Char × List Char)),
    SepC L →
    ∃ (L2 : List Chunk) (new : List (List Char × List Char)),
      (finditer matchPrintfAt (flatChunks L)).foldr (fun pm st => maskStep st pm)
          (flatChunks L, k, mp)
        = (flatChunks L2, k + (finditer matchPrintfAt (flatChunks L)).length, mp ++ new)
      ∧ List.Perm (toksOf L2)
          (toksOf L ++ List.range' k (finditer matchPrintfAt (flatChunks L)).length)
      ∧ new.map Prod.fst
          = (List.range' k (finditer matchPrintfAt (flatChunks L)).length).map mkToken
      ∧ (∀ φ : Nat → List Char, (∀ n ph, (mkToken n, ph) ∈ new → φ n = ph) →
          unmaskC φ L2 = unmaskC φ L)
      ∧ (∀ pr ∈ new, ∃ t, matchPrintfAt t = some pr.2)
      ∧ (∀ pr ∈ new, ∃ t0, Chunk.txt t0 ∈ L ∧ isSubOf pr.2 t0)
      ∧ SepC L2
      ∧ (∀ t2, Chunk.txt t2 ∈ L2 → ∃ t0, Chunk.txt t0 ∈ L ∧ isSubOf t2 t0)
      ∧ (headTok L → headTok L2) := by
  intro L
  induction L with
  | nil =>
    intro k mp _
    refine ⟨[], [], ?_, ?_, ?_, ?_, ?_, ?_, ?_, ?_, ?_⟩
    · show ([], k, mp) = ([], k + 0, mp ++ [])
      rw [List.append_nil]
      rfl
    · exact List.Perm.nil
    · rfl
    · intro φ _; rfl
    · intro pr hpr; cases hpr
    · intro pr hpr; cases hpr
    · exact List.chain'_nil
    · intro t2 ht2; cases ht2
    · intro h; trivial
  | cons c L1 ih =>
    cases c with
    | txt s0 =>
      intro k mp hsep
      have hsep1 : SepC L1 := sepC_tail hsep
      have hht1 : headTok L1 := sepC_head_tok s0 L1 hsep
      have hv : flatChunks L1 = [] ∨ ∃ t, flatChunks L1 = '_' :: t := by
        cases L1 with
        | nil => exact Or.inl rfl
        | cons c1 L1' =>
          cases c1 with
          | txt s' =>
            rcases sepC_rel hsep with hr | hr <;> cases hr
          | tok n1 => exact Or.inr (flatChunks_tok_head n1 L1')
      obtain ⟨L2', new2, heq2, hperm2, hfst2, hunm2, hshape2, hsub2, hsep2, htxt2, hhead2⟩ :=
        ih k mp hsep1
      have hFA : finditer matchPrintfAt (flatChunks (Chunk.txt s0 :: L1))
          = finditer matchPrintfAt s0
            ++ shiftMs s0.length (finditer matchPrintfAt (flatChunks L1)) := by
        show finditerAux matchPrintfAt (s0 ++ flatChunks L1) 0 0 = _
        rw [finditer_printf_append s0 (flatChunks L1) 0 hv, Nat.zero_add,
          finditerAux_shift matchPrintfAt (flatChunks L1) s0.length 0]
        rfl
      have hbound1 : ∀ q ∈ shiftMs s0.length (finditer matchPrintfAt (flatChunks L1)),
          s0.length ≤ q.1 := by
        intro q hq
        unfold shiftMs at hq
        obtain ⟨q0, _, hq0e⟩ := List.mem_map.mp hq
        rw [← hq0e]
        omega
      obtain ⟨L3, new3, heq3, hperm3, hfst3, hunm3, hshape3, hsub3, hsep3, htxt3⟩ :=
        maskText matchPrintfAt matchPrintfAt_ne matchPrintfAt_pre s0.length s0
          (Nat.le_refl _) (k + (finditer matchPrintfAt (flatChunks L1)).length)
          (mp ++ new2)
      refine ⟨L3 ++ L2', new2 ++ new3, ?_, ?_, ?_, ?_, ?_, ?_, ?_, ?_, ?_⟩
      · rw [hFA, show flatChunks (Chunk.txt s0 :: L1) = s0 ++ flatChunks L1 from rfl,
          List.foldr_append,
          maskFoldr_shift (shiftMs s0.length (finditer matchPrintfAt (flatChunks L1)))
            s0 (flatChunks L1) k mp hbound1,
          shiftMs_unshift, heq2]
        show (finditer matchPrintfAt s0).foldr (fun pm st => maskStep st pm)
            (s0 ++ flatChunks L2',
              k + (finditer matchPrintfAt (flatChunks L1)).length, mp ++ new2) = _
        rw [maskFoldr_append_right (finditer matchPrintfAt s0) s0 (flatChunks L2')
            (k + (finditer matchPrintfAt (flatChunks L1)).length) (mp ++ new2)
            (finditer_printf_bound s0)
            (finditerAux_nonoverlap matchPrintfAt matchPrintfAt_ne s0 0 0),
          heq3]
        show (flatChunks L3 ++ flatChunks L2',
            k + (finditer matchPrintfAt (flatChunks L1)).length
              + (finditer matchPrintfAt s0).length,
            (mp ++ new2) ++ new3) = _
        rw [← flatChunks_append, List.length_append, shiftMs_length, List.append_assoc,
          show k + (finditer matchPrintfAt (flatChunks L1)).length
              + (finditer matchPrintfAt s0).length
            = k + ((finditer matchPrintfAt s0).length
              + (finditer matchPrintfAt (flatChunks L1)).length) from by omega]
      · rw [hFA, List.length_append, shiftMs_length, toksOf_append]
        show List.Perm (toksOf L3 ++ toksOf L2')
          (toksOf L1 ++ List.range' k ((finditer matchPrintfAt s0).length
            + (finditer matchPrintfAt (flatChunks L1)).length))
        rw [show (finditer matchPrintfAt s0).length
            + (finditer matchPrintfAt (flatChunks L1)).length
            = (finditer matchPrintfAt (flatChunks L1)).length
              + (finditer matchPrintfAt s0).length from by omega,
          ← rangeAppend, ← List.append_assoc]
        exact List.Perm.trans (List.Perm.append hperm3 hperm2) List.perm_append_comm
      · rw [hFA, List.length_append, shiftMs_length, List.map_append, hfst2, hfst3,
          show (finditer matchPrintfAt s0).length
            + (finditer matchPrintfAt (flatChunks L1)).length
            = (finditer matchPrintfAt (flatChunks L1)).length
              + (finditer matchPrintfAt s0).length from by omega,
          ← rangeAppend, List.map_append]
      · intro φ hresp
        have hu3 : unmaskC φ L3 = s0 :=
          hunm3 φ (fun n ph hm => hresp n ph (List.mem_append_right _ hm))
        have hu2 : unmaskC φ L2' = unmaskC φ L1 :=
          hunm2 φ (fun n ph hm => hresp n ph (List.mem_append_left _ hm))
        rw [unmaskC_append, hu3, hu2]
        rfl
      · intro pr hpr
        rcases List.mem_append.mp hpr with h | h
        · exact hshape2 pr h
        · exact hshape3 pr h
      · intro pr hpr
        rcases List.mem_append.mp hpr with h | h
        · obtain ⟨t0, ht0, hs⟩ := hsub2 pr h
          exact ⟨t0, List.mem_cons_of_mem _ ht0, hs⟩
        · exact ⟨s0, List.mem_cons_self _ _, hsub3 pr h⟩
      · show List.Chain' sepR (L3 ++ L2')
        rw [List.chain'_append]
        exact ⟨hsep3, hsep2, fun x _ y hy => headTok_sepR L2' (hhead2 hht1) x y hy⟩
      · intro t2 ht2
        rcases List.mem_append.mp ht2 with h | h
        · exact ⟨s0, List.mem_cons_self _ _, htxt3 t2 h⟩
        · obtain ⟨t0, ht0, hs⟩ := htxt2 t2 h
          exact ⟨t0, List.mem_cons_of_mem _ ht0, hs⟩
      · intro h
        exact False.elim h
    | tok n =>
      intro k mp hsep
      have hsep1 : SepC L1 := sepC_tail hsep
      obtain ⟨L2', new2, heq2, hperm2, hfst2, hunm2, hshape2, hsub2, hsep2, htxt2, hhead2⟩ :=
        ih k mp hsep1
      have hFA : finditer matchPrintfAt (flatChunks (Chunk.tok n :: L1))
          = shiftMs (mkToken n).length (finditer matchPrintfAt (flatChunks L1)) := by
        show finditerAux matchPrintfAt (mkToken n ++ flatChunks L1) 0 0 = _
        rw [finditerAux_skip_nonpercent (mkToken n) (flatChunks L1) 0 (mkToken_no_percent n),
          Nat.zero_add, finditerAux_shift matchPrintfAt (flatChunks L1) (mkToken n).length 0]
        rfl
      have hbound1 : ∀ q ∈ shiftMs (mkToken n).length
          (finditer matchPrintfAt (flatChunks L1)), (mkToken n).length ≤ q.1 := by
        intro q hq
        unfold shiftMs at hq
        obtain ⟨q0, _, hq0e⟩ := List.mem_map.mp hq
        rw [← hq0e]
        omega
      refine ⟨Chunk.tok n :: L2', new2, ?_, ?_, ?_, ?_, ?_, ?_, ?_, ?_, ?_⟩
      · rw [hFA, show flatChunks (Chunk.tok n :: L1) = mkToken n ++ flatChunks L1 from rfl,
          maskFoldr_shift (shiftMs (mkToken n).length
              (finditer matchPrintfAt (flatChunks L1)))
            (mkToken n) (flatChunks L1) k mp hbound1,
          shiftMs_unshift, heq2, shiftMs_length]
        rfl
      · rw [hFA, shiftMs_length]
        exact List.Perm.cons n hperm2
      · rw [hFA, shiftMs_length]
        exact hfst2
      · intro φ hresp
        show φ n ++ unmaskC φ L2' = φ n ++ unmaskC φ L1
        rw [hunm2 φ hresp]
      · exact hshape2
      · intro pr hpr
        obtain ⟨t0, ht0, hs⟩ := hsub2 pr hpr
        exact ⟨t0, List.mem_cons_of_mem _ ht0, hs⟩
      · exact List.chain'_cons'.mpr ⟨fun y _ => Or.inl rfl, hsep2⟩
      · intro t2 ht2
        rcases List.mem_cons.mp ht2 with h | h
        · cases h
        · obtain ⟨t0, ht0, hs⟩ := htxt2 t2 h
          exact ⟨t0, List.mem_cons_of_mem _ ht0, hs⟩
      · intro _
        trivial

/-! ## The named-printf family never fires on a masked text -/

theorem flat_no_percent_paren : ∀ (L : List Chunk), SepC L →
    (∀ t, Chunk.txt t ∈ L → hasSub ['%', '('] t = false) →
    ∀ a b, flatChunks L ≠ a ++ '%' :: '(' :: b := by
  intro L
  induction L with
  | nil =>
    intro _ _ a b h
    cases a <;> simp [flatChunks] at h
  | cons c L1 ih =>
    intro hsep htxt a b h
    cases c with
    | txt s =>
      have h' : s ++ flatChunks L1 = a ++ '%' :: '(' :: b := h
      rcases split3 s (flatChunks L1) a b '%' '(' h' with ⟨b2, h1, h2⟩ | ⟨h1, h2⟩ | ⟨a2, h1, h2⟩
      · have hns := htxt s (List.mem_cons_self _ _)
        rw [hasSub_of_eq_append ['%', '('] a b2 s (by rw [h1]; simp)] at hns
        cases hns
      · cases L1 with
        | nil => cases h2
        | cons c1 L1' =>
          cases c1 with
          | txt s' =>
            rcases sepC_rel hsep with hr | hr <;> cases hr
          | tok n =>
            obtain ⟨t, ht⟩ := flatChunks_tok_head n L1'
            rw [ht] at h2
            simp at h2
      · exact ih (sepC_tail hsep) (fun t ht => htxt t (List.mem_cons_of_mem _ ht)) a2 b h2
    | tok n =>
      have h' : mkToken n ++ flatChunks L1 = a ++ '%' :: '(' :: b := h
      rcases split3 (mkToken n) (flatChunks L1) a b '%' '(' h'
        with ⟨b2, h1, h2⟩ | ⟨h1, h2⟩ | ⟨a2, h1, h2⟩
      · have hmem : '%' ∈ mkToken n := by
          rw [h1]
          exact List.mem_append_right _ (List.mem_cons_self _ _)
        exact absurd rfl (mkToken_no_percent n '%' hmem)
      · have hgl := mkToken_getLast? n
        rw [h1, List.getLast?_concat] at hgl
        simp at hgl
      · exact ih (sepC_tail hsep) (fun t ht => htxt t (List.mem_cons_of_mem _ ht)) a2 b h2

theorem finditer_named_empty (L : List Chunk) (hsep : SepC L)
    (htxt : ∀ t, Chunk.txt t ∈ L → hasSub ['%', '('] t = false) :
    finditer matchNamedAt (flatChunks L) = [] := by
  apply finditerAux_all_fail
  rintro u ⟨w, hw⟩
  cases hMu : matchNamedAt u with
  | none => rfl
  | some m =>
    obtain ⟨t2, ht2⟩ := matchNamedAt_head u m hMu
    exact absurd (by rw [← hw, ht2]) (flat_no_percent_paren L hsep htxt w t2)

/-! ## The chunk structure of an extracted text -/

theorem applyPattern_foldr (M : List Char → Option (List Char))
    (st : List Char × Nat × List (List Char × List Char)) :
    applyPattern M st = (finditer M st.1).foldr (fun pm s => maskStep s pm) st := by
  unfold applyPattern
  rw [List.foldl_reverse]

theorem extract_structure (text : List Char)
    (hPO : hasSub ['%', '('] text = false) :
    ∃ (L : List Chunk) (new : List (List Char × List Char)),
      extractChars text = (flatChunks L, new)
      ∧ List.Perm (toksOf L) (List.range new.length)
      ∧ new.map Prod.fst = (List.range new.length).map mkToken
      ∧ (∀ φ : Nat → List Char, (∀ n ph, (mkToken n, ph) ∈ new → φ n = ph) →
          unmaskC φ L = text)
      ∧ (∀ pr ∈ new,
          (∃ t, matchBraceAt t = some pr.2) ∨ (∃ t, matchPrintfAt t = some pr.2))
      ∧ (∀ pr ∈ new, isSubOf pr.2 text)
      ∧ SepC L
      ∧ (∀ t, Chunk.txt t ∈ L → isSubOf t text) := by
  obtain ⟨L1, new1, heq1, hperm1, hfst1, hunm1, hshape1, hsub1, hsep1, htxt1⟩ :=
    maskText matchBraceAt matchBraceAt_ne matchBraceAt_pre text.length text
      (Nat.le_refl _) 0 []
  rw [Nat.zero_add, List.nil_append] at heq1
  have happ1 : applyPattern matchBraceAt (text, 0, [])
      = (flatChunks L1, (finditer matchBraceAt text).length, new1) := by
    rw [applyPattern_foldr]
    exact heq1
  have htxtPO : ∀ t, Chunk.txt t ∈ L1 → hasSub ['%', '('] t = false :=
    fun t ht => hasSub_isSubOf _ t text (htxt1 t ht) hPO
  have hnm : finditer matchNamedAt (flatChunks L1) = [] :=
    finditer_named_empty L1 hsep1 htxtPO
  have happ2 : applyPattern matchNamedAt
      (flatChunks L1, (finditer matchBraceAt text).length, new1)
      = (flatChunks L1, (finditer matchBraceAt text).length, new1) := by
    rw [applyPattern_foldr]
    show (finditer matchNamedAt (flatChunks L1)).foldr _ _ = _
    rw [hnm]
    rfl
  obtain ⟨L3, new3, heq3, hperm3, hfst3, hunm3, hshape3, hsub3, hsep3, htxt3, _⟩ :=
    maskChunks L1 (finditer matchBraceAt text).length new1 hsep1
  have happ3 : applyPattern matchPrintfAt
      (flatChunks L1, (finditer matchBraceAt text).length, new1)
      = (flatChunks L3, (finditer matchBraceAt text).length
          + (finditer matchPrintfAt (flatChunks L1)).length, new1 ++ new3) := by
    rw [applyPattern_foldr]
    exact heq3
  have hex : extractChars text = (flatChunks L3, new1 ++ new3) := by
    simp only [extractChars]
    rw [happ1, happ2, happ3]
  have hlen1 : new1.length = (finditer matchBraceAt text).length := by
    have h := congrArg List.length hfst1
    rwa [List.length_map, List.length_map, List.length_range'] at h
  have hlen3 : new3.length = (finditer matchPrintfAt (flatChunks L1)).length := by
    have h := congrArg List.length hfst3
    rwa [List.length_map, List.length_map, List.length_range'] at h
  have hK : (new1 ++ new3).length
      = (finditer matchBraceAt text).length
        + (finditer matchPrintfAt (flatChunks L1)).length := by
    rw [List.length_append, hlen1, hlen3]
  refine ⟨L3, new1 ++ new3, hex, ?_, ?_, ?_, ?_, ?_, hsep3, ?_⟩
  · rw [hK, List.range_eq_range', ← rangeAppend, Nat.zero_add]
    exact List.Perm.trans hperm3 (List.Perm.append_right _ hperm1)
  · rw [hK, List.range_eq_range', ← rangeAppend, Nat.zero_add, List.map_append,
      List.map_append, hfst1, hfst3]
  · intro φ hresp
    have hu3 : unmaskC φ L3 = unmaskC φ L1 :=
      hunm3 φ (fun n ph hm => hresp n ph (List.mem_append_right _ hm))
    have hu1 : unmaskC φ L1 = text :=
      hunm1 φ (fun n ph hm => hresp n ph (List.mem_append_left _ hm))
    rw [hu3, hu1]
  · intro pr hpr
    rcases List.mem_append.mp hpr with h | h
    · exact Or.inl (hshape1 pr h)
    · exact Or.inr (hshape3 pr h)
  · intro pr hpr
    rcases List.mem_append.mp hpr with h | h
    · exact hsub1 pr h
    · obtain ⟨t0, ht0, hs⟩ := hsub3 pr h
      exact isSubOf_trans hs (htxt1 t0 ht0)
  · intro t ht
    obtain ⟨t0, ht0, hs⟩ := htxt3 t ht
    exact isSubOf_trans hs (htxt1 t0 ht0)

/-! ## Restoration: tokens in a masked text occur exactly at their chunks -/

/-- Shape constraints every recorded placeholder satisfies. -/
def phOK (p : List Char) : Prop :=
  p ≠ [] ∧ hasSub ['P', 'H'] p = false ∧ p.head? ≠ some 'H' ∧ p.getLast? ≠ some 'P'

/-- Invariant of a masked chunk list with placeholder assignment φ. -/
def GoodL (φ : Nat → List Char) (L : List Chunk) : Prop :=
  SepC L ∧ (∀ t, Chunk.txt t ∈ L → hasSub ['P', 'H'] t = false)
    ∧ (∀ n, n ∈ toksOf L → phOK (φ n))

theorem toksOf_tail_mem (c : Chunk) (L : List Chunk) (n : Nat) (h : n ∈ toksOf L) :
    n ∈ toksOf (c :: L) := by
  cases c with
  | txt s => exact h
  | tok m => exact List.mem_cons_of_mem m h

theorem goodL_tail {φ : Nat → List Char} {c : Chunk} {L : List Chunk}
    (h : GoodL φ (c :: L)) : GoodL φ L :=
  ⟨sepC_tail h.1, fun t ht => h.2.1 t (List.mem_cons_of_mem _ ht),
    fun n hn => h.2.2 n (toksOf_tail_mem c L n hn)⟩

theorem not_P_mem_tokTail (n : Nat) :
    'P' ∉ ('H' :: ((Nat.repr n).data ++ ['_', '_'])) := by
  intro hmem
  rcases List.mem_cons.mp hmem with h | h
  · exact absurd h (by decide)
  · rcases List.mem_append.mp h with h | h
    · exact absurd (repr_data_digits n 'P' h) (by decide)
    · rcases List.mem_cons.mp h with h | h
      · exact absurd h (by decide)
      · exact absurd (List.mem_singleton.mp h) (by decide)

/-- Every occurrence of the two characters PH in a partially restored text
lies at the fixed offset inside a still-masked token chunk. -/
theorem occ_PH (φ : Nat → List Char) (j : Nat) : ∀ (L : List Chunk), GoodL φ L →
    ∀ (a b : List Char), restoreC φ j L = a ++ 'P' :: 'H' :: b →
    ∃ L1 n L2, L = L1 ++ Chunk.tok n :: L2 ∧ j ≤ n
      ∧ a = restoreC φ j L1 ++ ['_', '_']
      ∧ b = (Nat.repr n).data ++ ['_', '_'] ++ restoreC φ j L2 := by
  intro L
  induction L with
  | nil =>
    intro _ a b h
    rw [show restoreC φ j [] = [] from rfl] at h
    cases a <;> simp at h
  | cons c L1 ih =>
    intro hGood a b h
    cases c with
    | txt s =>
      have h' : s ++ restoreC φ j L1 = a ++ 'P' :: 'H' :: b := h
      rcases split3 s (restoreC φ j L1) a b 'P' 'H' h'
        with ⟨b2, h1, h2⟩ | ⟨h1, h2⟩ | ⟨a2, h1, h2⟩
      · have hns := hGood.2.1 s (List.mem_cons_self _ _)
        rw [hasSub_of_eq_append ['P', 'H'] a b2 s (by rw [h1]; simp)] at hns
        cases hns
      · exfalso
        cases L1 with
        | nil =>
          rw [show restoreC φ j [] = [] from rfl] at h2
          cases h2
        | cons c1 L1' =>
          cases c1 with
          | txt s' =>
            rcases sepC_rel hGood.1 with hr | hr <;> cases hr
          | tok m =>
            have hph := hGood.2.2 m
              (show m ∈ toksOf (Chunk.tok m :: L1') from List.mem_cons_self _ _)
            have h2' : (if m < j then φ m else mkToken m) ++ restoreC φ j L1'
                = 'H' :: b := h2
            by_cases hmj : m < j
            · rw [if_pos hmj] at h2'
              obtain ⟨hne, _, hhd, _⟩ := hph
              cases hphm : φ m with
              | nil => exact absurd hphm hne
              | cons x xs =>
                rw [hphm, List.cons_append, List.cons.injEq] at h2'
                rw [hphm, List.head?_cons] at hhd
                rw [h2'.1] at hhd
                exact absurd rfl hhd
            · rw [if_neg hmj,
                show mkToken m
                  = '_' :: ('_' :: 'P' :: 'H' :: ((Nat.repr m).data ++ ['_', '_'])) from rfl,
                List.cons_append, List.cons.injEq] at h2'
              exact absurd h2'.1 (by decide)
      · obtain ⟨L1', n, L2', hL, hjn, ha2, hb⟩ := ih (goodL_tail hGood) a2 b h2
        refine ⟨Chunk.txt s :: L1', n, L2', by rw [hL]; rfl, hjn, ?_, hb⟩
        rw [h1, ha2,
          show restoreC φ j (Chunk.txt s :: L1') = s ++ restoreC φ j L1' from rfl,
          List.append_assoc]
    | tok n =>
      have hphn := hGood.2.2 n
        (show n ∈ toksOf (Chunk.tok n :: L1) from List.mem_cons_self _ _)
      by_cases hnj : n < j
      · have h' : φ n ++ restoreC φ j L1 = a ++ 'P' :: 'H' :: b := by
          have h'' : (if n < j then φ n else mkToken n) ++ restoreC φ j L1
              = a ++ 'P' :: 'H' :: b := h
          rwa [if_pos hnj] at h''
        rcases split3 (φ n) (restoreC φ j L1) a b 'P' 'H' h'
          with ⟨b2, h1, h2⟩ | ⟨h1, h2⟩ | ⟨a2, h1, h2⟩
        · have hns := hphn.2.1
          rw [hasSub_of_eq_append ['P', 'H'] a b2 (φ n) (by rw [h1]; simp)] at hns
          cases hns
        · have hgl := hphn.2.2.2
          rw [h1, List.getLast?_concat] at hgl
          exact absurd rfl hgl
        · obtain ⟨L1', n', L2', hL, hjn, ha2, hb⟩ := ih (goodL_tail hGood) a2 b h2
          refine ⟨Chunk.tok n :: L1', n', L2', by rw [hL]; rfl, hjn, ?_, hb⟩
          rw [h1, ha2,
            show restoreC φ j (Chunk.tok n :: L1')
              = (if n < j then φ n else mkToken n) ++ restoreC φ j L1' from rfl,
            if_pos hnj, List.append_assoc]
      · have h' : mkToken n ++ restoreC φ j L1 = a ++ 'P' :: 'H' :: b := by
          have h'' : (if n < j then φ n else mkToken n) ++ restoreC φ j L1
              = a ++ 'P' :: 'H' :: b := h
          rwa [if_neg hnj] at h''
        rcases split3 (mkToken n) (restoreC φ j L1) a b 'P' 'H' h'
          with ⟨b2, h1, h2⟩ | ⟨h1, h2⟩ | ⟨a2, h1, h2⟩
        · obtain ⟨ha, hb2⟩ := unique_split ['_', '_']
            ('H' :: ((Nat.repr n).data ++ ['_', '_'])) a ('H' :: b2) 'P'
            (by decide) (not_P_mem_tokTail n) (by rw [← h1]; rfl)
          rw [List.cons.injEq] at hb2
          refine ⟨[], n, L1, rfl, by omega, ?_, ?_⟩
          · rw [ha]
            rfl
          · rw [h2, hb2.2, List.append_assoc]
        · have hgl := mkToken_getLast? n
          rw [h1, List.getLast?_concat] at hgl
          exact absurd (Option.some.inj hgl) (by decide)
        · obtain ⟨L1', n', L2', hL, hjn, ha2, hb⟩ := ih (goodL_tail hGood) a2 b h2
          refine ⟨Chunk.tok n :: L1', n', L2', by rw [hL]; rfl, hjn, ?_, hb⟩
          rw [h1, ha2,
            show restoreC φ j (Chunk.tok n :: L1')
              = (if n < j then φ n else mkToken n) ++ restoreC φ j L1' from rfl,
            if_neg hnj, List.append_assoc]

/-- Every occurrence of a still-masked token as a substring of a partially
restored text is exactly a token chunk. -/
theorem tok_occ (φ : Nat → List Char) (j : Nat) (L : List Chunk) (hGood : GoodL φ L)
    (i : Nat) (a b : List Char)
    (h : restoreC φ j L = a ++ mkToken i ++ b) :
    ∃ L1 L2, L = L1 ++ Chunk.tok i :: L2 ∧ a = restoreC φ j L1 ∧ b = restoreC φ j L2 := by
  have h' : restoreC φ j L = (a ++ ['_', '_']) ++ 'P' :: 'H'
      :: ((Nat.repr i).data ++ ['_', '_'] ++ b) := by
    rw [h, show mkToken i
      = ['_', '_'] ++ 'P' :: 'H' :: ((Nat.repr i).data ++ ['_', '_']) from rfl]
    simp [List.append_assoc]
  obtain ⟨L1, n, L2, hL, hjn, ha, hb⟩ := occ_PH φ j L hGood _ _ h'
  have ha' : a = restoreC φ j L1 := (List.append_inj' ha rfl).1
  have hb' : (Nat.repr i).data ++ '_' :: ('_' :: b)
      = (Nat.repr n).data ++ '_' :: ('_' :: restoreC φ j L2) := by
    have hbx := hb
    simp only [List.append_assoc, List.cons_append, List.nil_append] at hbx ⊢
    exact hbx
  obtain ⟨hd, hr⟩ := digit_run_split _ _ _ _ (repr_data_digits i) (repr_data_digits n) hb'
  have hin : i = n := repr_injective i n (String.ext hd)
  subst hin
  rw [List.cons.injEq] at hr
  exact ⟨L1, L2, hL, ha', hr.2⟩

/-! ## The behaviour of str.replace on the masked text -/

theorem replaceNEAux_consume (old new : List Char) : ∀ (w t : List Char),
    replaceNEAux old new (w ++ t) w.length = replaceNEAux old new t 0 := by
  intro w
  induction w with
  | nil => intro t; rfl
  | cons c w' ih =>
    intro t
    show replaceNEAux old new (c :: (w' ++ t)) (w'.length + 1) = _
    rw [replaceNEAux]
    exact ih t

theorem replaceNEAux_no_occ (old new : List Char) : ∀ (v : List Char),
    (∀ a b, v ≠ a ++ old ++ b) → replaceNEAux old new v 0 = v := by
  intro v
  induction v with
  | nil => intro _; rfl
  | cons c rest ih =>
    intro hno
    have hpre : old.isPrefixOf (c :: rest) = false := by
      by_contra hc
      rw [Bool.not_eq_false] at hc
      obtain ⟨r, hr⟩ := (isPrefixOf_eq_true_iff _ _).mp hc
      exact hno [] r (by rw [← hr]; simp)
    rw [replaceNEAux]
    simp only [hpre, Bool.false_eq_true, if_false]
    rw [ih (fun a b hab => hno (c :: a) b (by rw [hab]; rfl))]

theorem replaceNEAux_unique_occ (old new : List Char) (hold : old ≠ []) :
    ∀ (u v : List Char),
    (∀ a b, u ++ old ++ v = a ++ old ++ b → a = u) →
    replaceNEAux old new (u ++ old ++ v) 0 = u ++ new ++ replaceNEAux old new v 0 := by
  intro u
  induction u with
  | nil =>
    intro v huniq
    show replaceNEAux old new (([] ++ old) ++ v) 0 = _
    rw [List.nil_append]
    cases old with
    | nil => exact absurd rfl hold
    | cons o ot =>
      rw [show (o :: ot) ++ v = o :: (ot ++ v) from rfl, replaceNEAux]
      have hpre : (o :: ot).isPrefixOf (o :: (ot ++ v)) = true := by
        apply (isPrefixOf_eq_true_iff _ _).mpr
        exact ⟨v, by simp⟩
      rw [if_pos hpre, show (o :: ot).length - 1 = ot.length from by simp,
        replaceNEAux_consume (o :: ot) new ot v]
      rfl
  | cons c u' ih =>
    intro v huniq
    show replaceNEAux old new (c :: (u' ++ old ++ v)) 0 = _
    have hpre : old.isPrefixOf (c :: (u' ++ old ++ v)) = false := by
      by_contra hc
      rw [Bool.not_eq_false] at hc
      obtain ⟨r, hr⟩ := (isPrefixOf_eq_true_iff _ _).mp hc
      have hz := huniq [] r (by
        show (c :: u') ++ old ++ v = [] ++ old ++ r
        rw [List.nil_append]
        exact hr.symm)
      simp at hz
    rw [replaceNEAux]
    simp only [hpre, Bool.false_eq_true, if_false]
    rw [ih v (fun a b hab => by
      have h2 := huniq (c :: a) b (by
        show (c :: u') ++ old ++ v = (c :: a) ++ old ++ b
        rw [show (c :: u') ++ old ++ v = c :: (u' ++ old ++ v) from rfl, hab]
        rfl)
      rw [List.cons.injEq] at h2
      exact h2.2)]
    rfl

theorem replaceAll_ne (s old new : List Char) (h : old ≠ []) :
    replaceAll s old new = replaceNEAux old new s 0 := by
  cases old with
  | nil => exact absurd rfl h
  | cons o ot => rfl

theorem mkToken_length_pos (n : Nat) : 1 ≤ (mkToken n).length := by
  cases hmt : mkToken n with
  | nil => exact absurd hmt (mkToken_ne_nil n)
  | cons x xs => simp

/-- One restoration step: replacing token j by its placeholder advances the
partially restored text by one token. -/
theorem restore_step (φ : Nat → List Char) (K j : Nat) (L : List Chunk)
    (hGood : GoodL φ L) (hperm : List.Perm (toksOf L) (List.range K)) (hj : j < K) :
    replaceAll (restoreC φ j L) (mkToken j) (φ j) = restoreC φ (j + 1) L := by
  have hjmem : j ∈ toksOf L := hperm.mem_iff.mpr (List.mem_range.mpr hj)
  have hjL : Chunk.tok j ∈ L := (mem_toksOf L j).mp hjmem
  obtain ⟨L1, L2, hL⟩ := List.append_of_mem hjL
  subst hL
  have hnd : (toksOf (L1 ++ Chunk.tok j :: L2)).Nodup :=
    hperm.nodup_iff.mpr (List.nodup_range K)
  rw [toksOf_append] at hnd
  have hnd' : (toksOf L1 ++ j :: toksOf L2).Nodup := hnd
  have hj1 : Chunk.tok j ∉ L1 := by
    intro hc
    have hm1 : j ∈ toksOf L1 := (mem_toksOf L1 j).mpr hc
    have hdisj := (List.nodup_append.mp hnd').2.2
    exact hdisj hm1 (List.mem_cons_self j (toksOf L2))
  have hj2 : Chunk.tok j ∉ L2 := by
    intro hc
    have hm2 : j ∈ toksOf L2 := (mem_toksOf L2 j).mpr hc
    have hnd2 := (List.nodup_append.mp hnd').2.1
    exact (List.nodup_cons.mp hnd2).1 hm2
  have hsplit : restoreC φ j (L1 ++ Chunk.tok j :: L2)
      = restoreC φ j L1 ++ mkToken j ++ restoreC φ j L2 := by
    rw [restoreC_append,
      show restoreC φ j (Chunk.tok j :: L2) = mkToken j ++ restoreC φ j L2 from by
        rw [restoreC, if_neg (by omega)],
      List.append_assoc]
  have huniq : ∀ a b, restoreC φ j L1 ++ mkToken j ++ restoreC φ j L2
      = a ++ mkToken j ++ b → a = restoreC φ j L1 := by
    intro a b hab
    obtain ⟨L1', L2', hL', ha', _⟩ := tok_occ φ j (L1 ++ Chunk.tok j :: L2) hGood j a b
      (by rw [hsplit, hab])
    obtain ⟨hL1, _⟩ := unique_split L1 L2 L1' L2' (Chunk.tok j) hj1 hj2 hL'
    rw [ha', hL1]
  have hnoV : ∀ a b, restoreC φ j L2 ≠ a ++ mkToken j ++ b := by
    intro a b hab
    have hu := huniq (restoreC φ j L1 ++ mkToken j ++ a) b (by
      rw [hab]
      simp [List.append_assoc])
    have hlen := congrArg List.length hu
    simp only [List.length_append] at hlen
    have := mkToken_length_pos j
    omega
  rw [hsplit, replaceAll_ne _ _ _ (mkToken_ne_nil j),
    replaceNEAux_unique_occ (mkToken j) (φ j) (mkToken_ne_nil j)
      (restoreC φ j L1) (restoreC φ j L2) huniq,
    replaceNEAux_no_occ (mkToken j) (φ j) (restoreC φ j L2) hnoV,
    restoreC_append,
    show restoreC φ (j + 1) (Chunk.tok j :: L2) = φ j ++ restoreC φ (j + 1) L2 from by
      rw [restoreC, if_pos (by omega)],
    restoreC_stable φ j L1 hj1, restoreC_stable φ j L2 hj2, List.append_assoc]

/-- Folding the replacement over tokens j..j+n-1 in mapping order. -/
theorem restore_fold (φ : Nat → List Char) (K : Nat) (L : List Chunk)
    (hGood : GoodL φ L) (hperm : List.Perm (toksOf L) (List.range K)) :
    ∀ (n j : Nat), j + n ≤ K →
    (List.range' j n).foldl (fun t i => replaceAll t (mkToken i) (φ i)) (restoreC φ j L)
      = restoreC φ (j + n) L := by
  intro n
  induction n with
  | zero => intro j _; rfl
  | succ n ih =>
    intro j hjn
    rw [List.range'_succ, List.foldl_cons,
      restore_step φ K j L hGood hperm (by omega), ih (j + 1) (by omega),
      show j + 1 + n = j + (n + 1) from by omega]

/-! ## Reading the placeholder assignment off the mapping -/

theorem mapping_phi : ∀ (l : List (List Char × List Char)) (s n : Nat),
    l.map Prod.fst = (List.range' s n).map mkToken →
    ∃ φ : Nat → List Char, l = (List.range' s n).map (fun i => (mkToken i, φ i)) := by
  intro l
  induction l with
  | nil =>
    intro s n h
    cases n with
    | zero => exact ⟨fun _ => [], rfl⟩
    | succ n' =>
      rw [List.range'_succ] at h
      simp at h
  | cons p l' ih =>
    intro s n h
    cases n with
    | zero => simp at h
    | succ n' =>
      rw [List.range'_succ, List.map_cons, List.map_cons, List.cons.injEq] at h
      obtain ⟨hp, hl'⟩ := h
      obtain ⟨φ', hφ'⟩ := ih (s + 1) n' hl'
      refine ⟨fun i => if i = s then p.2 else φ' i, ?_⟩
      rw [List.range'_succ, List.map_cons]
      congr 1
      · show p = (mkToken s, if s = s then p.2 else φ' s)
        rw [if_pos rfl, ← hp]
      · rw [hφ']
        apply List.map_congr_left
        intro i hi
        have his : s + 1 ≤ i := mem_range'_lower n' (s + 1) i hi
        show (mkToken i, φ' i) = (mkToken i, if i = s then p.2 else φ' i)
        rw [if_neg (by omega)]

theorem mapping_phi_respects (φ : Nat → List Char) (K : Nat) :
    ∀ n ph, (mkToken n, ph) ∈ (List.range K).map (fun i => (mkToken i, φ i)) →
    φ n = ph := by
  intro n ph h
  obtain ⟨i, _, he⟩ := List.mem_map.mp h
  rw [Prod.mk.injEq] at he
  have hn : i = n := mkToken_inj i n he.1
  subst hn
  exact he.2

theorem phOK_of_brace (p : List Char) (hb : ∃ t, matchBraceAt t = some p)
    (hnPH : hasSub ['P', 'H'] p = false) : phOK p := by
  obtain ⟨t, ht⟩ := hb
  obtain ⟨c, mid, t2, _, hm, _⟩ := matchBraceAt_shape t p ht
  refine ⟨by rw [hm]; simp, hnPH, ?_, ?_⟩
  · rw [hm, List.head?_cons]
    intro hc
    rw [Option.some.injEq] at hc
    exact absurd hc (by decide)
  · rw [hm, show '{' :: c :: (mid ++ ['}']) = ('{' :: c :: mid) ++ ['}'] from by simp,
      List.getLast?_concat]
    intro hc
    rw [Option.some.injEq] at hc
    exact absurd hc (by decide)

theorem phOK_of_printf (p : List Char) (hb : ∃ t, matchPrintfAt t = some p)
    (hnPH : hasSub ['P', 'H'] p = false) : phOK p := by
  obtain ⟨t, ht⟩ := hb
  obtain ⟨cv, t2, _, hcv, hm⟩ := matchPrintfAt_shape t p ht
  refine ⟨by rw [hm]; simp, hnPH, ?_, ?_⟩
  · rw [hm, List.head?_cons]
    intro hc
    rw [Option.some.injEq] at hc
    exact absurd hc (by decide)
  · rw [hm, show (['%', cv] : List Char) = ['%'] ++ [cv] from rfl, List.getLast?_concat]
    intro hc
    rw [Option.some.injEq] at hc
    exact absurd hc (isConv_ne_P cv hcv)

/-- Character-level round trip: on a text containing neither PH nor %( as a
substring, restoring the extraction's own mapping over the masked text
reproduces the text. -/
theorem extract_restore_chars (text : List Char)
    (hPH : hasSub ['P', 'H'] text = false)
    (hPO : hasSub ['%', '('] text = false) :
    (extractChars text).2.foldl
      (fun t p => replaceAll t p.1 p.2) (extractChars text).1 = text := by
  obtain ⟨L, new, hex, hperm, hfst, hunm, hshape, hsub, hsep, htxt⟩ :=
    extract_structure text hPO
  obtain ⟨φ, hφ⟩ := mapping_phi new 0 new.length (by
    rw [hfst, List.range_eq_range'])
  rw [← List.range_eq_range'] at hφ
  have hresp : ∀ n ph, (mkToken n, ph) ∈ new → φ n = ph := by
    intro n ph h
    rw [hφ] at h
    exact mapping_phi_respects φ new.length n ph h
  have hGood : GoodL φ L := by
    refine ⟨hsep, fun t ht => hasSub_isSubOf _ t text (htxt t ht) hPH, ?_⟩
    intro n hn
    have hnK : n < new.length := List.mem_range.mp (hperm.mem_iff.mp hn)
    have hmem : (mkToken n, φ n) ∈ new := by
      rw [hφ]
      exact List.mem_map.mpr ⟨n, List.mem_range.mpr hnK, rfl⟩
    have hnPH : hasSub ['P', 'H'] (φ n) = false :=
      hasSub_isSubOf _ _ text (hsub _ hmem) hPH
    rcases hshape _ hmem with hb | hp
    · exact phOK_of_brace (φ n) hb hnPH
    · exact phOK_of_printf (φ n) hp hnPH
  rw [hex]
  show new.foldl (fun t p => replaceAll t p.1 p.2) (flatChunks L) = text
  rw [hφ, List.foldl_map]
  show (List.range new.length).foldl
    (fun t i => replaceAll t (mkToken i) (φ i)) (flatChunks L) = text
  rw [List.range_eq_range', ← restoreC_zero φ L,
    restore_fold φ new.length L hGood hperm new.length 0 (by omega),
    show (0 : Nat) + new.length = new.length from by omega,
    restoreC_full φ new.length L
      (fun n hn => List.mem_range.mp (hperm.mem_iff.mp hn))]
  exact hunm φ hresp

/-- Claim C4 (amended): for every text that contains neither the
two-character substring PH nor the two-character substring %( ,
extract_placeholders followed by restore_placeholders with that call's own
map reproduces the original text exactly; in particular every placeholder
is back exactly where it was removed.  Additionally, when none of the
three pattern families matches anywhere in the text, extract_placeholders
returns the text unchanged with an empty map, and restoration with the
empty map is the identity. -/
theorem claim_C4_amended :
    (∀ (text : String),
        hasSub ['P', 'H'] text.data = false →
        hasSub ['%', '('] text.data = false →
        restore_placeholders (extract_placeholders text).1
          (extract_placeholders text).2 = text)
    ∧ (∀ (text : String),
      finditer matchBraceAt text.data = [] →
      finditer matchNamedAt text.data = [] →
      finditer matchPrintfAt text.data = [] →
      extract_placeholders text = (text, [])
      ∧ restore_placeholders text [] = text) := by
  constructor
  · intro text hPH hPO
    show String.mk (((extractChars text.data).2.map
        (fun p => (String.mk p.1, String.mk p.2))).foldl
        (fun t p => replaceAll t p.1.data p.2.data)
        (String.mk (extractChars text.data).1).data) = text
    rw [List.foldl_map]
    show String.mk ((extractChars text.data).2.foldl
        (fun t p => replaceAll t p.1 p.2) (extractChars text.data).1) = text
    rw [extract_restore_chars text.data hPH hPO]
  · intro text h1 h2 h3
    have e1 : applyPattern matchBraceAt (text.data, 0, []) = (text.data, 0, []) := by
      unfold applyPattern
      rw [show finditer matchBraceAt (text.data, (0 : Nat),
        ([] : List (List Char × List Char))).1 = finditer matchBraceAt text.data from rfl,
        h1]
      rfl
    have e2 : applyPattern matchNamedAt (text.data, 0, []) = (text.data, 0, []) := by
      unfold applyPattern
      rw [show finditer matchNamedAt (text.data, (0 : Nat),
        ([] : List (List Char × List Char))).1 = finditer matchNamedAt text.data from rfl,
        h2]
      rfl
    have e3 : applyPattern matchPrintfAt (text.data, 0, []) = (text.data, 0, []) := by
      unfold applyPattern
      rw [show finditer matchPrintfAt (text.data, (0 : Nat),
        ([] : List (List Char × List Char))).1 = finditer matchPrintfAt text.data from rfl,
        h3]
      rfl
    have hex : extractChars text.data = (text.data, []) := by
      simp only [extractChars]
      rw [e1, e2, e3]
    constructor
    · show (String.mk (extractChars text.data).1,
        (extractChars text.data).2.map (fun pr => (String.mk pr.1, String.mk pr.2))) = _
      rw [hex]
      rfl
    · rfl

/-- Witness for claim C4 (amended): the spec's own example text contains
neither PH nor %( and round-trips exactly through masking and
restoration. -/
theorem claim_C4_amended_witness :
    restore_placeholders
        (extract_placeholders "Hello {name}, you have %s messages").1
        (extract_placeholders "Hello {name}, you have %s messages").2
      = "Hello {name}, you have %s messages" :=
  claim_C4_amended.1 "Hello {name}, you have %s messages" (by decide) (by decide)

end Loom
